import Mathlib

/-!
# TXF export (`msdf-atlas-gen/txf-export.cpp`)

A shallow embedding of `msdf_atlas::exportTXF` and `txf_setKernIndex`.

* Machine integers are `Nat` with explicit reductions modulo `2^16` / `2^32` at every place where
  the source narrows a value (`uint16_t` header and glyph fields, `uint16_t` parameters,
  `uint32_t` subtraction).
* `double` and `float` are type parameters `D` and `F`; the arithmetic on them that the source
  uses is collected in `FloatOps`.  Every general theorem holds for every `FloatOps`.
* An out-of-bounds store into the glyph buffer is undefined behaviour in the source; the
  embedding returns `none` there.
* `std::sort` is not a stable sort, so the embedding takes the sorting routine as a
  `SortAlgorithm`: any function returning a permutation of its input that is ordered for the
  comparator of the source.
-/

namespace msdf_atlas

/-! ## Data model -/

/-- The floating-point operations of the source: `double(int)`, `double / double`, the narrowing
`double → float` of an assignment to a `float` field, the `float` whose bytes are all zero (what
`memset(gbuf, 0, ...)` leaves), and the bit pattern of a `float` (the `u` member of the union in
`KernSortEntry`). -/
structure FloatOps (D F : Type) where
  ofInt : Int → D
  div : D → D → D
  toFloat : D → F
  zero : F
  bits : F → Nat

/-- The three members of `msdfgen::FontMetrics` that the exporter reads. -/
structure FontMetrics (D : Type) where
  lineHeight : D
  ascenderY : D
  descenderY : D

/-- Modelled from the spec: `GlyphGeometry` is declared in `GlyphGeometry.h`, which is not among
the sources.  The fields are the values of the getters the exporter calls: `getIndex`,
`getCodepoint` (a `uint32_t`), `getAdvance`, `getQuadPlaneBounds` and `getQuadAtlasBounds`
(each as left, bottom, right, top). -/
structure GlyphGeometry (D : Type) where
  index : Int
  codepoint : Nat
  advance : D
  planeBounds : D × D × D × D
  atlasBounds : D × D × D × D

/-- Modelled from the spec: `FontGeometry` is declared in `FontGeometry.h`, which is not among
the sources.  `glyphs` is the sequence `getGlyphs()` iterates, `kerning` is the sequence of
`((left glyph index, right glyph index), adjustment)` entries `getKerning()` iterates, `name` is
`getName()` (`none` for a null pointer). -/
structure FontGeometry (D : Type) where
  name : Option String
  metrics : FontMetrics D
  glyphs : List (GlyphGeometry D)
  kerning : List ((Int × Int) × D)

/-- Modelled from the spec: `FontGeometry::getGlyph(GlyphIndex)` resolves a glyph index to the
glyph of this font that was registered first under that index, or to a null pointer. -/
def FontGeometry.getGlyph {D : Type} (font : FontGeometry D) (i : Int) :
    Option (GlyphGeometry D) :=
  font.glyphs.find? (fun g => g.index == i)

/-- `struct TxfHeader` (28 bytes). -/
structure TxfHeader (F : Type) where
  texW : Nat
  texH : Nat
  glyphCount : Nat
  kernOffset : Nat
  fontSize : F
  pixelRange : F
  lineHeight : F
  ascender : F
  descender : F

/-- `struct TxfGlyph` (40 bytes). -/
structure TxfGlyph (F : Type) where
  code : Nat
  kernIndex : Nat
  advance : F
  emRect : F × F × F × F
  tcRect : F × F × F × F

/-- `struct KernSortEntry`; `advance` is the `float` member of the union. -/
structure KernSortEntry (F : Type) where
  codeL : Nat
  codeR : Nat
  advance : F

/-- `sizeof(TxfHeader)`. -/
def sizeofTxfHeader : Nat := 28

/-- `sizeof(TxfGlyph)`. -/
def sizeofTxfGlyph : Nat := 40

/-- Conversion to `uint16_t`. -/
def u16 (n : Nat) : Nat := n % 2 ^ 16

/-- Conversion of an `int` to `uint16_t`. -/
def u16OfInt (n : Int) : Nat := (n % 2 ^ 16).toNat

/-- Subtraction of two `uint32_t` values. -/
def u32sub (a b : Nat) : Nat := (a % 2 ^ 32 + 2 ^ 32 - b % 2 ^ 32) % 2 ^ 32

/-- Addition of two `uint32_t` values. -/
def u32add (a b : Nat) : Nat := (a + b) % 2 ^ 32

/-! ## `txf_setKernIndex` -/

/-- The loop of `txf_setKernIndex` over the first `count` records, `code` and `index` already
narrowed to `uint16_t`. -/
def setKernIndexLoop {F : Type} : List (TxfGlyph F) → Nat → Nat → Nat → List (TxfGlyph F)
  | [], _, _, _ => []
  | g :: rest, 0, _, _ => g :: rest
  | g :: rest, count + 1, code, index =>
    if g.code = code then { g with kernIndex := index } :: rest
    else g :: setKernIndexLoop rest count code index

/-- `txf_setKernIndex(gbuf, count, code, index)`; the two last parameters are `uint16_t`. -/
def txf_setKernIndex {F : Type} (gbuf : List (TxfGlyph F)) (count code index : Nat) :
    List (TxfGlyph F) :=
  setKernIndexLoop gbuf count (u16 code) (u16 index)

/-! ## The range scan (lines 99-111) -/

/-- One iteration of the first loop over the glyphs; the state is `(lowCode, highCode)`. -/
def scanStep {D : Type} (st : Nat × Nat) (gg : GlyphGeometry D) : Nat × Nat :=
  let code := gg.codepoint
  if code > 0xffff then st
  else (if code < st.1 then code else st.1, if code > st.2 then code else st.2)

/-- The first loop: `(lowCode, highCode)` after the scan, starting from `(0xffff, 0)`. -/
def scanRange {D : Type} (glyphs : List (GlyphGeometry D)) : Nat × Nat :=
  glyphs.foldl scanStep (0xffff, 0)

/-- The statement `hdr.glyphCount = highCode - lowCode + 1`: `uint32_t` arithmetic narrowed to the
`uint16_t` header field. -/
def glyphCountOf (lowCode highCode : Nat) : Nat :=
  u16 (u32add (u32sub highCode lowCode) 1)

/-! ## The glyph table (lines 113-152) -/

/-- A record after `memset(gbuf, 0, ...)`. -/
def zeroGlyph {D F : Type} (M : FloatOps D F) : TxfGlyph F :=
  { code := 0, kernIndex := 0, advance := M.zero,
    emRect := (M.zero, M.zero, M.zero, M.zero), tcRect := (M.zero, M.zero, M.zero, M.zero) }

/-- The record the second loop stores for the glyph `gg`; `aw` and `ah` are `double(atlasWidth)`
and `double(atlasHeight)`. -/
def glyphRecord {D F : Type} (M : FloatOps D F) (aw ah : D) (gg : GlyphGeometry D) : TxfGlyph F :=
  { code := u16 gg.codepoint
    kernIndex := 0
    advance := M.toFloat gg.advance
    emRect := (M.toFloat gg.planeBounds.1, M.toFloat gg.planeBounds.2.1,
               M.toFloat gg.planeBounds.2.2.1, M.toFloat gg.planeBounds.2.2.2)
    tcRect := (M.toFloat (M.div gg.atlasBounds.1 aw), M.toFloat (M.div gg.atlasBounds.2.1 ah),
               M.toFloat (M.div gg.atlasBounds.2.2.1 aw),
               M.toFloat (M.div gg.atlasBounds.2.2.2 ah)) }

/-- One iteration of the second loop over the glyphs.  The store goes to
`gbuf + (code - lowCode)`; outside the allocated array it is undefined behaviour (`none`). -/
def fillStep {D F : Type} (M : FloatOps D F) (aw ah : D) (lowCode : Nat)
    (gbuf : Option (List (TxfGlyph F))) (gg : GlyphGeometry D) : Option (List (TxfGlyph F)) :=
  match gbuf with
  | none => none
  | some buf =>
    if gg.codepoint > 0xffff then some buf
    else
      let i := u32sub gg.codepoint lowCode
      if i < buf.length then some (buf.set i (glyphRecord M aw ah gg)) else none

/-- The glyph table before the kerning step: `glyphCount` zeroed records, then the second loop. -/
def fillGlyphs {D F : Type} (M : FloatOps D F) (aw ah : D) (lowCode glyphCount : Nat)
    (glyphs : List (GlyphGeometry D)) : Option (List (TxfGlyph F)) :=
  glyphs.foldl (fillStep M aw ah lowCode) (some (List.replicate glyphCount (zeroGlyph M)))

/-! ## The kerning table (lines 154-208) -/

/-- The body of the loop over `font.getKerning()`: the entry pushed to `ksort`, if any. -/
def kernEntry {D F : Type} (M : FloatOps D F) (font : FontGeometry D) (highCode : Nat)
    (kernPair : (Int × Int) × D) : Option (KernSortEntry F) :=
  match font.getGlyph kernPair.1.1, font.getGlyph kernPair.1.2 with
  | some geoL, some geoR =>
    if geoL.codepoint ≠ 0 ∧ geoR.codepoint ≠ 0 then
      if geoL.codepoint ≤ 0xffff ∧ geoR.codepoint ≤ highCode then
        some { codeL := geoL.codepoint, codeR := geoR.codepoint, advance := M.toFloat kernPair.2 }
      else none
    else none
  | _, _ => none

/-- The vector `ksort` after the loop over `font.getKerning()`. -/
def kernFilter {D F : Type} (M : FloatOps D F) (font : FontGeometry D) (highCode : Nat) :
    List (KernSortEntry F) :=
  font.kerning.filterMap (kernEntry M font highCode)

/-- The comparator passed to `sort`. -/
def kernLess {F : Type} (e1 e2 : KernSortEntry F) : Bool :=
  if e1.codeL < e2.codeL then true
  else if e1.codeL = e2.codeL ∧ e1.codeR < e2.codeR then true
  else false

/-- What `std::sort` with the comparator `kernLess` guarantees: the result is a permutation of the
input in which no element is less than an earlier one.  The order of equivalent elements is not
fixed. -/
structure SortAlgorithm (F : Type) where
  run : List (KernSortEntry F) → List (KernSortEntry F)
  perm : ∀ l, (run l).Perm l
  sorted : ∀ l, (run l).Pairwise (fun a b => kernLess b a = false)

/-- The state of the loop over the sorted entries: `curCode`, `kernTable`, `gbuf`. -/
structure KernState (F : Type) where
  curCode : Nat
  kernTable : List Nat
  gbuf : List (TxfGlyph F)

/-- One iteration of the loop over the sorted entries (lines 192-205). -/
def kernStep {D F : Type} (M : FloatOps D F) (glyphCount : Nat) (st : KernState F)
    (it : KernSortEntry F) : KernState F :=
  let st1 : KernState F :=
    if st.curCode ≠ it.codeL then
      let kernTable := st.kernTable ++ [0]
      { curCode := it.codeL
        kernTable := kernTable
        gbuf := txf_setKernIndex st.gbuf glyphCount it.codeL kernTable.length }
    else st
  { st1 with kernTable := st1.kernTable ++ [it.codeR, M.bits it.advance] }

/-- Lines 191-206: the loop over the sorted entries from `curCode = 0xffffffff` and an empty
`kernTable`, then the terminating zero word. -/
def kernBuild {D F : Type} (M : FloatOps D F) (glyphCount : Nat) (gbuf : List (TxfGlyph F))
    (sorted : List (KernSortEntry F)) : KernState F :=
  let st := sorted.foldl (kernStep M glyphCount)
    { curCode := 0xffffffff, kernTable := [], gbuf := gbuf }
  { st with kernTable := st.kernTable ++ [0] }

/-- The value assigned to `hdr.kernOffset` (lines 188-189), narrowed to `uint16_t`. -/
def kernOffsetOf (glyphCount : Nat) : Nat :=
  u16 ((sizeofTxfHeader + sizeofTxfGlyph * glyphCount) / 4)

/-! ## One font -/

/-- What `exportTXF` holds for one font when it reaches the `fwrite` calls. -/
structure TxfFile (F : Type) where
  hdr : TxfHeader F
  gbuf : List (TxfGlyph F)
  kernTable : List Nat

/-- The body of the loop of `exportTXF` for one font, from line 76 to the `fwrite` calls. -/
def exportFont {D F : Type} (M : FloatOps D F) (S : SortAlgorithm F) (font : FontGeometry D)
    (fontSize pixelRange : D) (atlasWidth atlasHeight : Int) (kerning : Bool) :
    Option (TxfFile F) :=
  let hdr0 : TxfHeader F :=
    { texW := u16OfInt atlasWidth, texH := u16OfInt atlasHeight, glyphCount := 0, kernOffset := 0,
      fontSize := M.toFloat fontSize, pixelRange := M.toFloat pixelRange,
      lineHeight := M.toFloat font.metrics.lineHeight,
      ascender := M.toFloat font.metrics.ascenderY,
      descender := M.toFloat font.metrics.descenderY }
  let aw := M.ofInt atlasWidth
  let ah := M.ofInt atlasHeight
  let range := scanRange font.glyphs
  let lowCode := range.1
  let highCode := range.2
  let hdr1 : TxfHeader F := { hdr0 with glyphCount := glyphCountOf lowCode highCode }
  match fillGlyphs M aw ah lowCode hdr1.glyphCount font.glyphs with
  | none => none
  | some gbuf =>
    if kerning then
      let ksort := kernFilter M font highCode
      if ksort.isEmpty then some { hdr := hdr1, gbuf := gbuf, kernTable := [] }
      else
        let sorted := S.run ksort
        let hdr2 : TxfHeader F := { hdr1 with kernOffset := kernOffsetOf hdr1.glyphCount }
        let st := kernBuild M hdr1.glyphCount gbuf sorted
        some { hdr := hdr2, gbuf := st.gbuf, kernTable := st.kernTable }
    else some { hdr := hdr1, gbuf := gbuf, kernTable := [] }

/-- One `fwrite` request: the header, the glyph records, or the kerning words. -/
inductive Chunk (F : Type) where
  | header : TxfHeader F → Chunk F
  | glyphs : List (TxfGlyph F) → Chunk F
  | kern : List Nat → Chunk F

/-- Number of bytes of a request. -/
def Chunk.bytes {F : Type} : Chunk F → Nat
  | .header _ => sizeofTxfHeader
  | .glyphs g => sizeofTxfGlyph * g.length
  | .kern w => 4 * w.length

/-- The `fwrite` requests of lines 210-215 in order, when no write is short: the header,
`hdr.glyphCount` glyph records, and the kerning words unless `kernTable` is empty. -/
def fontWrites {F : Type} (out : TxfFile F) : List (Chunk F) :=
  [Chunk.header out.hdr, Chunk.glyphs (out.gbuf.take out.hdr.glyphCount)] ++
    (if out.kernTable.isEmpty then [] else [Chunk.kern out.kernTable])

/-- Total number of bytes requested. -/
def fontBytes {F : Type} (out : TxfFile F) : Nat :=
  ((fontWrites out).map Chunk.bytes).sum

/-! ## The loop over the fonts (lines 51-74 and 210-227) -/

/-- The text starts with the needle. -/
def startsWith : List Char → List Char → Bool
  | _, [] => true
  | [], _ :: _ => false
  | h :: hs, n :: ns => h == n && startsWith hs ns

/-- `strstr(text, needle)`: the offset of the first occurrence of the needle, `none` for a null
pointer. -/
def strstr : List Char → List Char → Option Nat
  | [], needle => if startsWith [] needle then some 0 else none
  | h :: hs, needle =>
    if startsWith (h :: hs) needle then some 0 else (strstr hs needle).map (· + 1)

/-- The string `".txf"`. -/
def txfExtension : List Char := ['.', 't', 'x', 'f']

/-- The text `sprintf` writes at `base`: `"-%s.txf"` with the name of the font, or `"-%d.txf"`
with the index of the font when `getName()` is a null pointer. -/
def nameSuffix (i : Nat) (name : Option String) : List Char :=
  match name with
  | some n => '-' :: n.data ++ txfExtension
  | none => '-' :: (Nat.repr i).data ++ txfExtension

/-- Lines 60-70: the content of `outfile` for font `i`.  Strings are the characters before the
terminating NUL.  `none`: `strcpy` or `sprintf` writes beyond `char outfile[512]`. -/
def outfilePath (filename : List Char) (fontCount i : Nat) (name : Option String) :
    Option (List Char) :=
  if 512 ≤ filename.length then none
  else if 1 < fontCount then
    let base := match strstr filename txfExtension with
      | some k => k
      | none => filename.length
    if 512 < base + (nameSuffix i name).length + 1 then none
    else some (filename.take base ++ nameSuffix i name)
  else some filename

/-- The number of items of a request, the count `fwrite` is asked to write and the value its
result is compared with: bytes for the header, records for the glyph array, words for the
kerning table. -/
def Chunk.items {F : Type} : Chunk F → Nat
  | .header _ => sizeofTxfHeader
  | .glyphs g => g.length
  | .kern w => w.length

/-- The file services the exporter uses, as answers to its calls for font `i`: whether
`fopen(path, "wb")` returns a file, and the number of items `fwrite` reports as written. -/
structure Sink (F : Type) where
  fopen : Nat → List Char → Bool
  fwrite : Nat → Chunk F → Nat

/-- What happened to the output file of one font: its path, whether it was opened, and the
`fwrite` calls in order, each with the request and the result. -/
structure FileLog (F : Type) where
  path : List Char
  opened : Bool
  writes : List (Chunk F × Nat)

/-- The variables declared before the loop (lines 51-55) whose values outlive an iteration. -/
structure Carried (F : Type) where
  hdr : TxfHeader F
  kernTable : List Nat
  highCode : Nat

/-- Lines 191-206 on the vector `kernTable` as the iteration finds it. -/
def kernBuildFrom {D F : Type} (M : FloatOps D F) (glyphCount : Nat) (gbuf : List (TxfGlyph F))
    (sorted : List (KernSortEntry F)) (kernTable : List Nat) : KernState F :=
  let st := sorted.foldl (kernStep M glyphCount)
    { curCode := 0xffffffff, kernTable := kernTable, gbuf := gbuf }
  { st with kernTable := st.kernTable ++ [0] }

/-- One iteration of the loop of `exportTXF` between `fopen` and the `fwrite` calls, on the
variables as the previous iteration left them: every field of `hdr` is assigned, `highCode` is
set to 0 before the scan, `kernTable` is appended to.  The result is what the `fwrite` calls
see and the variables after `kernTable.clear()`. -/
def fontBody {D F : Type} (M : FloatOps D F) (S : SortAlgorithm F) (c : Carried F)
    (font : FontGeometry D) (fontSize pixelRange : D) (atlasWidth atlasHeight : Int)
    (kerning : Bool) : Option (TxfFile F × Carried F) :=
  let hdr0 : TxfHeader F :=
    { c.hdr with
      texW := u16OfInt atlasWidth, texH := u16OfInt atlasHeight, glyphCount := 0, kernOffset := 0,
      fontSize := M.toFloat fontSize, pixelRange := M.toFloat pixelRange,
      lineHeight := M.toFloat font.metrics.lineHeight,
      ascender := M.toFloat font.metrics.ascenderY,
      descender := M.toFloat font.metrics.descenderY }
  let aw := M.ofInt atlasWidth
  let ah := M.ofInt atlasHeight
  let range := scanRange font.glyphs
  let lowCode := range.1
  let highCode := range.2
  let hdr1 : TxfHeader F := { hdr0 with glyphCount := glyphCountOf lowCode highCode }
  match fillGlyphs M aw ah lowCode hdr1.glyphCount font.glyphs with
  | none => none
  | some gbuf =>
    let out : TxfFile F :=
      if kerning then
        let ksort := kernFilter M font highCode
        if ksort.isEmpty then { hdr := hdr1, gbuf := gbuf, kernTable := c.kernTable }
        else
          let sorted := S.run ksort
          let hdr2 : TxfHeader F := { hdr1 with kernOffset := kernOffsetOf hdr1.glyphCount }
          let st := kernBuildFrom M hdr1.glyphCount gbuf sorted c.kernTable
          { hdr := hdr2, gbuf := st.gbuf, kernTable := st.kernTable }
      else { hdr := hdr1, gbuf := gbuf, kernTable := c.kernTable }
    some (out, { hdr := out.hdr, kernTable := [], highCode := highCode })

/-- The loop of `exportTXF` from font `i` on.  The result is the value of `ok` and the log of
the output files touched, in order; `none` is undefined behaviour (an overflow of `outfile` or
a store outside the glyph array).  A failed `fopen` returns `false` at once; a short write of
the header or of the glyph array sets `ok = false`, which ends the loop; the result of the
`fwrite` of the kerning words is not looked at. -/
def exportLoop {D F : Type} (M : FloatOps D F) (S : SortAlgorithm F) (sink : Sink F)
    (fontCount : Nat) (fontSize pixelRange : D) (atlasWidth atlasHeight : Int)
    (filename : List Char) (kerning : Bool) :
    List (FontGeometry D) → Nat → Carried F → Option (Bool × List (FileLog F))
  | [], _, _ => some (true, [])
  | font :: rest, i, c =>
    match outfilePath filename fontCount i font.name with
    | none => none
    | some path =>
      if sink.fopen i path then
        match fontBody M S c font fontSize pixelRange atlasWidth atlasHeight kerning with
        | none => none
        | some (out, c1) =>
          let hdrChunk := Chunk.header out.hdr
          let h := sink.fwrite i hdrChunk
          if h = sizeofTxfHeader then
            let glyphChunk := Chunk.glyphs (out.gbuf.take out.hdr.glyphCount)
            let g := sink.fwrite i glyphChunk
            if g = out.hdr.glyphCount then
              let kernWrites :=
                if out.kernTable.isEmpty then []
                else [(Chunk.kern out.kernTable, sink.fwrite i (Chunk.kern out.kernTable))]
              match exportLoop M S sink fontCount fontSize pixelRange atlasWidth atlasHeight
                  filename kerning rest (i + 1) c1 with
              | none => none
              | some (ok, logs) =>
                some (ok, { path := path, opened := true,
                            writes := [(hdrChunk, h), (glyphChunk, g)] ++ kernWrites } :: logs)
            else
              some (false, [{ path := path, opened := true,
                              writes := [(hdrChunk, h), (glyphChunk, g)] }])
          else some (false, [{ path := path, opened := true, writes := [(hdrChunk, h)] }])
      else some (false, [{ path := path, opened := false, writes := [] }])

/-- `exportTXF(fonts, fontCount, fontSize, pixelRange, atlasWidth, atlasHeight, yDirection,
filename, kerning)` with `fontCount` the length of `fonts`; `yDirection` is not used by the
source.  `hdr` and `highCode` are not initialised at their declaration; `junkHdr` and
`junkHighCode` stand for their indeterminate first values.  `kernTable` starts empty. -/
def exportTXF {D F : Type} (M : FloatOps D F) (S : SortAlgorithm F) (sink : Sink F)
    (junkHdr : TxfHeader F) (junkHighCode : Nat) (fonts : List (FontGeometry D))
    (fontSize pixelRange : D) (atlasWidth atlasHeight : Int) (filename : List Char)
    (kerning : Bool) : Option (Bool × List (FileLog F)) :=
  exportLoop M S sink fonts.length fontSize pixelRange atlasWidth atlasHeight filename kerning
    fonts 0 { hdr := junkHdr, kernTable := [], highCode := junkHighCode }

/-! ## Concrete instances used for evaluation -/

/-- The comparator as a decidable relation for insertion sort: `a` may precede `b`. -/
def kernLe {F : Type} (a b : KernSortEntry F) : Prop := kernLess b a = false

instance kernLe.decidable {F : Type} : DecidableRel (kernLe (F := F)) := fun a b =>
  inferInstanceAs (Decidable (kernLess b a = false))

instance kernLe.isTotal {F : Type} : IsTotal (KernSortEntry F) kernLe :=
  ⟨fun a b => by
    unfold kernLe kernLess
    by_cases h1 : b.codeL < a.codeL
    · right
      rw [if_neg (by omega), if_neg (by omega)]
    · by_cases h2 : b.codeL = a.codeL ∧ b.codeR < a.codeR
      · right
        rw [if_neg (by omega), if_neg (by omega)]
      · left
        rw [if_neg h1, if_neg h2]⟩

instance kernLe.isTrans {F : Type} : IsTrans (KernSortEntry F) kernLe :=
  ⟨fun a b c => by
    unfold kernLe kernLess
    intro hab hbc
    by_cases h1 : b.codeL < a.codeL
    · rw [if_pos h1] at hab; cases hab
    · by_cases h2 : b.codeL = a.codeL ∧ b.codeR < a.codeR
      · rw [if_neg h1, if_pos h2] at hab; cases hab
      · by_cases h3 : c.codeL < b.codeL
        · rw [if_pos h3] at hbc; cases hbc
        · by_cases h4 : c.codeL = b.codeL ∧ c.codeR < b.codeR
          · rw [if_neg h3, if_pos h4] at hbc; cases hbc
          · rw [if_neg (by omega), if_neg (by omega)]⟩

/-- Insertion sort for the comparator of the source: one admissible behaviour of `std::sort`. -/
def insertionSort {F : Type} : SortAlgorithm F :=
  { run := List.insertionSort kernLe
    perm := fun l => List.perm_insertionSort kernLe l
    sorted := fun l => List.sorted_insertionSort kernLe l }

/-- `floor (p / q * 2 ^ k)` for naturals `p`, `q` and an integer `k`. -/
def scaledFloor (p q : Nat) (k : Int) : Nat :=
  if 0 ≤ k then p * 2 ^ k.toNat / q else p / (q * 2 ^ (-k).toNat)

/-- Whether `p / q * 2 ^ k` is a natural number. -/
def scaledExact (p q : Nat) (k : Int) : Bool :=
  if 0 ≤ k then p * 2 ^ k.toNat % q == 0 else p % (q * 2 ^ (-k).toNat) == 0

/-- `p / q * 2 ^ k` rounded to the nearest natural number, a tie to the even one: the floor
when the doubled value has an even floor (the fraction is below one half) or when the value is
halfway above an even floor, else the floor plus one. -/
def roundScaled (p q : Nat) (k : Int) : Nat :=
  let f := scaledFloor p q k
  if scaledFloor p q (k + 1) % 2 = 0 then f
  else if scaledExact p q (k + 1) && f % 2 == 0 then f
  else f + 1

/-- The integer `e` with `2 ^ e ≤ p / q < 2 ^ (e + 1)`, for positive `p` and `q`. -/
def floorLog2 (p q : Nat) : Int :=
  let e0 : Int := (Nat.log2 p : Int) - (Nat.log2 q : Int)
  if 1 ≤ scaledFloor p q (-e0) then e0 else e0 - 1

/-- The conversion `double → float` of the assignment `ent.advance.f = kernPair.second` on the
number the `double` denotes, as the IEEE-754 binary32 bit pattern of the result: round to
nearest, ties to even (the default rounding mode), subnormal results included; a magnitude
that rounds beyond the largest finite `float` gives the pattern of an infinity.  The exponent
is clamped at -126, the significand is rounded to a multiple of `2 ^ (e - 23)`, and a
significand that rounds up to `2 ^ 24` carries into the exponent field.  A rational number has
no signed zero: 0 gives the pattern of `+0.0`. -/
def binary32 (x : ℚ) : Nat :=
  let p := x.num.natAbs
  let q := x.den
  if p = 0 then 0
  else
    let s := if x.num < 0 then 2 ^ 31 else 0
    let e : Int := floorLog2 p q
    let ec : Int := if e < -126 then -126 else e
    let w := (ec + 126).toNat * 2 ^ 23 + roundScaled p q (23 - ec)
    if 0x7f800000 ≤ w then s + 0x7f800000 else s + w

/-- The exact reading of the arithmetic, used to evaluate the exporter on concrete fonts: a
`double` and a `float` are the rational numbers they denote, division and narrowing do not round
(division by zero gives `0`), and the bit pattern is `binary32`. -/
def exactOps : FloatOps ℚ ℚ :=
  { ofInt := fun n => (n : ℚ)
    div := fun a b => a / b
    toFloat := fun a => a
    zero := 0
    bits := binary32 }

/-- A glyph for the concrete fonts below: unit plane bounds and a 32 by 32 pixel box in the
atlas. -/
def sampleGlyph (index : Int) (codepoint : Nat) (advance : ℚ) : GlyphGeometry ℚ :=
  { index := index, codepoint := codepoint, advance := advance,
    planeBounds := (0, 0, 1, 1), atlasBounds := (0, 0, 32, 32) }

/-- Font metrics for the concrete fonts below. -/
def sampleMetrics : FontMetrics ℚ := { lineHeight := 1, ascenderY := 1, descenderY := 0 }

/-- A font with a glyph for U+0000 and a glyph for U+FFFF. -/
def fullSpanFont : FontGeometry ℚ :=
  { name := none, metrics := sampleMetrics,
    glyphs := [sampleGlyph 1 0 1, sampleGlyph 2 0xffff 1], kerning := [] }

/-- A font with glyphs for U+0001 and U+1999 (6553 codepoints apart, ends included) and one
kerning pair between them. -/
def wideFont : FontGeometry ℚ :=
  { name := none, metrics := sampleMetrics,
    glyphs := [sampleGlyph 1 1 1, sampleGlyph 2 6553 1], kerning := [((1, 2), -2)] }

/-- Scenario A: glyphs for 'A', 'B', 'C' and no kerning pair. -/
def scenarioA : FontGeometry ℚ :=
  { name := none, metrics := sampleMetrics,
    glyphs := [sampleGlyph 1 65 1, sampleGlyph 2 66 1, sampleGlyph 3 67 1], kerning := [] }

/-- A font with two glyphs for the codepoint 'A', with advances 1 and 2. -/
def twoGlyphsOneCode : FontGeometry ℚ :=
  { name := none, metrics := sampleMetrics,
    glyphs := [sampleGlyph 1 65 1, sampleGlyph 2 65 2], kerning := [] }

/-- Scenario B: glyphs for 'A', 'B', 'C' and the kerning pair (A, B, -2.0). -/
def scenarioB : FontGeometry ℚ :=
  { name := none, metrics := sampleMetrics,
    glyphs := [sampleGlyph 1 65 1, sampleGlyph 2 66 1, sampleGlyph 3 67 1],
    kerning := [((1, 2), -2)] }

/-- Scenario C: glyphs for 'A', 'B', 'C' and for U+10041, and a kerning pair from 'A' to the
glyph of U+10041. -/
def scenarioC : FontGeometry ℚ :=
  { name := none, metrics := sampleMetrics,
    glyphs := [sampleGlyph 1 65 1, sampleGlyph 2 66 1, sampleGlyph 3 67 1,
      sampleGlyph 4 0x10041 1],
    kerning := [((1, 4), -2)] }

/-- Glyphs for 'A' and 'B' and a kerning pair (A, B) whose adjustment is `0.0`. -/
def zeroAdvanceFont : FontGeometry ℚ :=
  { name := none, metrics := sampleMetrics,
    glyphs := [sampleGlyph 1 65 1, sampleGlyph 2 66 1], kerning := [((1, 2), 0)] }

/-- A font with glyphs for the codepoints `1..n` (glyph index = codepoint), the kerning pairs
`(1, r)` for `r = 1..n` and the kerning pair `(2, 1)`, all with the adjustment -2.0. -/
def manyPairsFont (n : Nat) : FontGeometry ℚ :=
  { name := none, metrics := sampleMetrics,
    glyphs := (List.range n).map (fun k => sampleGlyph ((k + 1 : Nat) : Int) (k + 1) 1),
    kerning := (List.range n).map (fun k => (((1 : Int), ((k + 1 : Nat) : Int)), (-2 : ℚ))) ++
      [(((2 : Int), (1 : Int)), (-2 : ℚ))] }

/-- A font whose only glyph is the glyph of U+10041, with a kerning pair of that glyph with
itself. -/
def astralFont : FontGeometry ℚ :=
  { name := none, metrics := sampleMetrics,
    glyphs := [sampleGlyph 1 0x10041 1], kerning := [((1, 1), -2)] }

/-- A sink that opens every file and accepts every item. -/
def acceptAll (F : Type) : Sink F :=
  { fopen := fun _ _ => true, fwrite := fun _ ch => ch.items }

/-- A sink that opens every file, accepts the header and the glyph records in full, and accepts
none of the kerning words (a device that fills up after the glyph records). -/
def noKernSink (F : Type) : Sink F :=
  { fopen := fun _ _ => true
    fwrite := fun _ ch =>
      match ch with
      | .kern _ => 0
      | c => c.items }

/-! ## Auxiliary notions used in the statements -/

/-- The two words the loop pushes for every entry: right codepoint and advance bits. -/
def pairWords {D F : Type} (M : FloatOps D F) (e : KernSortEntry F) : List Nat :=
  [e.codeR, M.bits e.advance]

/-- The words the loop over the sorted entries pushes for the entries `l` when it is entered with
`curCode = cur`. -/
def flatWords {D F : Type} (M : FloatOps D F) : Nat → List (KernSortEntry F) → List Nat
  | _, [] => []
  | cur, e :: l => (if cur ≠ e.codeL then [0] else []) ++ pairWords M e ++ flatWords M e.codeL l

/-- A glyph record with its `kernIndex` replaced when its code is `c`. -/
def patchKern {F : Type} (c i : Nat) (g : TxfGlyph F) : TxfGlyph F :=
  if g.code = c then { g with kernIndex := i } else g

/-- The entries of `l` that precede the first entry with left codepoint `c`. -/
def entriesBefore {F : Type} (l : List (KernSortEntry F)) (c : Nat) : List (KernSortEntry F) :=
  l.takeWhile (fun x => decide (x.codeL ≠ c))

/-- The word index, counted from the start of the kerning table, of the first
(right codepoint, advance bits) pair of the run of left codepoint `c`: the number of words the
earlier entries occupy, plus one for the placeholder word of the run. -/
def runStart {D F : Type} (M : FloatOps D F) (sorted : List (KernSortEntry F)) (c : Nat) : Nat :=
  (flatWords M 0xffffffff (entriesBefore sorted c)).length + 1

/-- No two records carry the same non-zero code. -/
def DistinctCodes {F : Type} (gbuf : List (TxfGlyph F)) : Prop :=
  gbuf.Pairwise (fun a b => a.code ≠ 0 → a.code ≠ b.code)

/-- The value of `lowCode` after the range scan of a font. -/
def FontGeometry.lowCode {D : Type} (font : FontGeometry D) : Nat := (scanRange font.glyphs).1

/-- The value of `highCode` after the range scan of a font. -/
def FontGeometry.highCode {D : Type} (font : FontGeometry D) : Nat := (scanRange font.glyphs).2

/-- The value stored in `hdr.glyphCount` for a font. -/
def FontGeometry.glyphCount {D : Type} (font : FontGeometry D) : Nat :=
  glyphCountOf font.lowCode font.highCode

/-- The kerning pairs of a font that survive the filter, in the order of `getKerning()`. -/
def survivors {D F : Type} (M : FloatOps D F) (font : FontGeometry D) : List (KernSortEntry F) :=
  kernFilter M font font.highCode

/-- Two entries belong to the same run: they have the same left codepoint. -/
def sameLeft {F : Type} (a b : KernSortEntry F) : Bool := a.codeL == b.codeL

/-- The words of one run: the placeholder word `0`, then right codepoint and advance bits of
every pair of the run in order. -/
def runWords {D F : Type} (M : FloatOps D F) (run : List (KernSortEntry F)) : List Nat :=
  0 :: run.flatMap (pairWords M)

/-- The reference layout of the kerning table, following the wording of the specification: the
sorted pairs are cut into the maximal groups of equal left codepoint, every group gives one word
`0` followed by the two words of each of its pairs, and one final word `0` ends the table. -/
def referenceKernTable {D F : Type} (M : FloatOps D F) (sorted : List (KernSortEntry F)) :
    List Nat :=
  ((sorted.splitBy sameLeft).map (runWords M)).flatten ++ [0]

/-- The reader of one kerning run: from the given words it takes (right codepoint, advance
bits) pairs two words at a time and stops at the first position whose right-codepoint word is
0.  `none`: the reader runs off the end of the words without meeting such a position. -/
def readPairs : List Nat → Option (List (Nat × Nat))
  | [] => none
  | [r] => if r = 0 then some [] else none
  | r :: a :: rest => if r = 0 then some [] else (readPairs rest).map (fun l => (r, a) :: l)

/-- Reading the kerning table from word `k`. -/
def readRun (table : List Nat) (k : Nat) : Option (List (Nat × Nat)) :=
  readPairs (table.drop k)

/-! ## Fixed-width arithmetic -/

/-- The comparator is the strict lexicographic order on (left codepoint, right codepoint). -/
theorem kernLess_eq_false_iff {F : Type} (x y : KernSortEntry F) :
    kernLess x y = false ↔
      ¬ (x.codeL < y.codeL ∨ (x.codeL = y.codeL ∧ x.codeR < y.codeR)) := by
  unfold kernLess
  by_cases h1 : x.codeL < y.codeL
  · simp [h1]
  · by_cases h2 : x.codeL = y.codeL ∧ x.codeR < y.codeR
    · rw [if_neg h1, if_pos h2]; simp [h2]
    · rw [if_neg h1, if_neg h2]; simp only [true_iff]; rintro (h | h)
      · exact h1 h
      · exact h2 h


theorem u16_of_le {n : Nat} (h : n ≤ 0xffff) : u16 n = n := by
  unfold u16; omega

theorem u32sub_of_le {a b : Nat} (hb : b ≤ a) (ha : a ≤ 0xffff) : u32sub a b = a - b := by
  unfold u32sub; omega

theorem glyphCountOf_of_le {lowCode highCode : Nat} (h : lowCode ≤ highCode)
    (hh : highCode ≤ 0xffff) :
    glyphCountOf lowCode highCode = (highCode - lowCode + 1) % 2 ^ 16 := by
  unfold glyphCountOf u16 u32add
  rw [u32sub_of_le h hh]
  omega

theorem kernOffsetOf_eq (glyphCount : Nat) :
    kernOffsetOf glyphCount = (7 + 10 * glyphCount) % 2 ^ 16 := by
  unfold kernOffsetOf u16 sizeofTxfHeader sizeofTxfGlyph
  omega

theorem kernOffsetOf_ne_zero (glyphCount : Nat) : kernOffsetOf glyphCount ≠ 0 := by
  rw [kernOffsetOf_eq]; omega

/-! ## Narrowing to binary32 -/

section Narrowing

theorem binary32_neg_two : binary32 (-2) = 0xC0000000 := by
  with_unfolding_all rfl

end Narrowing

/-! ## The range scan -/

section Scan

variable {D : Type}

theorem scan_foldl_spec (gl : List (GlyphGeometry D)) :
    ∀ st : Nat × Nat,
      (gl.foldl scanStep st).1 ≤ st.1 ∧ st.2 ≤ (gl.foldl scanStep st).2 ∧
      (∀ g ∈ gl, g.codepoint ≤ 0xffff →
        (gl.foldl scanStep st).1 ≤ g.codepoint ∧ g.codepoint ≤ (gl.foldl scanStep st).2) ∧
      ((gl.foldl scanStep st).1 = st.1 ∨
        ∃ g ∈ gl, g.codepoint ≤ 0xffff ∧ g.codepoint = (gl.foldl scanStep st).1) ∧
      ((gl.foldl scanStep st).2 = st.2 ∨
        ∃ g ∈ gl, g.codepoint ≤ 0xffff ∧ g.codepoint = (gl.foldl scanStep st).2) := by
  induction gl with
  | nil => intro st; simp
  | cons a l ih =>
    intro st
    obtain ⟨h1, h2, h3, h4, h5⟩ := ih (scanStep st a)
    simp only [List.foldl_cons]
    by_cases ha : a.codepoint > 0xffff
    · have hs : scanStep st a = st := by simp [scanStep, ha]
      rw [hs] at h1 h2 h3 h4 h5 ⊢
      refine ⟨h1, h2, ?_, ?_, ?_⟩
      · intro g hg hle
        rcases List.mem_cons.1 hg with rfl | hg
        · omega
        · exact h3 g hg hle
      · rcases h4 with h | ⟨g, hg, hle, he⟩
        · exact Or.inl h
        · exact Or.inr ⟨g, List.mem_cons_of_mem _ hg, hle, he⟩
      · rcases h5 with h | ⟨g, hg, hle, he⟩
        · exact Or.inl h
        · exact Or.inr ⟨g, List.mem_cons_of_mem _ hg, hle, he⟩
    · have hs1 : (scanStep st a).1 = if a.codepoint < st.1 then a.codepoint else st.1 := by
        simp [scanStep, ha]
      have hs2 : (scanStep st a).2 = if a.codepoint > st.2 then a.codepoint else st.2 := by
        simp [scanStep, ha]
      have ha' : a.codepoint ≤ 0xffff := by omega
      refine ⟨?_, ?_, ?_, ?_, ?_⟩
      · rw [hs1] at h1; split at h1 <;> omega
      · rw [hs2] at h2; split at h2 <;> omega
      · intro g hg hle
        rcases List.mem_cons.1 hg with rfl | hg
        · rw [hs1] at h1; rw [hs2] at h2
          constructor
          · split at h1 <;> omega
          · split at h2 <;> omega
        · exact h3 g hg hle
      · rcases h4 with h | ⟨g, hg, hle, he⟩
        · rw [hs1] at h
          by_cases hlt : a.codepoint < st.1
          · rw [if_pos hlt] at h
            exact Or.inr ⟨a, List.mem_cons_self _ _, ha', h.symm⟩
          · rw [if_neg hlt] at h
            exact Or.inl h
        · exact Or.inr ⟨g, List.mem_cons_of_mem _ hg, hle, he⟩
      · rcases h5 with h | ⟨g, hg, hle, he⟩
        · rw [hs2] at h
          by_cases hlt : a.codepoint > st.2
          · rw [if_pos hlt] at h
            exact Or.inr ⟨a, List.mem_cons_self _ _, ha', h.symm⟩
          · rw [if_neg hlt] at h
            exact Or.inl h
        · exact Or.inr ⟨g, List.mem_cons_of_mem _ hg, hle, he⟩

/-- Every eligible codepoint lies between `lowCode` and `highCode`. -/
theorem scanRange_bounds (gl : List (GlyphGeometry D)) (g : GlyphGeometry D) (hg : g ∈ gl)
    (hle : g.codepoint ≤ 0xffff) :
    (scanRange gl).1 ≤ g.codepoint ∧ g.codepoint ≤ (scanRange gl).2 :=
  (scan_foldl_spec gl (0xffff, 0)).2.2.1 g hg hle

/-- With an eligible glyph, `lowCode` is the codepoint of an eligible glyph. -/
theorem scanRange_low_mem (gl : List (GlyphGeometry D))
    (hex : ∃ g ∈ gl, g.codepoint ≤ 0xffff) :
    ∃ g ∈ gl, g.codepoint ≤ 0xffff ∧ g.codepoint = (scanRange gl).1 := by
  rcases (scan_foldl_spec gl (0xffff, 0)).2.2.2.1 with h | h
  · obtain ⟨g, hg, hle⟩ := hex
    have hb := (scanRange_bounds gl g hg hle).1
    refine ⟨g, hg, hle, ?_⟩
    have h' : (scanRange gl).1 = 0xffff := h
    omega
  · exact h

/-- With an eligible glyph, `highCode` is the codepoint of an eligible glyph. -/
theorem scanRange_high_mem (gl : List (GlyphGeometry D))
    (hex : ∃ g ∈ gl, g.codepoint ≤ 0xffff) :
    ∃ g ∈ gl, g.codepoint ≤ 0xffff ∧ g.codepoint = (scanRange gl).2 := by
  rcases (scan_foldl_spec gl (0xffff, 0)).2.2.2.2 with h | h
  · obtain ⟨g, hg, hle⟩ := hex
    have hb := (scanRange_bounds gl g hg hle).2
    refine ⟨g, hg, hle, ?_⟩
    have h' : (scanRange gl).2 = 0 := h
    omega
  · exact h

theorem scanRange_low_le_high (gl : List (GlyphGeometry D))
    (hex : ∃ g ∈ gl, g.codepoint ≤ 0xffff) :
    (scanRange gl).1 ≤ (scanRange gl).2 ∧ (scanRange gl).2 ≤ 0xffff := by
  obtain ⟨g, hg, hle⟩ := hex
  have hb := scanRange_bounds gl g hg hle
  obtain ⟨g2, _, hle2, he2⟩ := scanRange_high_mem gl ⟨g, hg, hle⟩
  omega

/-- Without an eligible glyph the scan leaves the initial values. -/
theorem scanRange_of_no_eligible (gl : List (GlyphGeometry D))
    (hno : ∀ g ∈ gl, ¬ g.codepoint ≤ 0xffff) : scanRange gl = (0xffff, 0) := by
  have h := scan_foldl_spec gl (0xffff, 0)
  rcases h.2.2.2.1 with h1 | ⟨g, hg, hle, _⟩
  · rcases h.2.2.2.2 with h2 | ⟨g, hg, hle, _⟩
    · exact Prod.ext h1 h2
    · exact absurd hle (hno g hg)
  · exact absurd hle (hno g hg)

end Scan

/-! ## The glyph table -/

section Fill

variable {D F : Type} (M : FloatOps D F) (aw ah : D) (lowCode : Nat)

theorem fill_foldl_none (gl : List (GlyphGeometry D)) :
    gl.foldl (fillStep M aw ah lowCode) none = none := by
  induction gl with
  | nil => rfl
  | cons a l ih => simpa [fillStep] using ih

theorem fillStep_skip (buf : List (TxfGlyph F)) (a : GlyphGeometry D)
    (ha : ¬ a.codepoint ≤ 0xffff) : fillStep M aw ah lowCode (some buf) a = some buf := by
  have : a.codepoint > 0xffff := by omega
  simp [fillStep, this]

theorem fillStep_store (buf : List (TxfGlyph F)) (a : GlyphGeometry D)
    (ha : a.codepoint ≤ 0xffff) (hi : u32sub a.codepoint lowCode < buf.length) :
    fillStep M aw ah lowCode (some buf) a =
      some (buf.set (u32sub a.codepoint lowCode) (glyphRecord M aw ah a)) := by
  have : ¬ a.codepoint > 0xffff := by omega
  simp [fillStep, this, hi]

theorem fillStep_outside (buf : List (TxfGlyph F)) (a : GlyphGeometry D)
    (ha : a.codepoint ≤ 0xffff) (hi : ¬ u32sub a.codepoint lowCode < buf.length) :
    fillStep M aw ah lowCode (some buf) a = none := by
  have : ¬ a.codepoint > 0xffff := by omega
  simp [fillStep, this, hi]

/-- The second loop when every store is inside the buffer: the length is kept, a slot no eligible
glyph maps to is untouched, and a slot holds the record of the last glyph that maps to it. -/
theorem fill_foldl_spec (gl : List (GlyphGeometry D)) :
    ∀ buf : List (TxfGlyph F),
      (∀ g ∈ gl, g.codepoint ≤ 0xffff → u32sub g.codepoint lowCode < buf.length) →
      ∃ buf1, gl.foldl (fillStep M aw ah lowCode) (some buf) = some buf1 ∧
        buf1.length = buf.length ∧
        (∀ i, (∀ g ∈ gl, g.codepoint ≤ 0xffff → u32sub g.codepoint lowCode ≠ i) →
          buf1[i]? = buf[i]?) ∧
        (∀ pre g post, gl = pre ++ g :: post → g.codepoint ≤ 0xffff →
          (∀ x ∈ post, x.codepoint ≤ 0xffff →
            u32sub x.codepoint lowCode ≠ u32sub g.codepoint lowCode) →
          buf1[u32sub g.codepoint lowCode]? = some (glyphRecord M aw ah g)) := by
  induction gl with
  | nil =>
    intro buf _
    exact ⟨buf, rfl, rfl, fun _ _ => rfl, fun pre g post h => by simp at h⟩
  | cons a l ih =>
    intro buf hin
    by_cases ha : a.codepoint ≤ 0xffff
    · have hi := hin a (List.mem_cons_self _ _) ha
      obtain ⟨buf1, h1, h2, h3, h4⟩ := ih (buf.set (u32sub a.codepoint lowCode)
        (glyphRecord M aw ah a)) (fun g hg hle => by
          rw [List.length_set]; exact hin g (List.mem_cons_of_mem _ hg) hle)
      refine ⟨buf1, ?_, ?_, ?_, ?_⟩
      · rw [List.foldl_cons, fillStep_store M aw ah lowCode buf a ha hi]; exact h1
      · rw [h2, List.length_set]
      · intro i hne
        rw [h3 i (fun g hg hle => hne g (List.mem_cons_of_mem _ hg) hle)]
        exact List.getElem?_set_ne (hne a (List.mem_cons_self _ _) ha)
      · intro pre g post hsplit hle hlast
        cases pre with
        | nil =>
          simp only [List.nil_append, List.cons.injEq] at hsplit
          obtain ⟨rfl, rfl⟩ := hsplit
          rw [h3 _ hlast]
          exact List.getElem?_set_self hi
        | cons b pre1 =>
          simp only [List.cons_append, List.cons.injEq] at hsplit
          exact h4 pre1 g post hsplit.2 hle hlast
    · obtain ⟨buf1, h1, h2, h3, h4⟩ := ih buf (fun g hg hle =>
        hin g (List.mem_cons_of_mem _ hg) hle)
      refine ⟨buf1, ?_, h2, ?_, ?_⟩
      · rw [List.foldl_cons, fillStep_skip M aw ah lowCode buf a ha]; exact h1
      · intro i hne
        exact h3 i (fun g hg hle => hne g (List.mem_cons_of_mem _ hg) hle)
      · intro pre g post hsplit hle hlast
        cases pre with
        | nil =>
          simp only [List.nil_append, List.cons.injEq] at hsplit
          obtain ⟨rfl, rfl⟩ := hsplit
          exact absurd hle ha
        | cons b pre1 =>
          simp only [List.cons_append, List.cons.injEq] at hsplit
          exact h4 pre1 g post hsplit.2 hle hlast

/-- The second loop when some store is outside the buffer: undefined behaviour. -/
theorem fill_foldl_outside (gl : List (GlyphGeometry D)) :
    ∀ buf : List (TxfGlyph F),
      (∃ g ∈ gl, g.codepoint ≤ 0xffff ∧ ¬ u32sub g.codepoint lowCode < buf.length) →
      gl.foldl (fillStep M aw ah lowCode) (some buf) = none := by
  induction gl with
  | nil => intro buf h; simp at h
  | cons a l ih =>
    intro buf hex
    rw [List.foldl_cons]
    by_cases ha : a.codepoint ≤ 0xffff
    · by_cases hi : u32sub a.codepoint lowCode < buf.length
      · rw [fillStep_store M aw ah lowCode buf a ha hi]
        apply ih
        obtain ⟨g, hg, hle, hout⟩ := hex
        rcases List.mem_cons.1 hg with rfl | hg
        · exact absurd hi hout
        · exact ⟨g, hg, hle, by rw [List.length_set]; exact hout⟩
      · rw [fillStep_outside M aw ah lowCode buf a ha hi]
        exact fill_foldl_none M aw ah lowCode l
    · rw [fillStep_skip M aw ah lowCode buf a ha]
      apply ih
      obtain ⟨g, hg, hle, hout⟩ := hex
      rcases List.mem_cons.1 hg with rfl | hg
      · exact absurd hle ha
      · exact ⟨g, hg, hle, hout⟩

end Fill

section FontFill

variable {D F : Type} (M : FloatOps D F) (aw ah : D)

/-- The last element of a list with a given property. -/
theorem exists_last_with {α : Type} (P : α → Prop) (l : List α) (h : ∃ g ∈ l, P g) :
    ∃ pre g post, l = pre ++ g :: post ∧ P g ∧ ∀ x ∈ post, ¬ P x := by
  induction l with
  | nil => simp at h
  | cons a l ih =>
    by_cases h1 : ∃ g ∈ l, P g
    · obtain ⟨pre, g, post, hl, hg, hpost⟩ := ih h1
      exact ⟨a :: pre, g, post, by rw [hl]; rfl, hg, hpost⟩
    · obtain ⟨g, hg, hP⟩ := h
      rcases List.mem_cons.1 hg with rfl | hg
      · exact ⟨[], g, l, rfl, hP, fun x hx hPx => h1 ⟨x, hx, hPx⟩⟩
      · exact absurd ⟨g, hg, hP⟩ h1

/-- Unless the eligible codepoints span all of `0..0xffff`, the stored glyph count is
`highCode - lowCode + 1`. -/
theorem glyphCountOf_scanRange (gl : List (GlyphGeometry D))
    (hex : ∃ g ∈ gl, g.codepoint ≤ 0xffff) (hdef : scanRange gl ≠ (0, 0xffff)) :
    glyphCountOf (scanRange gl).1 (scanRange gl).2 = (scanRange gl).2 - (scanRange gl).1 + 1 := by
  obtain ⟨h1, h2⟩ := scanRange_low_le_high gl hex
  rw [glyphCountOf_of_le h1 h2]
  have : ¬ ((scanRange gl).1 = 0 ∧ (scanRange gl).2 = 0xffff) := fun h => hdef (Prod.ext h.1 h.2)
  omega

theorem glyphCountOf_no_eligible : glyphCountOf 0xffff 0 = 2 := by
  unfold glyphCountOf u16 u32add u32sub; norm_num

/-- The glyph table of a font on which the exporter is defined. -/
theorem fillGlyphs_scanRange (gl : List (GlyphGeometry D)) (hdef : scanRange gl ≠ (0, 0xffff)) :
    ∃ buf, fillGlyphs M aw ah (scanRange gl).1
        (glyphCountOf (scanRange gl).1 (scanRange gl).2) gl = some buf ∧
      buf.length = glyphCountOf (scanRange gl).1 (scanRange gl).2 ∧
      (∀ i, i < buf.length →
        (∀ g ∈ gl, g.codepoint ≤ 0xffff → g.codepoint ≠ (scanRange gl).1 + i) →
        buf[i]? = some (zeroGlyph M)) ∧
      (∀ pre g post, gl = pre ++ g :: post → g.codepoint ≤ 0xffff →
        (∀ x ∈ post, x.codepoint ≠ g.codepoint) →
        (scanRange gl).1 ≤ g.codepoint ∧ g.codepoint - (scanRange gl).1 < buf.length ∧
        buf[g.codepoint - (scanRange gl).1]? = some (glyphRecord M aw ah g)) := by
  have hsub : ∀ g ∈ gl, g.codepoint ≤ 0xffff →
      u32sub g.codepoint (scanRange gl).1 = g.codepoint - (scanRange gl).1 ∧
      (scanRange gl).1 ≤ g.codepoint ∧
      g.codepoint - (scanRange gl).1 < glyphCountOf (scanRange gl).1 (scanRange gl).2 := by
    intro g hg hle
    obtain ⟨hb1, hb2⟩ := scanRange_bounds gl g hg hle
    rw [glyphCountOf_scanRange gl ⟨g, hg, hle⟩ hdef]
    exact ⟨u32sub_of_le hb1 hle, hb1, by omega⟩
  obtain ⟨buf, h1, h2, h3, h4⟩ := fill_foldl_spec M aw ah (scanRange gl).1 gl
    (List.replicate (glyphCountOf (scanRange gl).1 (scanRange gl).2) (zeroGlyph M))
    (fun g hg hle => by rw [List.length_replicate, (hsub g hg hle).1]; exact (hsub g hg hle).2.2)
  rw [List.length_replicate] at h2
  refine ⟨buf, h1, h2, ?_, ?_⟩
  · intro i hi hne
    rw [h3 i ?_, List.getElem?_replicate_of_lt (by omega)]
    intro g hg hle hidx
    rw [(hsub g hg hle).1] at hidx
    have := (hsub g hg hle).2.1
    exact hne g hg hle (by omega)
  · intro pre g post hsplit hle hlast
    have hg : g ∈ gl := by rw [hsplit]; simp
    obtain ⟨hs1, hs2, hs3⟩ := hsub g hg hle
    refine ⟨hs2, by omega, ?_⟩
    rw [← hs1]
    apply h4 pre g post hsplit hle
    intro x hx hxle
    have hxm : x ∈ gl := by rw [hsplit]; simp [hx]
    rw [(hsub x hxm hxle).1, hs1]
    have := (hsub x hxm hxle).2.1
    have := hlast x hx
    omega

/-- Every record of the glyph table is a zeroed record or the record of an eligible glyph whose
codepoint is `lowCode` plus the position. -/
theorem fillGlyphs_record (gl : List (GlyphGeometry D)) (buf : List (TxfGlyph F))
    (h : fillGlyphs M aw ah (scanRange gl).1
        (glyphCountOf (scanRange gl).1 (scanRange gl).2) gl = some buf)
    (hdef : scanRange gl ≠ (0, 0xffff)) (i : Nat) (r : TxfGlyph F) (hr : buf[i]? = some r) :
    r = zeroGlyph M ∨
      ∃ g ∈ gl, g.codepoint ≤ 0xffff ∧ g.codepoint = (scanRange gl).1 + i ∧
        r = glyphRecord M aw ah g := by
  obtain ⟨buf1, h1, _, h3, h4⟩ := fillGlyphs_scanRange M aw ah gl hdef
  rw [h] at h1
  obtain rfl := Option.some.inj h1
  have hi : i < buf.length := by
    rcases List.getElem?_eq_some.1 hr with ⟨hi, _⟩; exact hi
  by_cases hex : ∃ g ∈ gl, g.codepoint ≤ 0xffff ∧ g.codepoint = (scanRange gl).1 + i
  · obtain ⟨pre, g, post, hsplit, ⟨hle, hg⟩, hpost⟩ :=
      exists_last_with (fun g => g.codepoint ≤ 0xffff ∧ g.codepoint = (scanRange gl).1 + i) gl hex
    have hgm : g ∈ gl := by rw [hsplit]; simp
    obtain ⟨_, _, h5⟩ := h4 pre g post hsplit hle (fun x hx hxe => by
      have := hpost x hx
      exact this ⟨by omega, by omega⟩)
    have hidx : g.codepoint - (scanRange gl).1 = i := by omega
    rw [hidx, hr] at h5
    exact Or.inr ⟨g, hgm, hle, hg, Option.some.inj h5⟩
  · have := h3 i hi (fun g hg hle he => hex ⟨g, hg, hle, he⟩)
    rw [hr] at this
    exact Or.inl (Option.some.inj this)

/-- When the eligible codepoints span all of `0..0xffff` the glyph count wraps to `0` and the
first store of the second loop is outside the buffer. -/
theorem fillGlyphs_full_span (gl : List (GlyphGeometry D)) (hfull : scanRange gl = (0, 0xffff)) :
    fillGlyphs M aw ah (scanRange gl).1
      (glyphCountOf (scanRange gl).1 (scanRange gl).2) gl = none := by
  have hex : ∃ g ∈ gl, g.codepoint ≤ 0xffff := by
    by_contra hno
    have := scanRange_of_no_eligible gl (fun g hg hle => hno ⟨g, hg, hle⟩)
    rw [hfull] at this
    simp at this
  obtain ⟨g, hg, hle⟩ := hex
  apply fill_foldl_outside
  refine ⟨g, hg, hle, ?_⟩
  rw [hfull]
  simp [glyphCountOf, u16, u32add, u32sub]

end FontFill

/-! ## `txf_setKernIndex` and the kerning loop -/

section Kern

variable {D F : Type} (M : FloatOps D F)

theorem patchKern_code (c i : Nat) (g : TxfGlyph F) : (patchKern c i g).code = g.code := by
  unfold patchKern; split <;> rfl

theorem patchKern_of_ne (c i : Nat) (g : TxfGlyph F) (h : g.code ≠ c) : patchKern c i g = g := by
  unfold patchKern; rw [if_neg h]

theorem distinctCodes_map (f : TxfGlyph F → TxfGlyph F) (hf : ∀ g, (f g).code = g.code)
    (gbuf : List (TxfGlyph F)) (h : DistinctCodes gbuf) : DistinctCodes (gbuf.map f) := by
  unfold DistinctCodes at *
  rw [List.pairwise_map]
  exact h.imp (fun {a b} hab => by rw [hf a, hf b]; exact hab)

/-- With at most one record of code `code`, the loop of `txf_setKernIndex` over the whole buffer
rewrites the `kernIndex` of exactly the records with that code. -/
theorem setKernIndexLoop_eq_map (gbuf : List (TxfGlyph F)) :
    ∀ (count code index : Nat), gbuf.length ≤ count → code ≠ 0 → DistinctCodes gbuf →
      setKernIndexLoop gbuf count code index = gbuf.map (patchKern code index) := by
  induction gbuf with
  | nil => intro count code index _ _ _; rfl
  | cons g rest ih =>
    intro count code index hlen hc hU
    cases count with
    | zero => simp at hlen
    | succ n =>
      unfold DistinctCodes at hU
      rw [List.pairwise_cons] at hU
      by_cases hg : g.code = code
      · have hrest : rest.map (patchKern code index) = rest := by
          conv_rhs => rw [← List.map_id rest]
          apply List.map_congr_left
          intro b hb
          have := hU.1 b hb (by rw [hg]; exact hc)
          exact patchKern_of_ne code index b (by rw [← hg]; exact fun h => this h.symm)
        simp only [setKernIndexLoop, if_pos hg, List.map_cons, hrest]
        simp [patchKern, hg]
      · simp only [setKernIndexLoop, if_neg hg, List.map_cons, patchKern_of_ne code index g hg]
        rw [ih n code index (by simpa using hlen) hc hU.2]

theorem txf_setKernIndex_eq_map (gbuf : List (TxfGlyph F)) (count code index : Nat)
    (hlen : gbuf.length ≤ count) (hc : code ≠ 0) (hc16 : code ≤ 0xffff)
    (hU : DistinctCodes gbuf) :
    txf_setKernIndex gbuf count code index = gbuf.map (patchKern code (u16 index)) := by
  unfold txf_setKernIndex
  rw [u16_of_le hc16]
  exact setKernIndexLoop_eq_map gbuf count code (u16 index) hlen hc hU

theorem kernStep_same (count : Nat) (st : KernState F) (e : KernSortEntry F)
    (h : st.curCode = e.codeL) :
    kernStep M count st e = { st with kernTable := st.kernTable ++ pairWords M e } := by
  simp [kernStep, h, pairWords]

theorem kernStep_new (count : Nat) (st : KernState F) (e : KernSortEntry F)
    (h : st.curCode ≠ e.codeL) :
    kernStep M count st e =
      { curCode := e.codeL
        kernTable := st.kernTable ++ [0] ++ pairWords M e
        gbuf := txf_setKernIndex st.gbuf count e.codeL (st.kernTable.length + 1) } := by
  simp [kernStep, h, pairWords]

/-- The kerning words after the loop. -/
theorem kern_foldl_table (count : Nat) (l : List (KernSortEntry F)) :
    ∀ st : KernState F,
      (l.foldl (kernStep M count) st).kernTable = st.kernTable ++ flatWords M st.curCode l := by
  induction l with
  | nil => intro st; simp [flatWords]
  | cons e l ih =>
    intro st
    rw [List.foldl_cons, ih]
    by_cases h : st.curCode = e.codeL
    · rw [kernStep_same M count st e h]
      simp [flatWords, h]
    · rw [kernStep_new M count st e h]
      simp [flatWords, h]

theorem entriesBefore_cons_ne (e : KernSortEntry F) (l : List (KernSortEntry F)) (c : Nat)
    (h : e.codeL ≠ c) : entriesBefore (e :: l) c = e :: entriesBefore l c := by
  simp [entriesBefore, List.takeWhile_cons, h]

theorem entriesBefore_cons_eq (e : KernSortEntry F) (l : List (KernSortEntry F)) (c : Nat)
    (h : e.codeL = c) : entriesBefore (e :: l) c = [] := by
  simp [entriesBefore, List.takeWhile_cons, h]

theorem flatWords_cons_same (e : KernSortEntry F) (l : List (KernSortEntry F)) :
    flatWords M e.codeL (e :: l) = pairWords M e ++ flatWords M e.codeL l := by
  simp [flatWords]

theorem flatWords_cons_new (cur : Nat) (e : KernSortEntry F) (l : List (KernSortEntry F))
    (h : cur ≠ e.codeL) :
    flatWords M cur (e :: l) = 0 :: (pairWords M e ++ flatWords M e.codeL l) := by
  simp [flatWords, h]

/-- The glyph buffer after the loop over entries that are ordered by left codepoint. -/
theorem kern_foldl_gbuf (count : Nat) (l : List (KernSortEntry F)) :
    ∀ st : KernState F,
      l.Pairwise (fun a b => a.codeL ≤ b.codeL) →
      ((∀ x ∈ l, st.curCode ≤ x.codeL) ∨ (∀ x ∈ l, x.codeL ≠ st.curCode)) →
      (∀ x ∈ l, x.codeL ≠ 0 ∧ x.codeL ≤ 0xffff) →
      st.gbuf.length ≤ count → DistinctCodes st.gbuf →
      (l.foldl (kernStep M count) st).gbuf = st.gbuf.map (fun g =>
        if g.code ≠ st.curCode ∧ g.code ∈ l.map (fun x => x.codeL) then
          { g with kernIndex := u16 (st.kernTable.length +
              (flatWords M st.curCode (entriesBefore l g.code)).length + 1) }
        else g) := by
  induction l with
  | nil =>
    intro st _ _ _ _ _
    simp
  | cons e l ih =>
    intro st hs hcur hcodes hlen hU
    rw [List.pairwise_cons] at hs
    rw [List.foldl_cons]
    by_cases h : st.curCode = e.codeL
    · rw [kernStep_same M count st e h]
      rw [ih { curCode := st.curCode, kernTable := st.kernTable ++ pairWords M e, gbuf := st.gbuf }
        hs.2 (Or.inl (fun x hx => by simp only; rw [h]; exact hs.1 x hx))
        (fun x hx => hcodes x (List.mem_cons_of_mem _ hx)) hlen hU]
      apply List.map_congr_left
      intro g hg
      simp only
      by_cases hgc : g.code = st.curCode
      · simp [hgc]
      · have hne : e.codeL ≠ g.code := by rw [← h]; exact fun h1 => hgc h1.symm
        have hne2 : g.code ≠ e.codeL := fun h1 => hne h1.symm
        by_cases hm : g.code ∈ l.map (fun x => x.codeL)
        · rw [if_pos ⟨hgc, hm⟩, if_pos ⟨hgc, by simp only [List.map_cons]; exact List.mem_cons_of_mem _ hm⟩]
          rw [entriesBefore_cons_ne e l g.code hne, h, flatWords_cons_same]
          simp only [List.length_append, pairWords, List.length_cons, List.length_nil]
          congr 2
          omega
        · rw [if_neg (fun hh => hm hh.2), if_neg]
          simp only [List.map_cons, List.mem_cons]
          rintro ⟨_, h1 | h1⟩
          · exact hne2 h1
          · exact hm h1
    · rw [kernStep_new M count st e h]
      have hc := hcodes e (List.mem_cons_self _ _)
      have hnot : ∀ x ∈ l, x.codeL ≠ st.curCode := by
        intro x hx
        rcases hcur with hc1 | hc1
        · have h1 := hc1 e (List.mem_cons_self _ _)
          have h2 := hs.1 x hx
          omega
        · exact hc1 x (List.mem_cons_of_mem _ hx)
      rw [ih { curCode := e.codeL, kernTable := st.kernTable ++ [0] ++ pairWords M e,
               gbuf := txf_setKernIndex st.gbuf count e.codeL (st.kernTable.length + 1) }
        hs.2 (Or.inl (fun x hx => hs.1 x hx))
        (fun x hx => hcodes x (List.mem_cons_of_mem _ hx))
        (by simp only [txf_setKernIndex_eq_map st.gbuf count e.codeL _ hlen hc.1 hc.2 hU,
              List.length_map]; exact hlen)
        (by simp only [txf_setKernIndex_eq_map st.gbuf count e.codeL _ hlen hc.1 hc.2 hU]
            exact distinctCodes_map _ (patchKern_code _ _) _ hU)]
      simp only [txf_setKernIndex_eq_map st.gbuf count e.codeL _ hlen hc.1 hc.2 hU, List.map_map]
      apply List.map_congr_left
      intro g hg
      simp only [Function.comp, patchKern_code]
      by_cases hge : g.code = e.codeL
      · have hgc : g.code ≠ st.curCode := by rw [hge]; exact fun h1 => h h1.symm
        rw [if_neg (fun hh => hh.1 hge), if_pos ⟨hgc, by simp [hge]⟩]
        rw [entriesBefore_cons_eq e l g.code hge.symm]
        simp [patchKern, hge, flatWords]
      · have hne : e.codeL ≠ g.code := fun h1 => hge h1.symm
        rw [patchKern_of_ne _ _ g hge]
        by_cases hm : g.code ∈ l.map (fun x => x.codeL)
        · have hgc : g.code ≠ st.curCode := by
            obtain ⟨x, hx, hxe⟩ := List.mem_map.1 hm
            rw [← hxe]; exact hnot x hx
          rw [if_pos ⟨hge, hm⟩, if_pos ⟨hgc, by simp only [List.map_cons]; exact List.mem_cons_of_mem _ hm⟩]
          rw [entriesBefore_cons_ne e l g.code hne, flatWords_cons_new M _ e _ h]
          simp only [List.length_append, pairWords, List.length_cons, List.length_nil]
          congr 2
          omega
        · rw [if_neg (fun hh => hm hh.2), if_neg]
          simp only [List.map_cons, List.mem_cons]
          rintro ⟨_, h1 | h1⟩
          · exact hge h1
          · exact hm h1

/-- Lines 191-206 on a buffer with distinct codes and entries ordered by left codepoint: the
table is the flattened list plus the terminator, and the record of every left codepoint gets the
start of its run, narrowed to 16 bits. -/
theorem kernBuild_spec (count : Nat) (gbuf : List (TxfGlyph F)) (l : List (KernSortEntry F))
    (hs : l.Pairwise (fun a b => a.codeL ≤ b.codeL))
    (hcodes : ∀ x ∈ l, x.codeL ≠ 0 ∧ x.codeL ≤ 0xffff)
    (hlen : gbuf.length ≤ count) (hU : DistinctCodes gbuf) :
    (kernBuild M count gbuf l).kernTable = flatWords M 0xffffffff l ++ [0] ∧
    (kernBuild M count gbuf l).gbuf = gbuf.map (fun g =>
      if g.code ∈ l.map (fun x => x.codeL) then
        { g with kernIndex := u16 (runStart M l g.code) }
      else g) := by
  constructor
  · simp [kernBuild, kern_foldl_table]
  · have hne : ∀ x ∈ l, x.codeL ≠ 0xffffffff := fun x hx => by
      have := (hcodes x hx).2; omega
    simp only [kernBuild]
    rw [kern_foldl_gbuf M count l { curCode := 0xffffffff, kernTable := [], gbuf := gbuf }
      hs (Or.inr hne) hcodes hlen hU]
    apply List.map_congr_left
    intro g _
    simp only [List.length_nil, Nat.zero_add, runStart]
    by_cases hm : g.code ∈ l.map (fun x => x.codeL)
    · have hgc : g.code ≠ 0xffffffff := by
        obtain ⟨x, hx, hxe⟩ := List.mem_map.1 hm
        rw [← hxe]; exact hne x hx
      rw [if_pos ⟨hgc, hm⟩, if_pos hm]
    · rw [if_neg (fun hh => hm hh.2), if_neg hm]

end Kern

/-! ## The filter and the sort -/

section Filter

variable {D F : Type} (M : FloatOps D F)

theorem getGlyph_mem (font : FontGeometry D) (i : Int) (g : GlyphGeometry D)
    (h : font.getGlyph i = some g) : g ∈ font.glyphs :=
  List.mem_of_find?_eq_some h

/-- What the filter guarantees of an entry it keeps. -/
theorem kernEntry_some (font : FontGeometry D) (highCode : Nat) (kp : (Int × Int) × D)
    (e : KernSortEntry F) (h : kernEntry M font highCode kp = some e) :
    ∃ geoL geoR, font.getGlyph kp.1.1 = some geoL ∧ font.getGlyph kp.1.2 = some geoR ∧
      geoL.codepoint ≠ 0 ∧ geoR.codepoint ≠ 0 ∧ geoL.codepoint ≤ 0xffff ∧
      geoR.codepoint ≤ highCode ∧
      e = { codeL := geoL.codepoint, codeR := geoR.codepoint, advance := M.toFloat kp.2 } := by
  unfold kernEntry at h
  split at h
  · rename_i geoL geoR hL hR
    split at h
    · rename_i h1
      split at h
      · rename_i h2
        exact ⟨geoL, geoR, hL, hR, h1.1, h1.2, h2.1, h2.2, (Option.some.inj h).symm⟩
      · cases h
    · cases h
  · cases h

/-- Every surviving entry has non-zero codepoints inside the exported range. -/
theorem survivors_mem (font : FontGeometry D) (e : KernSortEntry F)
    (h : e ∈ survivors M font) :
    e.codeL ≠ 0 ∧ e.codeR ≠ 0 ∧ font.lowCode ≤ e.codeL ∧ e.codeL ≤ font.highCode ∧
      e.codeL ≤ 0xffff ∧ e.codeR ≤ font.highCode ∧
      ∃ g ∈ font.glyphs, g.codepoint = e.codeL := by
  obtain ⟨kp, _, hkp⟩ := List.mem_filterMap.1 h
  obtain ⟨geoL, geoR, hL, _, h1, h2, h3, h4, rfl⟩ := kernEntry_some M font _ kp e hkp
  have hm := getGlyph_mem font _ geoL hL
  have hb := scanRange_bounds font.glyphs geoL hm h3
  exact ⟨h1, h2, hb.1, hb.2, h3, h4, geoL, hm, rfl⟩

theorem kernLess_eq_false {a b : KernSortEntry F} (h : kernLess b a = false) :
    a.codeL < b.codeL ∨ (a.codeL = b.codeL ∧ a.codeR ≤ b.codeR) := by
  unfold kernLess at h
  split at h
  · cases h
  · split at h
    · cases h
    · rename_i h1 h2
      by_cases h3 : a.codeL = b.codeL
      · right
        refine ⟨h3, ?_⟩
        by_contra h4
        exact h2 ⟨h3.symm, by omega⟩
      · left; omega

/-- The sorted entries are in lexicographic order of (left codepoint, right codepoint). -/
theorem sorted_lex (S : SortAlgorithm F) (l : List (KernSortEntry F)) :
    (S.run l).Pairwise (fun a b => a.codeL < b.codeL ∨ (a.codeL = b.codeL ∧ a.codeR ≤ b.codeR)) :=
  (S.sorted l).imp (fun {_ _} h => kernLess_eq_false h)

theorem sorted_left (S : SortAlgorithm F) (l : List (KernSortEntry F)) :
    (S.run l).Pairwise (fun a b => a.codeL ≤ b.codeL) :=
  (sorted_lex S l).imp (fun {_ _} h => by omega)

theorem sorted_mem (S : SortAlgorithm F) (l : List (KernSortEntry F)) (e : KernSortEntry F) :
    e ∈ S.run l ↔ e ∈ l :=
  (S.perm l).mem_iff

theorem sorted_lefts (S : SortAlgorithm F) (l : List (KernSortEntry F)) (c : Nat) :
    c ∈ (S.run l).map (fun x => x.codeL) ↔ c ∈ l.map (fun x => x.codeL) :=
  ((S.perm l).map _).mem_iff

end Filter

/-! ## One font -/

section Export

variable {D F : Type} (M : FloatOps D F) (S : SortAlgorithm F)

/-- The code of a record of the glyph table is `0` or `lowCode` plus its position. -/
theorem fillGlyphs_code (gl : List (GlyphGeometry D)) (aw ah : D) (buf : List (TxfGlyph F))
    (h : fillGlyphs M aw ah (scanRange gl).1
        (glyphCountOf (scanRange gl).1 (scanRange gl).2) gl = some buf)
    (hdef : scanRange gl ≠ (0, 0xffff)) (i : Nat) (r : TxfGlyph F) (hr : buf[i]? = some r) :
    r.kernIndex = 0 ∧ (r.code = 0 ∨ r.code = (scanRange gl).1 + i) := by
  rcases fillGlyphs_record M aw ah gl buf h hdef i r hr with rfl | ⟨g, _, hle, hg, rfl⟩
  · exact ⟨rfl, Or.inl rfl⟩
  · refine ⟨rfl, Or.inr ?_⟩
    show u16 g.codepoint = _
    rw [u16_of_le hle, hg]

theorem fillGlyphs_distinct (gl : List (GlyphGeometry D)) (aw ah : D) (buf : List (TxfGlyph F))
    (h : fillGlyphs M aw ah (scanRange gl).1
        (glyphCountOf (scanRange gl).1 (scanRange gl).2) gl = some buf)
    (hdef : scanRange gl ≠ (0, 0xffff)) : DistinctCodes buf := by
  unfold DistinctCodes
  rw [List.pairwise_iff_getElem]
  intro i j hi hj hij h0 heq
  have h1 := (fillGlyphs_code M gl aw ah buf h hdef i buf[i] (List.getElem?_eq_getElem hi)).2
  have h2 := (fillGlyphs_code M gl aw ah buf h hdef j buf[j] (List.getElem?_eq_getElem hj)).2
  omega

/-- The exporter is undefined exactly when the eligible codepoints span all of `0..0xffff`. -/
theorem exportFont_eq_none_iff (font : FontGeometry D) (fontSize pixelRange : D)
    (atlasWidth atlasHeight : Int) (kerning : Bool) :
    exportFont M S font fontSize pixelRange atlasWidth atlasHeight kerning = none ↔
      scanRange font.glyphs = (0, 0xffff) := by
  constructor
  · intro h
    by_contra hdef
    obtain ⟨buf, h1, _⟩ := fillGlyphs_scanRange M (M.ofInt atlasWidth) (M.ofInt atlasHeight)
      font.glyphs hdef
    simp only [exportFont, h1] at h
    split at h
    · split at h <;> cases h
    · cases h
  · intro hfull
    have h1 := fillGlyphs_full_span M (M.ofInt atlasWidth) (M.ofInt atlasHeight) font.glyphs hfull
    simp only [exportFont, h1]

/-- The three parts of the output of a defined export. -/
theorem exportFont_some (font : FontGeometry D) (fontSize pixelRange : D)
    (atlasWidth atlasHeight : Int) (kerning : Bool) (out : TxfFile F)
    (h : exportFont M S font fontSize pixelRange atlasWidth atlasHeight kerning = some out) :
    scanRange font.glyphs ≠ (0, 0xffff) ∧
    ∃ buf, fillGlyphs M (M.ofInt atlasWidth) (M.ofInt atlasHeight) font.lowCode font.glyphCount
        font.glyphs = some buf ∧
      buf.length = font.glyphCount ∧
      out.hdr.glyphCount = font.glyphCount ∧
      ((kerning = false ∨ survivors M font = []) →
        out.hdr.kernOffset = 0 ∧ out.gbuf = buf ∧ out.kernTable = []) ∧
      (kerning = true → survivors M font ≠ [] →
        out.hdr.kernOffset = kernOffsetOf font.glyphCount ∧
        out.kernTable = flatWords M 0xffffffff (S.run (survivors M font)) ++ [0] ∧
        out.gbuf = buf.map (fun g =>
          if g.code ∈ (S.run (survivors M font)).map (fun x => x.codeL) then
            { g with kernIndex := u16 (runStart M (S.run (survivors M font)) g.code) }
          else g)) := by
  have hdef : scanRange font.glyphs ≠ (0, 0xffff) := by
    intro hfull
    rw [(exportFont_eq_none_iff M S font fontSize pixelRange atlasWidth atlasHeight kerning).2
      hfull] at h
    cases h
  refine ⟨hdef, ?_⟩
  obtain ⟨buf, h1, h2, _⟩ := fillGlyphs_scanRange M (M.ofInt atlasWidth) (M.ofInt atlasHeight)
    font.glyphs hdef
  refine ⟨buf, h1, h2, ?_⟩
  have hU := fillGlyphs_distinct M font.glyphs _ _ buf h1 hdef
  simp only [exportFont, h1] at h
  by_cases hk : kerning = true
  · by_cases he : survivors M font = []
    · have he1 : kernFilter M font (scanRange font.glyphs).2 = [] := he
      simp only [hk, if_true, he1, List.isEmpty_nil] at h
      obtain rfl := Option.some.inj h
      exact ⟨rfl, fun _ => ⟨rfl, rfl, rfl⟩, fun _ hne => absurd he hne⟩
    · have he1 : (kernFilter M font (scanRange font.glyphs).2).isEmpty = false := by
        rw [Bool.eq_false_iff, ne_eq, List.isEmpty_iff]; exact he
      simp only [hk, if_true, he1, Bool.false_eq_true, if_false] at h
      obtain rfl := Option.some.inj h
      have hsp := kernBuild_spec M font.glyphCount buf (S.run (survivors M font))
        (sorted_left S _)
        (fun x hx => by
          have := survivors_mem M font x ((sorted_mem S _ x).1 hx)
          exact ⟨this.1, this.2.2.2.2.1⟩)
        (le_of_eq h2) hU
      refine ⟨rfl, fun hor => ?_, fun _ _ => ⟨rfl, hsp.1, hsp.2⟩⟩
      rcases hor with hf | hf
      · rw [hk] at hf; cases hf
      · exact absurd hf he
  · have hk' : kerning = false := by simpa using hk
    simp only [hk', Bool.false_eq_true, if_false] at h
    obtain rfl := Option.some.inj h
    exact ⟨rfl, fun _ => ⟨rfl, rfl, rfl⟩, fun hf => absurd hf hk⟩

/-- The glyph records of a defined export: the glyph table of the fill loop, with the `kernIndex`
of the record of every surviving left codepoint replaced when kerning is enabled. -/
theorem exportFont_gbuf (font : FontGeometry D) (fontSize pixelRange : D)
    (atlasWidth atlasHeight : Int) (kerning : Bool) (out : TxfFile F)
    (h : exportFont M S font fontSize pixelRange atlasWidth atlasHeight kerning = some out) :
    ∃ buf, fillGlyphs M (M.ofInt atlasWidth) (M.ofInt atlasHeight) font.lowCode font.glyphCount
        font.glyphs = some buf ∧
      buf.length = font.glyphCount ∧
      out.gbuf = buf.map (fun g =>
        if kerning = true ∧ g.code ∈ (survivors M font).map (fun x => x.codeL) then
          { g with kernIndex := u16 (runStart M (S.run (survivors M font)) g.code) }
        else g) := by
  obtain ⟨_, buf, hfill, hlen, _, hoff, hker⟩ :=
    exportFont_some M S font fontSize pixelRange atlasWidth atlasHeight kerning out h
  refine ⟨buf, hfill, hlen, ?_⟩
  by_cases hc : kerning = false ∨ survivors M font = []
  · rw [(hoff hc).2.1]
    conv_lhs => rw [← List.map_id buf]
    apply List.map_congr_left
    intro g _
    rw [if_neg]
    · rfl
    · rintro ⟨hk, hm⟩
      rcases hc with hc | hc
      · rw [hk] at hc; cases hc
      · rw [hc] at hm; simp at hm
  · have hk : kerning = true := by
      cases kerning with
      | true => rfl
      | false => exact absurd (Or.inl rfl) hc
    rw [(hker hk (fun hs => hc (Or.inr hs))).2.2]
    apply List.map_congr_left
    intro g _
    simp only [sorted_lefts S, hk, true_and]

/-- A font whose eligible codepoints do not span all of `0..0xffff` has an output. -/
theorem exportFont_defined (font : FontGeometry D) (fontSize pixelRange : D)
    (atlasWidth atlasHeight : Int) (kerning : Bool) (hdef : scanRange font.glyphs ≠ (0, 0xffff)) :
    ∃ out, exportFont M S font fontSize pixelRange atlasWidth atlasHeight kerning = some out := by
  cases h : exportFont M S font fontSize pixelRange atlasWidth atlasHeight kerning with
  | none =>
    exact absurd ((exportFont_eq_none_iff M S font fontSize pixelRange atlasWidth atlasHeight
      kerning).1 h) hdef
  | some out => exact ⟨out, rfl⟩

end Export

/-! ## The glyph count and the kerning offset of the header -/

section Header

variable {D F : Type} (M : FloatOps D F) (S : SortAlgorithm F)

/-- C1: on the font with glyphs for U+0000 and U+FFFF the eligible codepoints have minimum 0 and
maximum 0xFFFF, so `highCode - lowCode + 1` is 65536, but the glyph count stored in the 16-bit
header field is 0; the glyph table is then allocated with no record and the first store of the
fill loop is out of bounds. -/
theorem C1_glyphCount_wraps_on_full_span :
    (∃ g ∈ fullSpanFont.glyphs, g.codepoint ≤ 0xffff) ∧
    fullSpanFont.lowCode = 0 ∧ fullSpanFont.highCode = 0xffff ∧
    fullSpanFont.highCode - fullSpanFont.lowCode + 1 = 65536 ∧
    fullSpanFont.glyphCount = 0 ∧
    exportFont exactOps insertionSort fullSpanFont 32 2 64 64 false = none := by
  have hr : scanRange fullSpanFont.glyphs = (0, 0xffff) := by
    simp [scanRange, scanStep, fullSpanFont, sampleGlyph]
  refine ⟨⟨sampleGlyph 1 0 1, by simp [fullSpanFont], by simp [sampleGlyph]⟩, ?_, ?_, ?_, ?_, ?_⟩
  · simp [FontGeometry.lowCode, hr]
  · simp [FontGeometry.highCode, hr]
  · simp [FontGeometry.lowCode, FontGeometry.highCode, hr]
  · simp [FontGeometry.glyphCount, FontGeometry.lowCode, FontGeometry.highCode, hr, glyphCountOf,
      u16, u32add, u32sub]
  · exact (exportFont_eq_none_iff exactOps insertionSort fullSpanFont 32 2 64 64 false).2 hr

/-- C2: on the font with glyphs for U+0001 and U+1999 and one kerning pair the export is defined,
the glyph count is 6553 and kerning words are emitted; `(28 + 40 * glyphCount) / 4` is 65537, but
the 16-bit header field `kernOffset` holds 1. -/
theorem C2_kernOffset_wraps_on_wide_font :
    ∃ out, exportFont exactOps insertionSort wideFont 32 2 64 64 true = some out ∧
      out.hdr.glyphCount = 6553 ∧ out.kernTable ≠ [] ∧
      (sizeofTxfHeader + out.hdr.glyphCount * sizeofTxfGlyph) / 4 = 65537 ∧
      out.hdr.kernOffset = 1 := by
  have hr : scanRange wideFont.glyphs = (1, 6553) := by
    simp [scanRange, scanStep, wideFont, sampleGlyph]
  have hdef : scanRange wideFont.glyphs ≠ (0, 0xffff) := by rw [hr]; simp
  obtain ⟨out, hout⟩ := exportFont_defined exactOps insertionSort wideFont 32 2 64 64 true hdef
  obtain ⟨_, buf, _, _, hcount, _, hker⟩ :=
    exportFont_some exactOps insertionSort wideFont 32 2 64 64 true out hout
  have hc : wideFont.glyphCount = 6553 := by
    simp [FontGeometry.glyphCount, FontGeometry.lowCode, FontGeometry.highCode, hr, glyphCountOf,
      u16, u32add, u32sub]
  have hsurv : survivors exactOps wideFont =
      [{ codeL := 1, codeR := 6553, advance := -2 }] := by
    with_unfolding_all rfl
  obtain ⟨h1, h2, _⟩ := hker rfl (by rw [hsurv]; simp)
  refine ⟨out, hout, by rw [hcount, hc], ?_, ?_, ?_⟩
  · rw [h2]; simp
  · rw [hcount, hc]; rfl
  · rw [h1, hc, kernOffsetOf_eq]; norm_num

/-- C3: in every output of the exporter `kernOffset` is 0 exactly when no kerning word is
written, which is exactly when kerning is disabled or no kerning pair survives the filter; the
data handed to the sink is then the header followed by `glyphCount` glyph records,
`sizeof(header) + glyphCount * sizeof(glyphRecord)` bytes. -/
theorem C3_kernOffset_zero_iff_no_kerning_words (font : FontGeometry D) (fontSize pixelRange : D)
    (atlasWidth atlasHeight : Int) (kerning : Bool) (out : TxfFile F)
    (h : exportFont M S font fontSize pixelRange atlasWidth atlasHeight kerning = some out) :
    (out.hdr.kernOffset = 0 ↔ out.kernTable = []) ∧
    (out.kernTable = [] ↔ (kerning = false ∨ survivors M font = [])) ∧
    (out.hdr.kernOffset = 0 →
      fontWrites out = [Chunk.header out.hdr, Chunk.glyphs out.gbuf] ∧
      out.gbuf.length = out.hdr.glyphCount ∧
      fontBytes out = sizeofTxfHeader + out.hdr.glyphCount * sizeofTxfGlyph) := by
  obtain ⟨_, buf, _, hlen, hcount, hoff, hker⟩ :=
    exportFont_some M S font fontSize pixelRange atlasWidth atlasHeight kerning out h
  by_cases hc : kerning = false ∨ survivors M font = []
  · obtain ⟨h1, h2, h3⟩ := hoff hc
    refine ⟨by simp [h1, h3], by simp [h3, hc], fun _ => ?_⟩
    have hl : out.gbuf.length = out.hdr.glyphCount := by rw [h2, hlen, hcount]
    refine ⟨?_, hl, ?_⟩
    · simp [fontWrites, h3, ← hl]
    · simp [fontBytes, fontWrites, h3, ← hl, Chunk.bytes, Nat.mul_comm]
  · have hk : kerning = true := by
      cases kerning with
      | true => rfl
      | false => exact absurd (Or.inl rfl) hc
    have hs : survivors M font ≠ [] := fun hs => hc (Or.inr hs)
    obtain ⟨h1, h2, _⟩ := hker hk hs
    have hne : out.kernTable ≠ [] := by rw [h2]; simp
    have hoff0 : out.hdr.kernOffset ≠ 0 := by rw [h1]; exact kernOffsetOf_ne_zero _
    exact ⟨by simp [hne, hoff0], by simp [hne, hc], fun h0 => absurd h0 hoff0⟩

/-- Scenario A: codepoints {65, 66, 67} and no kerning give `glyphCount = 3`, `kernOffset = 0`
and `28 + 3 * 40` bytes. -/
theorem C3_scenarioA :
    ∃ out, exportFont exactOps insertionSort scenarioA 32 2 64 64 false = some out ∧
      out.hdr.glyphCount = 3 ∧ out.hdr.kernOffset = 0 ∧ out.kernTable = [] ∧
      fontWrites out = [Chunk.header out.hdr, Chunk.glyphs out.gbuf] ∧
      fontBytes out = 28 + 3 * 40 := by
  have hr : scanRange scenarioA.glyphs = (65, 67) := by
    simp [scanRange, scanStep, scenarioA, sampleGlyph]
  have hdef : scanRange scenarioA.glyphs ≠ (0, 0xffff) := by rw [hr]; simp
  obtain ⟨out, hout⟩ := exportFont_defined exactOps insertionSort scenarioA 32 2 64 64 false hdef
  obtain ⟨_, buf, _, _, hcount, hoff, _⟩ :=
    exportFont_some exactOps insertionSort scenarioA 32 2 64 64 false out hout
  have hc : scenarioA.glyphCount = 3 := by
    simp [FontGeometry.glyphCount, FontGeometry.lowCode, FontGeometry.highCode, hr, glyphCountOf,
      u16, u32add, u32sub]
  obtain ⟨h1, h2, h3⟩ :=
    C3_kernOffset_zero_iff_no_kerning_words exactOps insertionSort scenarioA 32 2 64 64 false out
      hout
  have h0 := (hoff (Or.inl rfl)).1
  obtain ⟨h4, _, h6⟩ := h3 h0
  refine ⟨out, hout, by rw [hcount, hc], h0, h1.1 h0, h4, ?_⟩
  rw [h6, hcount, hc]; rfl

end Header

/-! ## The glyph records -/

section Records

variable {D F : Type} (M : FloatOps D F) (S : SortAlgorithm F)

theorem scanStep_skip (st : Nat × Nat) (g : GlyphGeometry D) (h : ¬ g.codepoint ≤ 0xffff) :
    scanStep st g = st := by
  have : g.codepoint > 0xffff := by omega
  simp [scanStep, this]

/-- The range scan only reads the glyphs with codepoint `≤ 0xffff`. -/
theorem scan_foldl_filter (gl : List (GlyphGeometry D)) :
    ∀ st, gl.foldl scanStep st =
      (gl.filter (fun g => decide (g.codepoint ≤ 0xffff))).foldl scanStep st := by
  induction gl with
  | nil => intro st; rfl
  | cons a l ih =>
    intro st
    by_cases ha : a.codepoint ≤ 0xffff
    · rw [List.filter_cons_of_pos (by simpa using ha), List.foldl_cons, List.foldl_cons, ih]
    · rw [List.filter_cons_of_neg (by simpa using ha), List.foldl_cons, scanStep_skip st a ha, ih]

/-- The fill loop only reads the glyphs with codepoint `≤ 0xffff`. -/
theorem fill_foldl_filter (aw ah : D) (lowCode : Nat) (gl : List (GlyphGeometry D)) :
    ∀ acc : Option (List (TxfGlyph F)), gl.foldl (fillStep M aw ah lowCode) acc =
      (gl.filter (fun g => decide (g.codepoint ≤ 0xffff))).foldl (fillStep M aw ah lowCode) acc := by
  induction gl with
  | nil => intro acc; rfl
  | cons a l ih =>
    intro acc
    by_cases ha : a.codepoint ≤ 0xffff
    · rw [List.filter_cons_of_pos (by simpa using ha), List.foldl_cons, List.foldl_cons, ih]
    · rw [List.filter_cons_of_neg (by simpa using ha), List.foldl_cons, ih]
      cases acc with
      | none => rfl
      | some buf => rw [fillStep_skip M aw ah lowCode buf a ha]

/-- The records of a defined export, position by position. -/
theorem exportFont_records (font : FontGeometry D) (fontSize pixelRange : D)
    (atlasWidth atlasHeight : Int) (kerning : Bool) (out : TxfFile F)
    (h : exportFont M S font fontSize pixelRange atlasWidth atlasHeight kerning = some out) :
    out.gbuf.length = out.hdr.glyphCount ∧
    ∀ i, i < out.hdr.glyphCount → ∃ r, out.gbuf[i]? = some r ∧
      (∀ pre g post, font.glyphs = pre ++ g :: post → g.codepoint ≤ 0xffff →
        g.codepoint = font.lowCode + i → (∀ x ∈ post, x.codepoint ≠ g.codepoint) →
        r.code = font.lowCode + i ∧ r.advance = M.toFloat g.advance ∧
        r.emRect = (M.toFloat g.planeBounds.1, M.toFloat g.planeBounds.2.1,
          M.toFloat g.planeBounds.2.2.1, M.toFloat g.planeBounds.2.2.2) ∧
        r.tcRect = (M.toFloat (M.div g.atlasBounds.1 (M.ofInt atlasWidth)),
          M.toFloat (M.div g.atlasBounds.2.1 (M.ofInt atlasHeight)),
          M.toFloat (M.div g.atlasBounds.2.2.1 (M.ofInt atlasWidth)),
          M.toFloat (M.div g.atlasBounds.2.2.2 (M.ofInt atlasHeight)))) ∧
      ((∀ g ∈ font.glyphs, g.codepoint ≤ 0xffff → g.codepoint ≠ font.lowCode + i) →
        r = zeroGlyph M) := by
  obtain ⟨hdef, _, _, _, hcount, _, _⟩ :=
    exportFont_some M S font fontSize pixelRange atlasWidth atlasHeight kerning out h
  obtain ⟨buf, hfill, hlen, hg⟩ :=
    exportFont_gbuf M S font fontSize pixelRange atlasWidth atlasHeight kerning out h
  obtain ⟨buf1, hfill1, _, hzero, hrec⟩ := fillGlyphs_scanRange M (M.ofInt atlasWidth)
    (M.ofInt atlasHeight) font.glyphs hdef
  have hb : buf1 = buf := Option.some.inj (hfill1.symm.trans hfill)
  subst hb
  refine ⟨by rw [hg, List.length_map, hlen, hcount], ?_⟩
  intro i hi
  have hi' : i < buf1.length := by rw [hlen, ← hcount]; exact hi
  refine ⟨_, by rw [hg, List.getElem?_map, List.getElem?_eq_getElem hi']; rfl, ?_, ?_⟩
  · intro pre g post hsplit hle hcp hlast
    obtain ⟨_, _, h3⟩ := hrec pre g post hsplit hle hlast
    have hidx : g.codepoint - (scanRange font.glyphs).1 = i := by
      have : g.codepoint = (scanRange font.glyphs).1 + i := hcp
      omega
    rw [hidx, List.getElem?_eq_getElem hi'] at h3
    rw [Option.some.inj h3]
    dsimp only
    split
    · exact ⟨by show u16 g.codepoint = _; rw [u16_of_le hle, hcp], rfl, rfl, rfl⟩
    · exact ⟨by show u16 g.codepoint = _; rw [u16_of_le hle, hcp], rfl, rfl, rfl⟩
  · intro hno
    have h3 := hzero i hi' hno
    rw [List.getElem?_eq_getElem hi'] at h3
    rw [Option.some.inj h3]
    dsimp only
    rw [if_neg]
    rintro ⟨_, hm⟩
    obtain ⟨x, hx, hxe⟩ := List.mem_map.1 hm
    exact (survivors_mem M font x hx).1 hxe

/-- C4 (amended): in every output of the exporter the glyph array has `glyphCount` records, and
for every index `i < glyphCount`: if `g` is the last glyph in iteration order among the glyphs
with codepoint `lowCode + i` (and that codepoint is `≤ 0xFFFF`), record `i` has code
`lowCode + i`, the advance of `g`, the plane bounds of `g` as-is and the atlas bounds of `g`
divided by (atlasWidth, atlasHeight, atlasWidth, atlasHeight); if no glyph with codepoint
`≤ 0xFFFF` has codepoint `lowCode + i`, every field of record `i` is zero.  Glyphs with codepoint
`> 0xFFFF` are read neither by the range scan nor by the fill loop. -/
theorem C4_glyph_records (font : FontGeometry D) (fontSize pixelRange : D)
    (atlasWidth atlasHeight : Int) (kerning : Bool) (out : TxfFile F)
    (h : exportFont M S font fontSize pixelRange atlasWidth atlasHeight kerning = some out) :
    out.gbuf.length = out.hdr.glyphCount ∧
    (∀ i, i < out.hdr.glyphCount → ∃ r, out.gbuf[i]? = some r ∧
      (∀ pre g post, font.glyphs = pre ++ g :: post → g.codepoint ≤ 0xffff →
        g.codepoint = font.lowCode + i → (∀ x ∈ post, x.codepoint ≠ g.codepoint) →
        r.code = font.lowCode + i ∧ r.advance = M.toFloat g.advance ∧
        r.emRect = (M.toFloat g.planeBounds.1, M.toFloat g.planeBounds.2.1,
          M.toFloat g.planeBounds.2.2.1, M.toFloat g.planeBounds.2.2.2) ∧
        r.tcRect = (M.toFloat (M.div g.atlasBounds.1 (M.ofInt atlasWidth)),
          M.toFloat (M.div g.atlasBounds.2.1 (M.ofInt atlasHeight)),
          M.toFloat (M.div g.atlasBounds.2.2.1 (M.ofInt atlasWidth)),
          M.toFloat (M.div g.atlasBounds.2.2.2 (M.ofInt atlasHeight)))) ∧
      ((∀ g ∈ font.glyphs, g.codepoint ≤ 0xffff → g.codepoint ≠ font.lowCode + i) →
        r = zeroGlyph M)) ∧
    scanRange font.glyphs =
      scanRange (font.glyphs.filter (fun g => decide (g.codepoint ≤ 0xffff))) ∧
    (∀ lowCode glyphCount,
      fillGlyphs M (M.ofInt atlasWidth) (M.ofInt atlasHeight) lowCode glyphCount font.glyphs =
      fillGlyphs M (M.ofInt atlasWidth) (M.ofInt atlasHeight) lowCode glyphCount
        (font.glyphs.filter (fun g => decide (g.codepoint ≤ 0xffff)))) :=
  ⟨(exportFont_records M S font fontSize pixelRange atlasWidth atlasHeight kerning out h).1,
    (exportFont_records M S font fontSize pixelRange atlasWidth atlasHeight kerning out h).2,
    scan_foldl_filter font.glyphs _,
    fun lowCode _ => fill_foldl_filter M _ _ lowCode font.glyphs _⟩

/-- C4 (as stated) fails on a font with two glyphs for 'A': the first glyph has codepoint
`lowCode + 0`, but record 0 carries the advance of the second glyph, which overwrote it. -/
theorem C4_first_of_two_glyphs_is_overwritten :
    ∃ out, exportFont exactOps insertionSort twoGlyphsOneCode 32 2 64 64 false = some out ∧
      0 < out.hdr.glyphCount ∧
      ∃ g ∈ twoGlyphsOneCode.glyphs, g.codepoint ≤ 0xffff ∧
        g.codepoint = twoGlyphsOneCode.lowCode + 0 ∧
        ∃ r, out.gbuf[0]? = some r ∧ r.advance ≠ exactOps.toFloat g.advance := by
  have hr : scanRange twoGlyphsOneCode.glyphs = (65, 65) := by
    simp [scanRange, scanStep, twoGlyphsOneCode, sampleGlyph]
  have hdef : scanRange twoGlyphsOneCode.glyphs ≠ (0, 0xffff) := by rw [hr]; simp
  obtain ⟨out, hout⟩ :=
    exportFont_defined exactOps insertionSort twoGlyphsOneCode 32 2 64 64 false hdef
  obtain ⟨_, _, _, _, hcount, _⟩ :=
    exportFont_some exactOps insertionSort twoGlyphsOneCode 32 2 64 64 false out hout
  have hgc : out.hdr.glyphCount = 1 := by
    rw [hcount]
    simp [FontGeometry.glyphCount, FontGeometry.lowCode, FontGeometry.highCode, hr, glyphCountOf,
      u16, u32add, u32sub]
  have hlow : twoGlyphsOneCode.lowCode = 65 := by simp [FontGeometry.lowCode, hr]
  obtain ⟨_, hrec⟩ :=
    exportFont_records exactOps insertionSort twoGlyphsOneCode 32 2 64 64 false out hout
  obtain ⟨r, hr1, hr2, _⟩ := hrec 0 (by rw [hgc]; decide)
  obtain ⟨_, h2, _⟩ := hr2 [sampleGlyph 1 65 1] (sampleGlyph 2 65 2) [] rfl
    (by simp [sampleGlyph]) (by rw [hlow]; rfl) (by simp)
  refine ⟨out, hout, by rw [hgc]; decide, sampleGlyph 1 65 1, by simp [twoGlyphsOneCode],
    by simp [sampleGlyph], by rw [hlow]; rfl, r, hr1, ?_⟩
  rw [h2]
  simp [exactOps, sampleGlyph]

/-- At 'A', 'B', 'C' the last glyph with codepoint 66 is the glyph of index 2; record 1 carries
its code and advance. -/
theorem C4_scenarioA_record :
    ∃ out, exportFont exactOps insertionSort scenarioA 32 2 64 64 false = some out ∧
      ∃ r, out.gbuf[1]? = some r ∧ r.code = 66 ∧ r.advance = 1 := by
  have hr : scanRange scenarioA.glyphs = (65, 67) := by
    simp [scanRange, scanStep, scenarioA, sampleGlyph]
  have hdef : scanRange scenarioA.glyphs ≠ (0, 0xffff) := by rw [hr]; simp
  obtain ⟨out, hout⟩ := exportFont_defined exactOps insertionSort scenarioA 32 2 64 64 false hdef
  have hgc : out.hdr.glyphCount = 3 := by
    obtain ⟨_, _, _, _, hcount, _⟩ :=
      exportFont_some exactOps insertionSort scenarioA 32 2 64 64 false out hout
    rw [hcount]
    simp [FontGeometry.glyphCount, FontGeometry.lowCode, FontGeometry.highCode, hr, glyphCountOf,
      u16, u32add, u32sub]
  have hlow : scenarioA.lowCode = 65 := by simp [FontGeometry.lowCode, hr]
  obtain ⟨_, hrec, _⟩ :=
    C4_glyph_records exactOps insertionSort scenarioA 32 2 64 64 false out hout
  obtain ⟨r, hr1, hr2, _⟩ := hrec 1 (by rw [hgc]; decide)
  obtain ⟨h1, h2, _⟩ := hr2 [sampleGlyph 1 65 1] (sampleGlyph 2 66 1) [sampleGlyph 3 67 1] rfl
    (by simp [sampleGlyph]) (by rw [hlow]; rfl) (by simp [sampleGlyph])
  refine ⟨out, hout, r, hr1, ?_, ?_⟩
  · rw [h1, hlow]
  · rw [h2]; rfl

end Records

/-! ## The layout of the kerning table -/

section Layout

variable {D F : Type} (M : FloatOps D F) (S : SortAlgorithm F)

theorem splitBy_loop_append (r : KernSortEntry F → KernSortEntry F → Bool)
    (l : List (KernSortEntry F)) :
    ∀ (a : KernSortEntry F) (g : List (KernSortEntry F)) (gs : List (List (KernSortEntry F))),
      List.splitBy.loop r l a g gs = gs.reverse ++ List.splitBy.loop r l a g [] := by
  induction l with
  | nil => intro a g gs; simp [List.splitBy.loop]
  | cons b l ih =>
    intro a g gs
    cases hr : r a b with
    | true => simp only [List.splitBy.loop, hr]; exact ih b (a :: g) gs
    | false =>
      simp only [List.splitBy.loop, hr]
      rw [ih b [] ((a :: g).reverse :: gs), ih b [] [(a :: g).reverse]]
      simp

/-- The words of the groups the grouping loop returns. -/
theorem layout_splitBy_loop (l : List (KernSortEntry F)) :
    ∀ (a : KernSortEntry F) (g : List (KernSortEntry F)),
      ((List.splitBy.loop sameLeft l a g []).map (runWords M)).flatten =
        0 :: ((g.reverse ++ [a]).flatMap (pairWords M)) ++ flatWords M a.codeL l := by
  induction l with
  | nil => intro a g; simp [List.splitBy.loop, runWords, flatWords]
  | cons b l ih =>
    intro a g
    cases hr : sameLeft a b with
    | true =>
      have hab : a.codeL = b.codeL := by simpa [sameLeft] using hr
      simp only [List.splitBy.loop, hr]
      rw [ih b (a :: g), hab, flatWords_cons_same]
      simp [List.flatMap_append]
    | false =>
      have hab : a.codeL ≠ b.codeL := by simpa [sameLeft] using hr
      simp only [List.splitBy.loop, hr]
      rw [splitBy_loop_append, List.map_append, List.flatten_append, ih b [],
        flatWords_cons_new M _ b l hab]
      simp [runWords, List.flatMap_append]

/-- The loop over the sorted entries writes the reference layout. -/
theorem flatWords_eq_reference (l : List (KernSortEntry F))
    (h : ∀ x ∈ l, x.codeL ≠ 0xffffffff) :
    flatWords M 0xffffffff l = ((l.splitBy sameLeft).map (runWords M)).flatten := by
  cases l with
  | nil => simp [flatWords, List.splitBy]
  | cons a l =>
    have ha : (0xffffffff : Nat) ≠ a.codeL := fun h1 => h a (List.mem_cons_self _ _) h1.symm
    rw [List.splitBy, layout_splitBy_loop, flatWords_cons_new M _ a l ha]
    simp

/-- The number of words the loop writes: two per entry and one per run start. -/
theorem flatWords_length (l : List (KernSortEntry F)) :
    ∀ cur, l.Pairwise (fun a b => a.codeL ≤ b.codeL) →
      ((∀ x ∈ l, cur ≤ x.codeL) ∨ (∀ x ∈ l, x.codeL ≠ cur)) →
      (flatWords M cur l).length =
        2 * l.length + ((l.map (fun x => x.codeL)).filter (fun c => decide (c ≠ cur))).toFinset.card := by
  induction l with
  | nil => intro cur _ _; simp [flatWords]
  | cons e l ih =>
    intro cur hs hcur
    rw [List.pairwise_cons] at hs
    have ih1 := ih e.codeL hs.2 (Or.inl hs.1)
    by_cases h : cur = e.codeL
    · subst h
      rw [flatWords_cons_same, List.length_append, ih1]
      simp [pairWords]
      omega
    · have hnot : ∀ x ∈ l, x.codeL ≠ cur := by
        intro x hx
        rcases hcur with hc1 | hc1
        · have h1 := hc1 e (List.mem_cons_self _ _)
          have h2 := hs.1 x hx
          omega
        · exact hc1 x (List.mem_cons_of_mem _ hx)
      rw [flatWords_cons_new M cur e l h, List.length_cons, List.length_append, ih1]
      have hfil : (List.map (fun x => x.codeL) (e :: l)).filter (fun c => decide (c ≠ cur)) =
          e.codeL :: (l.map (fun x => x.codeL)) := by
        rw [List.map_cons, List.filter_cons_of_pos (by simpa using fun h1 => h h1.symm)]
        congr 1
        rw [List.filter_eq_self]
        intro c hc
        obtain ⟨x, hx, rfl⟩ := List.mem_map.1 hc
        simpa using hnot x hx
      rw [hfil, List.toFinset_cons]
      have hins : insert e.codeL (l.map (fun x => x.codeL)).toFinset =
          insert e.codeL ((l.map (fun x => x.codeL)).filter
            (fun c => decide (c ≠ e.codeL))).toFinset := by
        ext c
        simp only [Finset.mem_insert, List.mem_toFinset, List.mem_filter, decide_eq_true_eq]
        constructor
        · rintro (h1 | h1)
          · exact Or.inl h1
          · by_cases hce : c = e.codeL
            · exact Or.inl hce
            · exact Or.inr ⟨h1, hce⟩
        · rintro (h1 | h1)
          · exact Or.inl h1
          · exact Or.inr h1.1
      rw [hins, Finset.card_insert_of_not_mem (by simp)]
      simp [pairWords]
      omega

/-- The groups of a list ordered by left codepoint: every group has one left codepoint and the
groups are in strictly ascending order of it. -/
theorem splitBy_loop_sorted (l : List (KernSortEntry F)) :
    ∀ (a : KernSortEntry F) (g : List (KernSortEntry F)),
      (a :: l).Pairwise (fun x y => x.codeL ≤ y.codeL) → (∀ x ∈ g, x.codeL = a.codeL) →
      ∃ first rest, List.splitBy.loop sameLeft l a g [] = first :: rest ∧
        (∀ x ∈ first, x.codeL = a.codeL) ∧
        (∀ r ∈ rest, ∀ x ∈ r, a.codeL < x.codeL) ∧
        (∀ r ∈ rest, ∃ c, ∀ x ∈ r, x.codeL = c) ∧
        (first :: rest).Pairwise (fun r1 r2 => ∀ x ∈ r1, ∀ y ∈ r2, x.codeL < y.codeL) := by
  induction l with
  | nil =>
    intro a g _ hg
    refine ⟨(a :: g).reverse, [], by simp [List.splitBy.loop], ?_, by simp, by simp, by simp⟩
    intro x hx
    rcases List.mem_cons.1 (List.mem_reverse.1 hx) with rfl | hx
    · rfl
    · exact hg x hx
  | cons b l ih =>
    intro a g hs hg
    rw [List.pairwise_cons] at hs
    have hab := hs.1 b (List.mem_cons_self _ _)
    cases hr : sameLeft a b with
    | true =>
      have he : a.codeL = b.codeL := by simpa [sameLeft] using hr
      obtain ⟨first, rest, h1, h2, h3, h4, h5⟩ := ih b (a :: g) hs.2 (fun x hx => by
        rcases List.mem_cons.1 hx with rfl | hx
        · exact he
        · rw [hg x hx, he])
      refine ⟨first, rest, by simp only [List.splitBy.loop, hr]; exact h1, ?_, ?_, h4, h5⟩
      · intro x hx; rw [h2 x hx, he]
      · intro r hr1 x hx; rw [he]; exact h3 r hr1 x hx
    | false =>
      have hne : a.codeL ≠ b.codeL := by simpa [sameLeft] using hr
      have hlt : a.codeL < b.codeL := by omega
      obtain ⟨first, rest, h1, h2, h3, h4, h5⟩ := ih b [] hs.2 (fun x hx => by simp at hx)
      have hfirst : ∀ x ∈ (a :: g).reverse, x.codeL = a.codeL := by
        intro x hx
        rcases List.mem_cons.1 (List.mem_reverse.1 hx) with rfl | hx
        · rfl
        · exact hg x hx
      have hrest : ∀ r ∈ first :: rest, ∀ x ∈ r, a.codeL < x.codeL := by
        intro r hr1 x hx
        rcases List.mem_cons.1 hr1 with rfl | hr1
        · rw [h2 x hx]; exact hlt
        · have := h3 r hr1 x hx; omega
      refine ⟨(a :: g).reverse, first :: rest, ?_, hfirst, hrest, ?_, ?_⟩
      · simp only [List.splitBy.loop, hr]
        rw [splitBy_loop_append, h1]; rfl
      · intro r hr1
        rcases List.mem_cons.1 hr1 with rfl | hr1
        · exact ⟨b.codeL, h2⟩
        · exact h4 r hr1
      · rw [List.pairwise_cons]
        refine ⟨?_, h5⟩
        intro r hr1 x hx y hy
        rw [hfirst x hx]; exact hrest r hr1 y hy

/-- The runs of a list ordered by left codepoint. -/
theorem splitBy_sorted (l : List (KernSortEntry F))
    (hs : l.Pairwise (fun x y => x.codeL ≤ y.codeL)) :
    (l.splitBy sameLeft).flatten = l ∧
    (∀ r ∈ l.splitBy sameLeft, r ≠ [] ∧ ∃ c, ∀ x ∈ r, x.codeL = c) ∧
    (l.splitBy sameLeft).Pairwise (fun r1 r2 => ∀ x ∈ r1, ∀ y ∈ r2, x.codeL < y.codeL) := by
  refine ⟨List.flatten_splitBy _ _, ?_, ?_⟩
  · intro r hr
    refine ⟨List.ne_nil_of_mem_splitBy _ hr, ?_⟩
    cases l with
    | nil => simp [List.splitBy] at hr
    | cons a l =>
      obtain ⟨first, rest, h1, h2, _, h4, _⟩ := splitBy_loop_sorted l a [] hs (by simp)
      rw [List.splitBy, h1] at hr
      rcases List.mem_cons.1 hr with rfl | hr
      · exact ⟨a.codeL, h2⟩
      · exact h4 r hr
  · cases l with
    | nil => simp [List.splitBy]
    | cons a l =>
      obtain ⟨first, rest, h1, _, _, _, h5⟩ := splitBy_loop_sorted l a [] hs (by simp)
      rw [List.splitBy, h1]; exact h5

theorem survivors_ne_sentinel (font : FontGeometry D) (x : KernSortEntry F)
    (hx : x ∈ S.run (survivors M font)) : x.codeL ≠ 0xffffffff := by
  have := (survivors_mem M font x ((sorted_mem S _ x).1 hx)).2.2.2.2.1
  omega

/-- The last two words the loop writes are those of the last entry. -/
theorem flatWords_append_last (init : List (KernSortEntry F)) (e : KernSortEntry F) :
    ∀ cur, ∃ body, flatWords M cur (init ++ [e]) = body ++ [e.codeR, M.bits e.advance] := by
  induction init with
  | nil =>
    intro cur
    exact ⟨if cur ≠ e.codeL then [0] else [], by simp [flatWords, pairWords]⟩
  | cons a l ih =>
    intro cur
    obtain ⟨body, hb⟩ := ih a.codeL
    refine ⟨(if cur ≠ a.codeL then [0] else []) ++ pairWords M a ++ body, ?_⟩
    rw [List.cons_append]
    show (if cur ≠ a.codeL then [0] else []) ++ pairWords M a ++
      flatWords M a.codeL (l ++ [e]) = _
    rw [hb]
    simp only [List.append_assoc]

/-- C7: for every output of an export with kerning whose filtered pair list is non-empty, the
sorted pairs are a permutation of the surviving pairs in (left, right) order, the kerning table
is the reference layout of the sorted pairs, and it has `2 n + k + 1` words for `n` surviving
pairs with `k` distinct left codepoints. -/
theorem C7_kernTable_reference_layout (font : FontGeometry D) (fontSize pixelRange : D)
    (atlasWidth atlasHeight : Int) (kerning : Bool) (out : TxfFile F)
    (h : exportFont M S font fontSize pixelRange atlasWidth atlasHeight kerning = some out)
    (hk : kerning = true) (hne : survivors M font ≠ []) :
    (S.run (survivors M font)).Perm (survivors M font) ∧
    (S.run (survivors M font)).Pairwise
      (fun a b => a.codeL < b.codeL ∨ (a.codeL = b.codeL ∧ a.codeR ≤ b.codeR)) ∧
    out.kernTable = referenceKernTable M (S.run (survivors M font)) ∧
    out.kernTable.length = 2 * (survivors M font).length +
      ((survivors M font).map (fun x => x.codeL)).toFinset.card + 1 := by
  obtain ⟨_, _, _, _, _, _, hker⟩ :=
    exportFont_some M S font fontSize pixelRange atlasWidth atlasHeight kerning out h
  obtain ⟨_, htab, _⟩ := hker hk hne
  have hsent := survivors_ne_sentinel M S font
  refine ⟨S.perm _, sorted_lex S _, ?_, ?_⟩
  · rw [htab, referenceKernTable, flatWords_eq_reference M _ hsent]
  · rw [htab, List.length_append, flatWords_length M _ _ (sorted_left S _) (Or.inr hsent)]
    have hfil : ((S.run (survivors M font)).map (fun x => x.codeL)).filter
        (fun c => decide (c ≠ 0xffffffff)) = (S.run (survivors M font)).map (fun x => x.codeL) := by
      rw [List.filter_eq_self]
      intro c hc
      obtain ⟨x, hx, rfl⟩ := List.mem_map.1 hc
      simpa using hsent x hx
    rw [hfil, (S.perm (survivors M font)).length_eq,
      List.toFinset_eq_of_perm _ _ ((S.perm (survivors M font)).map _)]
    rfl

/-- C8: for every output of an export with kerning there are runs of pairs, together a
permutation of the surviving pairs, whose words in order make up the kerning table; the pairs are
in non-decreasing order of left codepoint and, for equal left codepoints, of right codepoint;
every run is non-empty with one left codepoint, and the runs are in strictly ascending order of
left codepoint, so a left codepoint owns exactly one run. -/
theorem C8_runs_ordered (font : FontGeometry D) (fontSize pixelRange : D)
    (atlasWidth atlasHeight : Int) (kerning : Bool) (out : TxfFile F)
    (h : exportFont M S font fontSize pixelRange atlasWidth atlasHeight kerning = some out)
    (hk : kerning = true) :
    ∃ runs : List (List (KernSortEntry F)),
      runs.flatten.Perm (survivors M font) ∧
      out.kernTable = (if runs.isEmpty then [] else (runs.map (runWords M)).flatten ++ [0]) ∧
      runs.flatten.Pairwise
        (fun a b => a.codeL < b.codeL ∨ (a.codeL = b.codeL ∧ a.codeR ≤ b.codeR)) ∧
      (∀ r ∈ runs, r ≠ [] ∧ ∃ c, ∀ x ∈ r, x.codeL = c) ∧
      runs.Pairwise (fun r1 r2 => ∀ x ∈ r1, ∀ y ∈ r2, x.codeL < y.codeL) := by
  obtain ⟨_, _, _, _, _, hoff, hker⟩ :=
    exportFont_some M S font fontSize pixelRange atlasWidth atlasHeight kerning out h
  obtain ⟨h1, h2, h3⟩ := splitBy_sorted (S.run (survivors M font)) (sorted_left S _)
  refine ⟨(S.run (survivors M font)).splitBy sameLeft, by rw [h1]; exact S.perm _, ?_,
    by rw [h1]; exact sorted_lex S _, h2, h3⟩
  by_cases hne : survivors M font = []
  · have hrun : S.run (survivors M font) = [] :=
      List.eq_nil_of_length_eq_zero (by rw [(S.perm _).length_eq, hne]; rfl)
    rw [(hoff (Or.inr hne)).2.2, hrun]
    simp [List.splitBy]
  · have hrun : ((S.run (survivors M font)).splitBy sameLeft).isEmpty = false := by
      rw [Bool.eq_false_iff, ne_eq, List.isEmpty_iff]
      intro h0
      rw [h0] at h1
      have hl := (S.perm (survivors M font)).length_eq
      rw [← h1] at hl
      exact hne (List.eq_nil_of_length_eq_zero hl.symm)
    rw [hrun, (hker hk hne).2.1,
      flatWords_eq_reference M _ (survivors_ne_sentinel M S font)]
    rfl

/-- C9 (amended): in every output of the exporter the kerning table has no word exactly when
kerning is disabled or no pair survives, and `kernOffset` is then 0; a non-empty table ends with
the terminator word 0, preceded by the advance bits of the last sorted pair, preceded by the
non-zero right codepoint of that pair. -/
theorem C9_table_terminator (font : FontGeometry D) (fontSize pixelRange : D)
    (atlasWidth atlasHeight : Int) (kerning : Bool) (out : TxfFile F)
    (h : exportFont M S font fontSize pixelRange atlasWidth atlasHeight kerning = some out) :
    (out.kernTable = [] ↔ (kerning = false ∨ survivors M font = [])) ∧
    (out.kernTable = [] → out.hdr.kernOffset = 0) ∧
    (out.kernTable ≠ [] → ∃ init e body, S.run (survivors M font) = init ++ [e] ∧
      out.kernTable = body ++ [e.codeR, M.bits e.advance, 0] ∧ e.codeR ≠ 0) := by
  obtain ⟨_, _, _, _, _, hoff, hker⟩ :=
    exportFont_some M S font fontSize pixelRange atlasWidth atlasHeight kerning out h
  by_cases hc : kerning = false ∨ survivors M font = []
  · obtain ⟨h1, _, h3⟩ := hoff hc
    exact ⟨by simp [h3, hc], fun _ => h1, fun hne => absurd h3 hne⟩
  · have hk : kerning = true := by
      cases kerning with
      | true => rfl
      | false => exact absurd (Or.inl rfl) hc
    have hs : survivors M font ≠ [] := fun hs => hc (Or.inr hs)
    obtain ⟨_, h2, _⟩ := hker hk hs
    have hne : out.kernTable ≠ [] := by rw [h2]; simp
    refine ⟨by simp [hne, hc], fun h0 => absurd h0 hne, fun _ => ?_⟩
    have hrun : S.run (survivors M font) ≠ [] := by
      intro h0
      have hl := (S.perm (survivors M font)).length_eq
      rw [h0] at hl
      exact hs (List.eq_nil_of_length_eq_zero hl.symm)
    obtain ⟨body, hb⟩ := flatWords_append_last M (S.run (survivors M font)).dropLast
      ((S.run (survivors M font)).getLast hrun) 0xffffffff
    rw [List.dropLast_append_getLast hrun] at hb
    refine ⟨_, _, body, (List.dropLast_append_getLast hrun).symm, by rw [h2, hb]; simp, ?_⟩
    exact (survivors_mem M font _ ((sorted_mem S _ _).1 (List.getLast_mem hrun))).2.1

/-- Scenario B: the pair (A, B, -2.0) gives the table `[0, 66, bits(-2.0), 0]`, which has
`2 * 1 + 1 + 1` words. -/
theorem C7_scenarioB :
    ∃ out, exportFont exactOps insertionSort scenarioB 32 2 64 64 true = some out ∧
      out.kernTable = [0, 66, 0xC0000000, 0] ∧ out.kernTable.length = 2 * 1 + 1 + 1 := by
  have hr : scanRange scenarioB.glyphs = (65, 67) := by
    simp [scanRange, scanStep, scenarioB, sampleGlyph]
  have hdef : scanRange scenarioB.glyphs ≠ (0, 0xffff) := by rw [hr]; simp
  obtain ⟨out, hout⟩ := exportFont_defined exactOps insertionSort scenarioB 32 2 64 64 true hdef
  have hs : survivors exactOps scenarioB = [{ codeL := 65, codeR := 66, advance := -2 }] := by
    with_unfolding_all rfl
  obtain ⟨_, _, h3, _⟩ := C7_kernTable_reference_layout exactOps insertionSort scenarioB 32 2 64 64
    true out hout rfl (by rw [hs]; simp)
  have ht : out.kernTable = [0, 66, 0xC0000000, 0] := by
    rw [h3, hs]; with_unfolding_all rfl
  exact ⟨out, hout, ht, by rw [ht]; rfl⟩

/-- Scenario B has runs with the properties of C8. -/
theorem C8_scenarioB :
    ∃ out, exportFont exactOps insertionSort scenarioB 32 2 64 64 true = some out ∧
      ∃ runs : List (List (KernSortEntry ℚ)),
        runs.flatten.Perm (survivors exactOps scenarioB) ∧
        out.kernTable =
          (if runs.isEmpty then [] else (runs.map (runWords exactOps)).flatten ++ [0]) ∧
        runs.flatten.Pairwise
          (fun a b => a.codeL < b.codeL ∨ (a.codeL = b.codeL ∧ a.codeR ≤ b.codeR)) ∧
        (∀ r ∈ runs, r ≠ [] ∧ ∃ c, ∀ x ∈ r, x.codeL = c) ∧
        runs.Pairwise (fun r1 r2 => ∀ x ∈ r1, ∀ y ∈ r2, x.codeL < y.codeL) := by
  have hr : scanRange scenarioB.glyphs = (65, 67) := by
    simp [scanRange, scanStep, scenarioB, sampleGlyph]
  have hdef : scanRange scenarioB.glyphs ≠ (0, 0xffff) := by rw [hr]; simp
  obtain ⟨out, hout⟩ := exportFont_defined exactOps insertionSort scenarioB 32 2 64 64 true hdef
  exact ⟨out, hout, C8_runs_ordered exactOps insertionSort scenarioB 32 2 64 64 true out hout rfl⟩

/-- Scenario B: the table is not empty and ends with right codepoint 66, the bits of -2.0 and the
terminator. -/
theorem C9_scenarioB :
    ∃ out, exportFont exactOps insertionSort scenarioB 32 2 64 64 true = some out ∧
      out.kernTable ≠ [] ∧
      ∃ init e body, insertionSort.run (survivors exactOps scenarioB) = init ++ [e] ∧
        out.kernTable = body ++ [e.codeR, exactOps.bits e.advance, 0] ∧ e.codeR ≠ 0 := by
  have hr : scanRange scenarioB.glyphs = (65, 67) := by
    simp [scanRange, scanStep, scenarioB, sampleGlyph]
  have hdef : scanRange scenarioB.glyphs ≠ (0, 0xffff) := by rw [hr]; simp
  obtain ⟨out, hout⟩ := exportFont_defined exactOps insertionSort scenarioB 32 2 64 64 true hdef
  have hs : survivors exactOps scenarioB = [{ codeL := 65, codeR := 66, advance := -2 }] := by
    with_unfolding_all rfl
  obtain ⟨h1, _, h3⟩ := C9_table_terminator exactOps insertionSort scenarioB 32 2 64 64 true out hout
  have hne : out.kernTable ≠ [] := by
    intro h0
    rcases h1.1 h0 with h | h
    · cases h
    · rw [hs] at h; cases h
  exact ⟨out, hout, hne, h3 hne⟩

/-- C9 (as stated) fails on a font whose only kerning pair (A, B) has the adjustment `0.0`: the
table is `[0, 66, 0, 0]`, so the word before the last word is 0 as well. -/
theorem C9_zero_advance_before_terminator :
    ∃ out, exportFont exactOps insertionSort zeroAdvanceFont 32 2 64 64 true = some out ∧
      out.kernTable = [0, 66, 0, 0] ∧ out.kernTable ≠ [] ∧
      out.kernTable.getLast? = some 0 ∧ out.kernTable.dropLast.getLast? = some 0 := by
  have hr : scanRange zeroAdvanceFont.glyphs = (65, 66) := by
    simp [scanRange, scanStep, zeroAdvanceFont, sampleGlyph]
  have hdef : scanRange zeroAdvanceFont.glyphs ≠ (0, 0xffff) := by rw [hr]; simp
  obtain ⟨out, hout⟩ :=
    exportFont_defined exactOps insertionSort zeroAdvanceFont 32 2 64 64 true hdef
  have hs : survivors exactOps zeroAdvanceFont = [{ codeL := 65, codeR := 66, advance := 0 }] := by
    with_unfolding_all rfl
  obtain ⟨_, _, _, _, _, _, hker⟩ :=
    exportFont_some exactOps insertionSort zeroAdvanceFont 32 2 64 64 true out hout
  obtain ⟨_, h2, _⟩ := hker rfl (by rw [hs]; simp)
  have ht : out.kernTable = [0, 66, 0, 0] := by
    rw [h2, hs]; with_unfolding_all rfl
  refine ⟨out, hout, ht, ?_, ?_, ?_⟩ <;> rw [ht] <;> simp

end Layout

/-! ## Pairs above the exported range -/

section Dropped

variable {D F : Type} (M : FloatOps D F) (S : SortAlgorithm F)

/-- A pair whose left or right glyph has a codepoint above `highCode` is not pushed to `ksort`. -/
theorem kernEntry_above (font : FontGeometry D) (kp : (Int × Int) × D)
    (geoL geoR : GlyphGeometry D) (hL : font.getGlyph kp.1.1 = some geoL)
    (hR : font.getGlyph kp.1.2 = some geoR)
    (habove : font.highCode < geoL.codepoint ∨ font.highCode < geoR.codepoint) :
    kernEntry M font font.highCode kp = none := by
  cases h : kernEntry M font font.highCode kp with
  | none => rfl
  | some e =>
    exfalso
    obtain ⟨gL, gR, h1, h2, _, _, h5, h6, _⟩ := kernEntry_some M font _ kp e h
    rw [hL] at h1; rw [hR] at h2
    obtain rfl := Option.some.inj h1
    obtain rfl := Option.some.inj h2
    have hb := scanRange_bounds font.glyphs geoL (getGlyph_mem font _ geoL hL) h5
    have hb2 : geoL.codepoint ≤ font.highCode := hb.2
    omega

/-- The export reads the kerning pairs only through the filtered list. -/
theorem exportFont_kerning_congr (font : FontGeometry D) (K : List ((Int × Int) × D))
    (fontSize pixelRange : D) (atlasWidth atlasHeight : Int) (kerning : Bool)
    (hK : K.filterMap (kernEntry M font font.highCode) =
      font.kerning.filterMap (kernEntry M font font.highCode)) :
    exportFont M S { font with kerning := K } fontSize pixelRange atlasWidth atlasHeight kerning =
      exportFont M S font fontSize pixelRange atlasWidth atlasHeight kerning := by
  have hf : kernFilter M { font with kerning := K } (scanRange font.glyphs).2 =
      kernFilter M font (scanRange font.glyphs).2 := hK
  simp only [exportFont, hf]

/-- Without a surviving pair the export with kerning is the export without kerning. -/
theorem exportFont_no_survivor (font : FontGeometry D) (fontSize pixelRange : D)
    (atlasWidth atlasHeight : Int) (hs : survivors M font = []) :
    exportFont M S font fontSize pixelRange atlasWidth atlasHeight true =
      exportFont M S font fontSize pixelRange atlasWidth atlasHeight false := by
  have hf : kernFilter M font (scanRange font.glyphs).2 = [] := hs
  simp only [exportFont, hf, List.isEmpty_nil, if_true, Bool.false_eq_true, if_false]

/-- C10: a kerning pair whose left or right glyph has a codepoint greater than `highCode` is not
pushed to the list of pairs to sort; removing it from the font leaves the whole output unchanged
(no word of the kerning table and no `kernIndex` comes from it); and when every pair is of this
kind the output with kerning is the output with kerning disabled. -/
theorem C10_pairs_above_highCode_dropped (font : FontGeometry D) (fontSize pixelRange : D)
    (atlasWidth atlasHeight : Int) :
    (∀ (kp : (Int × Int) × D) (geoL geoR : GlyphGeometry D),
      font.getGlyph kp.1.1 = some geoL → font.getGlyph kp.1.2 = some geoR →
      (font.highCode < geoL.codepoint ∨ font.highCode < geoR.codepoint) →
      kernEntry M font font.highCode kp = none) ∧
    (∀ (pre post : List ((Int × Int) × D)) (kp : (Int × Int) × D) (geoL geoR : GlyphGeometry D)
      (kerning : Bool),
      font.kerning = pre ++ kp :: post →
      font.getGlyph kp.1.1 = some geoL → font.getGlyph kp.1.2 = some geoR →
      (font.highCode < geoL.codepoint ∨ font.highCode < geoR.codepoint) →
      exportFont M S font fontSize pixelRange atlasWidth atlasHeight kerning =
        exportFont M S { font with kerning := pre ++ post } fontSize pixelRange atlasWidth
          atlasHeight kerning) ∧
    ((∀ kp ∈ font.kerning, ∃ geoL geoR, font.getGlyph kp.1.1 = some geoL ∧
        font.getGlyph kp.1.2 = some geoR ∧
        (font.highCode < geoL.codepoint ∨ font.highCode < geoR.codepoint)) →
      exportFont M S font fontSize pixelRange atlasWidth atlasHeight true =
        exportFont M S font fontSize pixelRange atlasWidth atlasHeight false) := by
  refine ⟨fun kp geoL geoR hL hR habove => kernEntry_above M font kp geoL geoR hL hR habove,
    ?_, ?_⟩
  · intro pre post kp geoL geoR kerning hsplit hL hR habove
    symm
    apply exportFont_kerning_congr
    rw [hsplit, List.filterMap_append, List.filterMap_append,
      List.filterMap_cons_none (kernEntry_above M font kp geoL geoR hL hR habove)]
  · intro hall
    apply exportFont_no_survivor
    show font.kerning.filterMap (kernEntry M font font.highCode) = []
    rw [List.filterMap_eq_nil_iff]
    intro kp hkp
    obtain ⟨geoL, geoR, hL, hR, habove⟩ := hall kp hkp
    exact kernEntry_above M font kp geoL geoR hL hR habove

/-- Scenario C: the pair from 'A' to the glyph of U+10041 is dropped and the output with kerning
is the output without kerning. -/
theorem C10_scenarioC :
    kernEntry exactOps scenarioC scenarioC.highCode ((1, 4), -2) = none ∧
    exportFont exactOps insertionSort scenarioC 32 2 64 64 true =
      exportFont exactOps insertionSort scenarioC 32 2 64 64 false := by
  have hL : scenarioC.getGlyph 1 = some (sampleGlyph 1 65 1) := by with_unfolding_all rfl
  have hR : scenarioC.getGlyph 4 = some (sampleGlyph 4 0x10041 1) := by with_unfolding_all rfl
  have hh : scenarioC.highCode = 67 := by
    simp [FontGeometry.highCode, scanRange, scanStep, scenarioC, sampleGlyph]
  have habove : scenarioC.highCode < (sampleGlyph 1 65 1).codepoint ∨
      scenarioC.highCode < (sampleGlyph 4 0x10041 1).codepoint := by
    right; rw [hh]; simp [sampleGlyph]
  obtain ⟨h1, _, h3⟩ := C10_pairs_above_highCode_dropped exactOps insertionSort scenarioC 32 2 64 64
  refine ⟨h1 ((1, 4), -2) _ _ hL hR habove, h3 ?_⟩
  intro kp hkp
  have hkp1 : kp = ((1, 4), -2) := by simpa [scenarioC] using hkp
  subst hkp1
  exact ⟨_, _, hL, hR, habove⟩

end Dropped

/-! ## The kerning-run index of a glyph record -/

section RunIndex

variable {D F : Type} (M : FloatOps D F) (S : SortAlgorithm F)

/-- A list with an entry of left codepoint `c` splits at the first such entry. -/
theorem entriesBefore_split (l : List (KernSortEntry F)) (c : Nat)
    (hc : c ∈ l.map (fun x => x.codeL)) :
    ∃ e post, l = entriesBefore l c ++ e :: post ∧ e.codeL = c ∧
      ∀ x ∈ entriesBefore l c, x.codeL ≠ c := by
  induction l with
  | nil => simp at hc
  | cons a l ih =>
    by_cases ha : a.codeL = c
    · exact ⟨a, l, by rw [entriesBefore_cons_eq a l c ha]; rfl, ha,
        by rw [entriesBefore_cons_eq a l c ha]; simp⟩
    · have hc1 : c ∈ l.map (fun x => x.codeL) := by
        rcases List.mem_cons.1 hc with h | h
        · exact absurd h.symm ha
        · exact h
      obtain ⟨e, post, h1, h2, h3⟩ := ih hc1
      refine ⟨e, post, ?_, h2, ?_⟩
      · rw [entriesBefore_cons_ne a l c ha, List.cons_append, ← h1]
      · rw [entriesBefore_cons_ne a l c ha]
        intro x hx
        rcases List.mem_cons.1 hx with rfl | hx
        · exact ha
        · exact h3 x hx

/-- The words around the start of a run. -/
theorem flatWords_at_run (pre : List (KernSortEntry F)) (e : KernSortEntry F)
    (post : List (KernSortEntry F)) :
    ∀ cur, cur ≠ e.codeL → (∀ x ∈ pre, x.codeL ≠ e.codeL) →
      flatWords M cur (pre ++ e :: post) =
        flatWords M cur pre ++ 0 :: (pairWords M e ++ flatWords M e.codeL post) := by
  induction pre with
  | nil => intro cur hcur _; rw [List.nil_append, flatWords_cons_new M cur e post hcur]; rfl
  | cons a l ih =>
    intro cur _ hpre
    have ha := hpre a (List.mem_cons_self _ _)
    have ih1 := ih a.codeL ha (fun x hx => hpre x (List.mem_cons_of_mem _ hx))
    rw [List.cons_append]
    show (if cur ≠ a.codeL then [0] else []) ++ pairWords M a ++
      flatWords M a.codeL (l ++ e :: post) =
      ((if cur ≠ a.codeL then [0] else []) ++ pairWords M a ++ flatWords M a.codeL l) ++ _
    rw [ih1]
    simp only [List.append_assoc]

/-- The record of a surviving left codepoint `c` and the words of its run: the sorted list
splits at the first entry `e` of `c`; the table is the words of the earlier entries, the
placeholder, the two words of `e` and the rest; the record at `c - lowCode` has code `c` and its
`kernIndex` is the start of the run narrowed to 16 bits. -/
theorem exportFont_run_index (font : FontGeometry D) (fontSize pixelRange : D)
    (atlasWidth atlasHeight : Int) (out : TxfFile F)
    (h : exportFont M S font fontSize pixelRange atlasWidth atlasHeight true = some out)
    (c : Nat) (hc : c ∈ (survivors M font).map (fun x => x.codeL)) :
    ∃ e post, S.run (survivors M font) = entriesBefore (S.run (survivors M font)) c ++ e :: post ∧
      e.codeL = c ∧
      out.kernTable = flatWords M 0xffffffff (entriesBefore (S.run (survivors M font)) c) ++
        0 :: (pairWords M e ++ (flatWords M c post ++ [0])) ∧
      ∃ r, out.gbuf[c - font.lowCode]? = some r ∧ r.code = c ∧
        r.kernIndex = u16 (runStart M (S.run (survivors M font)) c) := by
  obtain ⟨hdef, _, _, _, _, _, hker⟩ :=
    exportFont_some M S font fontSize pixelRange atlasWidth atlasHeight true out h
  have hne : survivors M font ≠ [] := by
    intro h0; rw [h0] at hc; simp at hc
  obtain ⟨_, htab, _⟩ := hker rfl hne
  obtain ⟨e, post, hsplit, he, hpre⟩ :=
    entriesBefore_split (S.run (survivors M font)) c ((sorted_lefts S _ c).2 hc)
  obtain ⟨x, hx, hxc⟩ := List.mem_map.1 hc
  obtain ⟨_, _, _, _, hc16, _, g0, hg0, hg0c⟩ := survivors_mem M font x hx
  have hxc' : x.codeL = c := hxc
  refine ⟨e, post, hsplit, he, ?_, ?_⟩
  · have hfw : flatWords M 0xffffffff (S.run (survivors M font)) =
        flatWords M 0xffffffff (entriesBefore (S.run (survivors M font)) c ++ e :: post) :=
      congrArg _ hsplit
    rw [htab, hfw, flatWords_at_run M _ e post 0xffffffff
      (by rw [he, ← hxc']; omega) (by rw [he]; exact hpre), he]
    simp only [List.append_assoc, List.cons_append]
  · obtain ⟨buf, hfill, hlen, hg⟩ :=
      exportFont_gbuf M S font fontSize pixelRange atlasWidth atlasHeight true out h
    obtain ⟨buf1, hfill1, _, _, hrec⟩ := fillGlyphs_scanRange M (M.ofInt atlasWidth)
      (M.ofInt atlasHeight) font.glyphs hdef
    have hb : buf1 = buf := Option.some.inj (hfill1.symm.trans hfill)
    subst hb
    obtain ⟨pre, g, postg, hgs, hgc, hlast⟩ :=
      exists_last_with (fun g => g.codepoint = c) font.glyphs ⟨g0, hg0, hg0c.trans hxc'⟩
    have hgc' : g.codepoint = c := hgc
    obtain ⟨_, _, h3⟩ := hrec pre g postg hgs (by rw [hgc', ← hxc']; exact hc16)
      (fun y hy => by rw [hgc']; exact hlast y hy)
    rw [hgc'] at h3
    have h3' : buf1[c - font.lowCode]? =
        some (glyphRecord M (M.ofInt atlasWidth) (M.ofInt atlasHeight) g) := h3
    have hcode : (glyphRecord M (M.ofInt atlasWidth) (M.ofInt atlasHeight) g).code = c := by
      show u16 g.codepoint = c
      rw [hgc', u16_of_le (by rw [← hxc']; exact hc16)]
    refine ⟨_, by rw [hg, List.getElem?_map, h3']; rfl, ?_, ?_⟩
    · dsimp only
      split
      · exact hcode
      · exact hcode
    · dsimp only
      rw [if_pos ⟨rfl, by rw [hcode]; exact hc⟩, hcode]

/-- The `kernIndex` of every record of a defined export. -/
theorem exportFont_kernIndex (font : FontGeometry D) (fontSize pixelRange : D)
    (atlasWidth atlasHeight : Int) (kerning : Bool) (out : TxfFile F)
    (h : exportFont M S font fontSize pixelRange atlasWidth atlasHeight kerning = some out)
    (i : Nat) (r : TxfGlyph F) (hr : out.gbuf[i]? = some r) :
    r.kernIndex =
      if kerning = true ∧ r.code ∈ (survivors M font).map (fun x => x.codeL) then
        u16 (runStart M (S.run (survivors M font)) r.code)
      else 0 := by
  obtain ⟨hdef, _⟩ :=
    exportFont_some M S font fontSize pixelRange atlasWidth atlasHeight kerning out h
  obtain ⟨buf, hfill, _, hg⟩ :=
    exportFont_gbuf M S font fontSize pixelRange atlasWidth atlasHeight kerning out h
  rw [hg, List.getElem?_map] at hr
  cases hb : buf[i]? with
  | none => rw [hb] at hr; cases hr
  | some b =>
    rw [hb] at hr
    have h0 := (fillGlyphs_code M font.glyphs _ _ buf hfill hdef i b hb).1
    have hr1 : r = (if kerning = true ∧ b.code ∈ (survivors M font).map (fun x => x.codeL) then
        { b with kernIndex := u16 (runStart M (S.run (survivors M font)) b.code) }
      else b) := (Option.some.inj hr).symm
    by_cases hc : kerning = true ∧ b.code ∈ (survivors M font).map (fun x => x.codeL)
    · rw [if_pos hc] at hr1
      rw [hr1]
      dsimp only
      rw [if_pos hc]
    · rw [if_neg hc] at hr1
      rw [hr1, if_neg hc]
      exact h0

end RunIndex

/-! ## A font with more than 32767 kerning pairs -/

section ManyPairs

theorem find?_range (p : Nat → Bool) (j : Nat) (hp : p j = true)
    (hlt : ∀ i, i < j → p i = false) : ∀ n, j < n → (List.range n).find? p = some j := by
  intro n
  induction n with
  | zero => intro h; omega
  | succ n ih =>
    intro hj
    rw [List.range_succ, List.find?_append]
    by_cases h : j < n
    · rw [ih h]; rfl
    · have hjn : j = n := by omega
      subst hjn
      have hnone : (List.range j).find? p = none := by
        rw [List.find?_eq_none]
        intro x hx
        rw [hlt x (List.mem_range.1 hx)]; simp
      rw [hnone]
      simp [hp]

theorem manyPairs_getGlyph (n j : Nat) (hj : j < n) (i : Int) (hi : i = ((j + 1 : Nat) : Int)) :
    (manyPairsFont n).getGlyph i = some (sampleGlyph ((j + 1 : Nat) : Int) (j + 1) 1) := by
  unfold FontGeometry.getGlyph manyPairsFont
  simp only [List.find?_map]
  rw [find?_range _ j ?_ ?_ n hj]
  · rfl
  · simp [sampleGlyph, hi]
  · intro k hk
    simp only [Function.comp, sampleGlyph, hi, beq_eq_false_iff_ne, ne_eq]
    omega

theorem manyPairs_mem (n : Nat) (g : GlyphGeometry ℚ) (hg : g ∈ (manyPairsFont n).glyphs) :
    ∃ k, k < n ∧ g.codepoint = k + 1 := by
  obtain ⟨k, hk, rfl⟩ := List.mem_map.1 hg
  exact ⟨k, List.mem_range.1 hk, rfl⟩

theorem manyPairs_mem_of_lt (n k : Nat) (hk : k < n) :
    sampleGlyph ((k + 1 : Nat) : Int) (k + 1) 1 ∈ (manyPairsFont n).glyphs :=
  List.mem_map.2 ⟨k, List.mem_range.2 hk, rfl⟩

theorem manyPairs_scanRange (n : Nat) (h1 : 1 ≤ n) (hn : n ≤ 0xffff) :
    scanRange (manyPairsFont n).glyphs = (1, n) := by
  have hex : ∃ g ∈ (manyPairsFont n).glyphs, g.codepoint ≤ 0xffff :=
    ⟨_, manyPairs_mem_of_lt n 0 (by omega), by simp [sampleGlyph]⟩
  obtain ⟨g1, hg1, _, hl⟩ := scanRange_low_mem _ hex
  obtain ⟨g2, hg2, _, hh⟩ := scanRange_high_mem _ hex
  obtain ⟨k1, _, hk1⟩ := manyPairs_mem n g1 hg1
  obtain ⟨k2, _, hk2⟩ := manyPairs_mem n g2 hg2
  have hb1 := scanRange_bounds _ _ (manyPairs_mem_of_lt n 0 (by omega)) (by simp [sampleGlyph])
  have hb2 := scanRange_bounds _ _ (manyPairs_mem_of_lt n (n - 1) (by omega))
    (by simp only [sampleGlyph]; omega)
  simp only [sampleGlyph] at hb1 hb2
  apply Prod.ext
  · simp only; omega
  · simp only; omega

theorem manyPairs_survivors (n : Nat) (h2 : 2 ≤ n) (hn : n ≤ 0xffff) :
    survivors exactOps (manyPairsFont n) =
      (List.range n).map (fun k => ({ codeL := 1, codeR := k + 1, advance := -2 } :
        KernSortEntry ℚ)) ++ [{ codeL := 2, codeR := 1, advance := -2 }] := by
  have hh : (manyPairsFont n).highCode = n := by
    simp [FontGeometry.highCode, manyPairs_scanRange n (by omega) hn]
  have hg1 := manyPairs_getGlyph n 0 (by omega) 1 rfl
  have hg2 := manyPairs_getGlyph n 1 (by omega) 2 rfl
  have hk : (manyPairsFont n).kerning =
      (List.range n).map (fun k => (((1 : Int), ((k + 1 : Nat) : Int)), (-2 : ℚ))) ++
        [(((2 : Int), (1 : Int)), (-2 : ℚ))] := rfl
  unfold survivors kernFilter
  rw [hh, hk, List.filterMap_append, List.filterMap_map]
  congr 1
  · rw [List.filterMap_eq_map_iff_forall_eq_some]
    intro k hk
    have hkn := List.mem_range.1 hk
    have hgk := manyPairs_getGlyph n k hkn ((k + 1 : Nat) : Int) rfl
    simp only [Function.comp, kernEntry, hg1, hgk, sampleGlyph]
    rw [if_pos (by omega), if_pos (by omega)]
    rfl
  · simp only [List.filterMap_cons, List.filterMap_nil, kernEntry, hg1, hg2, sampleGlyph]
    rw [if_pos (by omega), if_pos (by omega)]
    rfl

theorem manyPairs_sorted (n : Nat) :
    insertionSort.run ((List.range n).map (fun k => ({ codeL := 1, codeR := k + 1, advance := -2 } :
        KernSortEntry ℚ)) ++ [{ codeL := 2, codeR := 1, advance := -2 }]) =
      (List.range n).map (fun k => ({ codeL := 1, codeR := k + 1, advance := -2 } :
        KernSortEntry ℚ)) ++ [{ codeL := 2, codeR := 1, advance := -2 }] := by
  apply List.Sorted.insertionSort_eq
  unfold List.Sorted
  rw [List.pairwise_append]
  refine ⟨?_, by simp, ?_⟩
  · rw [List.pairwise_map]
    apply (List.pairwise_lt_range n).imp
    intro a b hab
    show kernLess _ _ = false
    rw [kernLess_eq_false_iff]
    simp only
    omega
  · intro a ha b hb
    obtain ⟨k, _, rfl⟩ := List.mem_map.1 ha
    obtain rfl := List.mem_singleton.1 hb
    show kernLess _ _ = false
    rw [kernLess_eq_false_iff]
    simp only
    omega

/-- The words of entries that all have the left codepoint `c`, entered with another `curCode`:
one placeholder and two words per entry. -/
theorem flatWords_length_one_run {D F : Type} (M : FloatOps D F) (c : Nat)
    (l : List (KernSortEntry F)) (hl : ∀ x ∈ l, x.codeL = c) :
    (flatWords M c l).length = 2 * l.length ∧
    ∀ cur, cur ≠ c → l ≠ [] → (flatWords M cur l).length = 2 * l.length + 1 := by
  induction l with
  | nil => simp [flatWords]
  | cons a l ih =>
    have ha := hl a (List.mem_cons_self _ _)
    have ih1 := (ih (fun x hx => hl x (List.mem_cons_of_mem _ hx))).1
    constructor
    · rw [← ha, flatWords_cons_same, List.length_append, ha, ih1]
      simp [pairWords]; omega
    · intro cur hcur _
      rw [flatWords_cons_new M cur a l (by rw [ha]; exact hcur), List.length_cons,
        List.length_append, ha, ih1]
      simp [pairWords]; omega

/-- The export of `manyPairsFont n`: the run of the left codepoint 2 starts after the `2 n + 1`
words of the run of the left codepoint 1, and the record of codepoint 2 gets that start narrowed
to 16 bits. -/
theorem manyPairs_export (n : Nat) (h2 : 2 ≤ n) (hn : n ≤ 0xffff) :
    ∃ out, exportFont exactOps insertionSort (manyPairsFont n) 32 2 64 64 true = some out ∧
      runStart exactOps (insertionSort.run (survivors exactOps (manyPairsFont n))) 2 = 2 * n + 2 ∧
      ∃ words, words.length = 2 * n + 1 ∧
        out.kernTable = words ++ [0, 1, 0xC0000000, 0] ∧
        ∃ r, out.gbuf[1]? = some r ∧ r.code = 2 ∧ r.kernIndex = u16 (2 * n + 2) := by
  have hr := manyPairs_scanRange n (by omega) hn
  have hdef : scanRange (manyPairsFont n).glyphs ≠ (0, 0xffff) := by rw [hr]; simp
  obtain ⟨out, hout⟩ :=
    exportFont_defined exactOps insertionSort (manyPairsFont n) 32 2 64 64 true hdef
  have hs := manyPairs_survivors n h2 hn
  have hlow : (manyPairsFont n).lowCode = 1 := by simp [FontGeometry.lowCode, hr]
  obtain ⟨e, post, hsplit, _, htab, r, hr1, hr2, hr3⟩ :=
    exportFont_run_index exactOps insertionSort (manyPairsFont n) 32 2 64 64 out hout 2
      (by rw [hs]; simp)
  rw [hs, manyPairs_sorted n] at hsplit htab
  rw [hs, manyPairs_sorted n] at hr3
  have hpre : entriesBefore ((List.range n).map (fun k =>
      ({ codeL := 1, codeR := k + 1, advance := -2 } : KernSortEntry ℚ)) ++
        [{ codeL := 2, codeR := 1, advance := -2 }]) 2 =
      (List.range n).map (fun k =>
        ({ codeL := 1, codeR := k + 1, advance := -2 } : KernSortEntry ℚ)) := by
    unfold entriesBefore
    rw [List.takeWhile_append_of_pos]
    · simp
    · intro a ha
      obtain ⟨k, _, rfl⟩ := List.mem_map.1 ha
      simp
  rw [hpre] at hsplit htab
  have hep := List.append_cancel_left hsplit
  obtain ⟨he, hpost⟩ := List.cons.inj hep
  subst he; subst hpost
  have hlen : (flatWords exactOps 0xffffffff ((List.range n).map (fun k =>
      ({ codeL := 1, codeR := k + 1, advance := -2 } : KernSortEntry ℚ)))).length = 2 * n + 1 := by
    rw [(flatWords_length_one_run exactOps 1 _ (fun x hx => by
      obtain ⟨k, _, rfl⟩ := List.mem_map.1 hx; rfl)).2 0xffffffff (by omega)
      (by intro h0; have := congrArg List.length h0; simp at this; omega)]
    simp
  have hstart : runStart exactOps ((List.range n).map (fun k =>
      ({ codeL := 1, codeR := k + 1, advance := -2 } : KernSortEntry ℚ)) ++
        [{ codeL := 2, codeR := 1, advance := -2 }]) 2 = 2 * n + 2 := by
    rw [runStart, hpre, hlen]
  refine ⟨out, hout, by rw [hs, manyPairs_sorted n]; exact hstart, _, hlen, ?_, r,
    by rw [hlow] at hr1; exact hr1, hr2, ?_⟩
  · have htail : 0 :: (pairWords exactOps { codeL := 2, codeR := 1, advance := -2 } ++
        (flatWords exactOps 2 [] ++ [0])) = [0, 1, 0xC0000000, 0] := by
      simp only [pairWords, flatWords, exactOps, binary32_neg_two]
      rfl
    rw [htab, htail]
  · rw [hr3, hstart]

/-- C5: on the font with glyphs for the codepoints 1..32767, the kerning pairs (1, r) for
r = 1..32767 and the pair (2, 1), the left codepoint 2 starts a run whose placeholder is word
65535 of the kerning table and whose first (right codepoint, advance bits) pair is at word 65536,
but the glyph record of codepoint 2 has `kernIndex` 0: the index is narrowed to 16 bits. -/
theorem C5_kernIndex_wraps_on_many_pairs :
    ∃ out, exportFont exactOps insertionSort (manyPairsFont 32767) 32 2 64 64 true = some out ∧
      runStart exactOps (insertionSort.run (survivors exactOps (manyPairsFont 32767))) 2 = 65536 ∧
      out.kernTable[65535]? = some 0 ∧ out.kernTable[65536]? = some 1 ∧
      out.kernTable[65537]? = some 0xC0000000 ∧ out.kernTable[65538]? = some 0 ∧
      ∃ r, out.gbuf[1]? = some r ∧ r.code = 2 ∧ r.kernIndex = 0 := by
  obtain ⟨out, hout, hstart, words, hlen, htab, r, hr1, hr2, hr3⟩ :=
    manyPairs_export 32767 (by norm_num) (by norm_num)
  have hlen1 : words.length = 65535 := by rw [hlen]
  refine ⟨out, hout, by rw [hstart], ?_, ?_, ?_, ?_, r, hr1, hr2, by rw [hr3]; rfl⟩
  · rw [htab, List.getElem?_append_right (by omega), hlen1]; rfl
  · rw [htab, List.getElem?_append_right (by omega), hlen1]; rfl
  · rw [htab, List.getElem?_append_right (by omega), hlen1]; rfl
  · rw [htab, List.getElem?_append_right (by omega), hlen1]; rfl

/-- C6: on the same font the codepoint 2 is the left codepoint of a surviving kerning pair and
its glyph record is populated (code 2), yet the record has `kernIndex` 0. -/
theorem C6_kernIndex_zero_for_kerned_glyph :
    ∃ out, exportFont exactOps insertionSort (manyPairsFont 32767) 32 2 64 64 true = some out ∧
      (∃ e ∈ survivors exactOps (manyPairsFont 32767), e.codeL = 2) ∧
      ∃ r, out.gbuf[1]? = some r ∧ r.code = 2 ∧ r.code ≠ 0 ∧ r.kernIndex = 0 := by
  obtain ⟨out, hout, _, _, _, _, r, hr1, hr2, hr3⟩ :=
    manyPairs_export 32767 (by norm_num) (by norm_num)
  refine ⟨out, hout, ⟨{ codeL := 2, codeR := 1, advance := -2 }, ?_, rfl⟩, r, hr1, hr2,
    by rw [hr2]; decide, by rw [hr3]; rfl⟩
  rw [manyPairs_survivors 32767 (by norm_num) (by norm_num)]
  simp

end ManyPairs

/-! ## A font without an eligible glyph -/

section NoEligible

variable {D F : Type} (M : FloatOps D F) (S : SortAlgorithm F)

/-- Without a glyph of codepoint `≤ 0xffff` no kerning pair survives. -/
theorem survivors_no_eligible (font : FontGeometry D)
    (hno : ∀ g ∈ font.glyphs, ¬ g.codepoint ≤ 0xffff) : survivors M font = [] := by
  rw [List.eq_nil_iff_forall_not_mem]
  intro e he
  obtain ⟨_, _, _, _, h16, _, g, hg, hgc⟩ := survivors_mem M font e he
  exact hno g hg (by rw [hgc]; exact h16)

/-- The export of a font without a glyph of codepoint `≤ 0xffff`: `highCode - lowCode + 1` is
computed from the initial values `0xffff` and `0`, wraps to `0xffff0002` and is stored as 2; the
glyph table is two zeroed records; there is no kerning word. -/
theorem exportFont_no_eligible (font : FontGeometry D) (fontSize pixelRange : D)
    (atlasWidth atlasHeight : Int) (kerning : Bool)
    (hno : ∀ g ∈ font.glyphs, ¬ g.codepoint ≤ 0xffff) :
    ∃ out, exportFont M S font fontSize pixelRange atlasWidth atlasHeight kerning = some out ∧
      out.hdr.glyphCount = 2 ∧ out.gbuf = [zeroGlyph M, zeroGlyph M] ∧
      out.kernTable = [] ∧ out.hdr.kernOffset = 0 := by
  have hr := scanRange_of_no_eligible font.glyphs hno
  have hdef : scanRange font.glyphs ≠ (0, 0xffff) := by rw [hr]; simp
  obtain ⟨out, hout⟩ :=
    exportFont_defined M S font fontSize pixelRange atlasWidth atlasHeight kerning hdef
  obtain ⟨_, buf, hfill, hlen, hcount, hoff, _⟩ :=
    exportFont_some M S font fontSize pixelRange atlasWidth atlasHeight kerning out hout
  obtain ⟨h1, h2, h3⟩ := hoff (Or.inr (survivors_no_eligible M font hno))
  have hc : font.glyphCount = 2 := by
    simp only [FontGeometry.glyphCount, FontGeometry.lowCode, FontGeometry.highCode, hr]
    exact glyphCountOf_no_eligible
  obtain ⟨buf1, hfill1, _, hzero, _⟩ := fillGlyphs_scanRange M (M.ofInt atlasWidth)
    (M.ofInt atlasHeight) font.glyphs hdef
  have hb : buf1 = buf := Option.some.inj (hfill1.symm.trans hfill)
  subst hb
  have hl2 : buf1.length = 2 := by rw [hlen, hc]
  have hz0 := hzero 0 (by omega) (fun g hg hle => absurd hle (hno g hg))
  have hz1 := hzero 1 (by omega) (fun g hg hle => absurd hle (hno g hg))
  refine ⟨out, hout, by rw [hcount, hc], ?_, h3, h1⟩
  rw [h2]
  match buf1, hl2, hz0, hz1 with
  | [a, b], _, hz0, hz1 =>
    simp only [List.getElem?_cons_zero, List.getElem?_cons_succ, Option.some.injEq] at hz0 hz1
    rw [hz0, hz1]

/-- C13: on the font whose only glyph has the codepoint U+10041 (no glyph with codepoint
`≤ 0xFFFF`) and one kerning pair, exported with kerning, the header's glyph count is 2, the
wrapped value of `0 - 0xffff + 1`, and two zeroed glyph records are handed to the sink
(`28 + 2 * 40` bytes); no kerning word is emitted and `kernOffset` is 0. -/
theorem C13_glyphCount_two_without_eligible_glyph :
    (∀ g ∈ astralFont.glyphs, ¬ g.codepoint ≤ 0xffff) ∧
    ∃ out, exportFont exactOps insertionSort astralFont 32 2 64 64 true = some out ∧
      u32add (u32sub 0 0xffff) 1 = 0xffff0002 ∧ out.hdr.glyphCount = 2 ∧
      fontWrites out =
        [Chunk.header out.hdr, Chunk.glyphs [zeroGlyph exactOps, zeroGlyph exactOps]] ∧
      fontBytes out = 28 + 2 * 40 ∧ out.kernTable = [] ∧ out.hdr.kernOffset = 0 := by
  have hno : ∀ g ∈ astralFont.glyphs, ¬ g.codepoint ≤ 0xffff := by
    intro g hg
    have : g = sampleGlyph 1 0x10041 1 := by simpa [astralFont] using hg
    rw [this]; simp [sampleGlyph]
  obtain ⟨out, hout, h1, h2, h3, h4⟩ :=
    exportFont_no_eligible exactOps insertionSort astralFont 32 2 64 64 true hno
  refine ⟨hno, out, hout, by simp [u32add, u32sub], h1, ?_, ?_, h3, h4⟩
  · simp [fontWrites, h1, h2, h3]
  · simp [fontBytes, fontWrites, h1, h2, h3, Chunk.bytes, sizeofTxfHeader, sizeofTxfGlyph]

end NoEligible

/-! ## The slot of a glyph -/

section Slot

variable {D : Type}

/-- Unless the eligible codepoints span all of `0..0xffff`, the slot of every eligible glyph is
inside the allocated array. -/
theorem slot_index_valid (font : FontGeometry D) (hdef : scanRange font.glyphs ≠ (0, 0xffff))
    (g : GlyphGeometry D) (hg : g ∈ font.glyphs) (hle : g.codepoint ≤ 0xffff) :
    font.lowCode ≤ g.codepoint ∧ u32sub g.codepoint font.lowCode = g.codepoint - font.lowCode ∧
      u32sub g.codepoint font.lowCode < font.glyphCount := by
  obtain ⟨hb1, hb2⟩ := scanRange_bounds font.glyphs g hg hle
  have hc := glyphCountOf_scanRange font.glyphs ⟨g, hg, hle⟩ hdef
  have hs : u32sub g.codepoint (scanRange font.glyphs).1 = g.codepoint - (scanRange font.glyphs).1 :=
    u32sub_of_le hb1 hle
  refine ⟨hb1, hs, ?_⟩
  show u32sub g.codepoint (scanRange font.glyphs).1 <
    glyphCountOf (scanRange font.glyphs).1 (scanRange font.glyphs).2
  rw [hs, hc]
  omega

/-- C18: on the font with glyphs for U+0000 and U+FFFF the glyph of U+0000 has codepoint
`≤ 0xFFFF` and the slot index `0 - lowCode = 0`, but the 16-bit count used to allocate the array
is 0, so the index is not below `glyphCount`: the store is outside the array and the fill loop
has no defined result. -/
theorem C18_slot_outside_array_on_full_span :
    ∃ g ∈ fullSpanFont.glyphs, g.codepoint ≤ 0xffff ∧
      u32sub g.codepoint fullSpanFont.lowCode = 0 ∧ fullSpanFont.glyphCount = 0 ∧
      ¬ u32sub g.codepoint fullSpanFont.lowCode < fullSpanFont.glyphCount ∧
      fillGlyphs exactOps (exactOps.ofInt 64) (exactOps.ofInt 64) fullSpanFont.lowCode
        fullSpanFont.glyphCount fullSpanFont.glyphs = none := by
  have hr : scanRange fullSpanFont.glyphs = (0, 0xffff) := by
    simp [scanRange, scanStep, fullSpanFont, sampleGlyph]
  have hlow : fullSpanFont.lowCode = 0 := by simp [FontGeometry.lowCode, hr]
  have hc : fullSpanFont.glyphCount = 0 := by
    simp [FontGeometry.glyphCount, FontGeometry.lowCode, FontGeometry.highCode, hr, glyphCountOf,
      u16, u32add, u32sub]
  refine ⟨sampleGlyph 1 0 1, by simp [fullSpanFont], by simp [sampleGlyph], ?_, hc, ?_, ?_⟩
  · rw [hlow]; simp [sampleGlyph, u32sub]
  · rw [hlow, hc]; simp
  · exact fillGlyphs_full_span exactOps _ _ fullSpanFont.glyphs hr

end Slot

/-! ## The frame of `txf_setKernIndex` -/

section Frame

variable {D F : Type} (M : FloatOps D F) (S : SortAlgorithm F)

theorem setKernIndexLoop_length (gbuf : List (TxfGlyph F)) :
    ∀ count code index, (setKernIndexLoop gbuf count code index).length = gbuf.length := by
  induction gbuf with
  | nil => intro count code index; rfl
  | cons g rest ih =>
    intro count code index
    cases count with
    | zero => rfl
    | succ n =>
      by_cases hg : g.code = code
      · simp [setKernIndexLoop, hg]
      · simp [setKernIndexLoop, hg, ih]

/-- Without a record of code `code` among the first `count` records the loop changes nothing. -/
theorem setKernIndexLoop_no_match (gbuf : List (TxfGlyph F)) :
    ∀ count code index, (∀ g ∈ gbuf.take count, g.code ≠ code) →
      setKernIndexLoop gbuf count code index = gbuf := by
  induction gbuf with
  | nil => intro count code index _; rfl
  | cons g rest ih =>
    intro count code index hno
    cases count with
    | zero => rfl
    | succ n =>
      have hg : g.code ≠ code := hno g (by simp)
      simp only [setKernIndexLoop, if_neg hg]
      rw [ih n code index (fun x hx => hno x (by simp [hx]))]

/-- The loop rewrites the `kernIndex` of the first record of code `code` and nothing else. -/
theorem setKernIndexLoop_first_match (pre : List (TxfGlyph F)) :
    ∀ (g : TxfGlyph F) (post : List (TxfGlyph F)) (count code index : Nat),
      pre.length < count → (∀ x ∈ pre, x.code ≠ code) → g.code = code →
      setKernIndexLoop (pre ++ g :: post) count code index =
        pre ++ { g with kernIndex := index } :: post := by
  induction pre with
  | nil =>
    intro g post count code index hc _ hg
    cases count with
    | zero => simp at hc
    | succ n => simp [setKernIndexLoop, hg]
  | cons a l ih =>
    intro g post count code index hc hpre hg
    cases count with
    | zero => simp at hc
    | succ n =>
      have ha : a.code ≠ code := hpre a (List.mem_cons_self _ _)
      have hrec := ih g post n code index (by simpa using hc)
        (fun x hx => hpre x (List.mem_cons_of_mem _ hx)) hg
      simp only [List.cons_append, setKernIndexLoop, if_neg ha]
      exact congrArg (List.cons a) hrec

/-- C19: `txf_setKernIndex` keeps the length of the array; if none of the first `count` records
has the given 16-bit code the array is unchanged; otherwise only the first record with that
code changes, and only in its `kernIndex`, which becomes the given 16-bit index.  Consequently,
in every output of the exporter the records agree with the glyph table built before the
kerning step in `code`, `advance`, `emRect` and `tcRect`, and a record of code 0 is unchanged. -/
theorem C19_setKernIndex_frame (gbuf : List (TxfGlyph F)) (count code index : Nat) :
    (txf_setKernIndex gbuf count code index).length = gbuf.length ∧
    ((∀ g ∈ gbuf.take count, g.code ≠ u16 code) →
      txf_setKernIndex gbuf count code index = gbuf) ∧
    (∀ pre g post, gbuf = pre ++ g :: post → pre.length < count →
      (∀ x ∈ pre, x.code ≠ u16 code) → g.code = u16 code →
      txf_setKernIndex gbuf count code index =
        pre ++ { g with kernIndex := u16 index } :: post) ∧
    (∀ (font : FontGeometry D) (fontSize pixelRange : D) (atlasWidth atlasHeight : Int)
      (kerning : Bool) (out : TxfFile F),
      exportFont M S font fontSize pixelRange atlasWidth atlasHeight kerning = some out →
      ∃ buf, fillGlyphs M (M.ofInt atlasWidth) (M.ofInt atlasHeight) font.lowCode
          font.glyphCount font.glyphs = some buf ∧
        out.gbuf.length = buf.length ∧
        ∀ (i : Nat) (b : TxfGlyph F), buf[i]? = some b →
          ∃ r : TxfGlyph F, out.gbuf[i]? = some r ∧ r.code = b.code ∧
          r.advance = b.advance ∧ r.emRect = b.emRect ∧ r.tcRect = b.tcRect ∧
          (b.code = 0 → r = b)) := by
  refine ⟨setKernIndexLoop_length gbuf count _ _,
    fun hno => setKernIndexLoop_no_match gbuf count _ _ hno, ?_, ?_⟩
  · intro pre g post hsplit hc hpre hg
    rw [hsplit]
    exact setKernIndexLoop_first_match pre g post count _ _ hc hpre hg
  · intro font fontSize pixelRange atlasWidth atlasHeight kerning out h
    obtain ⟨buf, hfill, _, hg⟩ :=
      exportFont_gbuf M S font fontSize pixelRange atlasWidth atlasHeight kerning out h
    refine ⟨buf, hfill, by rw [hg, List.length_map], ?_⟩
    intro i b hb
    refine ⟨_, by rw [hg, List.getElem?_map, hb]; rfl, ?_⟩
    dsimp only
    by_cases hc : kerning = true ∧ b.code ∈ (survivors M font).map (fun x => x.codeL)
    · rw [if_pos hc]
      refine ⟨rfl, rfl, rfl, rfl, fun h0 => ?_⟩
      exfalso
      obtain ⟨x, hx, hxe⟩ := List.mem_map.1 hc.2
      exact (survivors_mem M font x hx).1 (hxe.trans h0)
    · rw [if_neg hc]
      exact ⟨rfl, rfl, rfl, rfl, fun _ => rfl⟩

/-- In a three-record array with codes 65, 66, 66 a call with code 66 and index 7 rewrites the
second record only; in Scenario B the records keep the fields of the glyph table. -/
theorem C19_three_records :
    txf_setKernIndex
      [({ code := 65, kernIndex := 0, advance := 1, emRect := (0, 0, 1, 1),
          tcRect := (0, 0, 1, 1) } : TxfGlyph ℚ),
       { code := 66, kernIndex := 0, advance := 2, emRect := (0, 0, 1, 1), tcRect := (0, 0, 1, 1) },
       { code := 66, kernIndex := 0, advance := 3, emRect := (0, 0, 1, 1),
         tcRect := (0, 0, 1, 1) }] 3 66 7 =
      [{ code := 65, kernIndex := 0, advance := 1, emRect := (0, 0, 1, 1), tcRect := (0, 0, 1, 1) },
       { code := 66, kernIndex := 7, advance := 2, emRect := (0, 0, 1, 1), tcRect := (0, 0, 1, 1) },
       { code := 66, kernIndex := 0, advance := 3, emRect := (0, 0, 1, 1),
         tcRect := (0, 0, 1, 1) }] :=
  (C19_setKernIndex_frame exactOps insertionSort _ 3 66 7).2.2.1
    [{ code := 65, kernIndex := 0, advance := 1, emRect := (0, 0, 1, 1), tcRect := (0, 0, 1, 1) }]
    { code := 66, kernIndex := 0, advance := 2, emRect := (0, 0, 1, 1), tcRect := (0, 0, 1, 1) }
    [{ code := 66, kernIndex := 0, advance := 3, emRect := (0, 0, 1, 1), tcRect := (0, 0, 1, 1) }]
    rfl (by decide) (by simp [u16]) (by simp [u16])

end Frame

/-! ## Texture coordinates over exact rationals -/

section TexCoords

theorem unit_quotient (x : ℚ) (n : Int) (hn : 0 < n) (h0 : 0 ≤ x) (h1 : x ≤ (n : ℚ)) :
    0 ≤ exactOps.div x (exactOps.ofInt n) ∧ exactOps.div x (exactOps.ofInt n) ≤ 1 := by
  have hpos : (0 : ℚ) < (n : ℚ) := by exact_mod_cast hn
  show 0 ≤ x / (n : ℚ) ∧ x / (n : ℚ) ≤ 1
  exact ⟨div_nonneg h0 hpos.le, (div_le_one hpos).2 h1⟩

/-- C14: over exact rationals, for positive atlas width and height and an eligible glyph whose
atlas bounds lie in `[0, atlasWidth] × [0, atlasHeight]`, the record the exporter stores for the
glyph has the texture rectangle (left / atlasWidth, bottom / atlasHeight, right / atlasWidth,
top / atlasHeight) and its four values lie in `[0, 1]`; when the glyph is the last one with its
codepoint, this is the texture rectangle of record `codepoint - lowCode` of the output. -/
theorem C14_tcRect_in_unit_interval (S : SortAlgorithm ℚ) (font : FontGeometry ℚ)
    (fontSize pixelRange : ℚ) (atlasWidth atlasHeight : Int) (kerning : Bool)
    (hw : 0 < atlasWidth) (hh : 0 < atlasHeight) (g : GlyphGeometry ℚ)
    (hle : g.codepoint ≤ 0xffff)
    (hl : 0 ≤ g.atlasBounds.1 ∧ g.atlasBounds.1 ≤ (atlasWidth : ℚ))
    (hb : 0 ≤ g.atlasBounds.2.1 ∧ g.atlasBounds.2.1 ≤ (atlasHeight : ℚ))
    (hr : 0 ≤ g.atlasBounds.2.2.1 ∧ g.atlasBounds.2.2.1 ≤ (atlasWidth : ℚ))
    (ht : 0 ≤ g.atlasBounds.2.2.2 ∧ g.atlasBounds.2.2.2 ≤ (atlasHeight : ℚ)) :
    (glyphRecord exactOps (exactOps.ofInt atlasWidth) (exactOps.ofInt atlasHeight) g).tcRect =
      (g.atlasBounds.1 / (atlasWidth : ℚ), g.atlasBounds.2.1 / (atlasHeight : ℚ),
        g.atlasBounds.2.2.1 / (atlasWidth : ℚ), g.atlasBounds.2.2.2 / (atlasHeight : ℚ)) ∧
    (0 ≤ g.atlasBounds.1 / (atlasWidth : ℚ) ∧ g.atlasBounds.1 / (atlasWidth : ℚ) ≤ 1) ∧
    (0 ≤ g.atlasBounds.2.1 / (atlasHeight : ℚ) ∧ g.atlasBounds.2.1 / (atlasHeight : ℚ) ≤ 1) ∧
    (0 ≤ g.atlasBounds.2.2.1 / (atlasWidth : ℚ) ∧ g.atlasBounds.2.2.1 / (atlasWidth : ℚ) ≤ 1) ∧
    (0 ≤ g.atlasBounds.2.2.2 / (atlasHeight : ℚ) ∧ g.atlasBounds.2.2.2 / (atlasHeight : ℚ) ≤ 1) ∧
    (∀ (out : TxfFile ℚ) (pre post : List (GlyphGeometry ℚ)),
      exportFont exactOps S font fontSize pixelRange atlasWidth atlasHeight kerning = some out →
      font.glyphs = pre ++ g :: post → (∀ x ∈ post, x.codepoint ≠ g.codepoint) →
      ∃ r : TxfGlyph ℚ, out.gbuf[g.codepoint - font.lowCode]? = some r ∧
        r.tcRect = (g.atlasBounds.1 / (atlasWidth : ℚ), g.atlasBounds.2.1 / (atlasHeight : ℚ),
          g.atlasBounds.2.2.1 / (atlasWidth : ℚ), g.atlasBounds.2.2.2 / (atlasHeight : ℚ))) := by
  refine ⟨rfl, unit_quotient _ _ hw hl.1 hl.2, unit_quotient _ _ hh hb.1 hb.2,
    unit_quotient _ _ hw hr.1 hr.2, unit_quotient _ _ hh ht.1 ht.2, ?_⟩
  intro out pre post hout hsplit hlast
  obtain ⟨hdef, _, _, _, hcount, _, _⟩ :=
    exportFont_some exactOps S font fontSize pixelRange atlasWidth atlasHeight kerning out hout
  have hg : g ∈ font.glyphs := by rw [hsplit]; simp
  obtain ⟨h1, h2, h3⟩ := slot_index_valid font hdef g hg hle
  obtain ⟨_, hrec⟩ :=
    exportFont_records exactOps S font fontSize pixelRange atlasWidth atlasHeight kerning out hout
  obtain ⟨r, hr1, hr2, _⟩ := hrec (g.codepoint - font.lowCode) (by rw [hcount, ← h2]; exact h3)
  obtain ⟨_, _, _, h4⟩ := hr2 pre g post hsplit hle (by omega) hlast
  exact ⟨r, hr1, h4⟩

/-- Scenario A on a 64 by 64 atlas: the glyph of 'B' has the atlas bounds (0, 0, 32, 32), and
its record, record 1, has the texture rectangle (0, 0, 1/2, 1/2). -/
theorem C14_scenarioA :
    ∃ out, exportFont exactOps insertionSort scenarioA 32 2 64 64 false = some out ∧
      ∃ r : TxfGlyph ℚ, out.gbuf[1]? = some r ∧ r.tcRect = (0, 0, 1 / 2, 1 / 2) ∧
        (0 : ℚ) ≤ 1 / 2 ∧ (1 / 2 : ℚ) ≤ 1 := by
  have hr : scanRange scenarioA.glyphs = (65, 67) := by
    simp [scanRange, scanStep, scenarioA, sampleGlyph]
  have hdef : scanRange scenarioA.glyphs ≠ (0, 0xffff) := by rw [hr]; simp
  obtain ⟨out, hout⟩ := exportFont_defined exactOps insertionSort scenarioA 32 2 64 64 false hdef
  have hlow : scenarioA.lowCode = 65 := by simp [FontGeometry.lowCode, hr]
  obtain ⟨_, _, _, h3, _, h5⟩ := C14_tcRect_in_unit_interval insertionSort scenarioA 32 2 64 64
    false (by decide) (by decide) (sampleGlyph 2 66 1) (by simp [sampleGlyph])
    (by simp [sampleGlyph]) (by simp [sampleGlyph]) (by norm_num [sampleGlyph])
    (by norm_num [sampleGlyph])
  obtain ⟨r, hr1, hr2⟩ := h5 out [sampleGlyph 1 65 1] [sampleGlyph 3 67 1] hout rfl
    (by simp [sampleGlyph])
  rw [hlow] at hr1
  refine ⟨out, hout, r, hr1, ?_, by norm_num, by norm_num⟩
  rw [hr2]
  norm_num [sampleGlyph]

end TexCoords

/-! ## The advance word -/

section AdvanceWord

variable {D F : Type} (M : FloatOps D F) (S : SortAlgorithm F)

/-- Ties go to the even neighbour: 1/2 and 5/2 round to 0 and 2, 3/2 rounds to 2, and
`(1 + 2^-24) * 2^23` rounds to `2^23`. -/
theorem roundScaled_ties_to_even :
    roundScaled 1 2 0 = 0 ∧ roundScaled 3 2 0 = 2 ∧ roundScaled 5 2 0 = 2 ∧
    roundScaled 16777217 16777216 23 = 8388608 ∧ roundScaled 16777219 16777216 23 = 8388610 := by
  decide

/-- Narrowing rounds to nearest: -0.05 becomes `0xBD4CCCCD`, not the truncated
`0xBD4CCCCC`. -/
theorem binary32_rounds_to_nearest : binary32 (-1 / 20) = 0xBD4CCCCD := by
  with_unfolding_all rfl

end AdvanceWord

/-! ## Reading a run back -/

section Reader

variable {D F : Type} (M : FloatOps D F) (S : SortAlgorithm F)

theorem readPairs_pair (r a : Nat) (rest : List Nat) (hr : r ≠ 0) :
    readPairs (r :: a :: rest) = (readPairs rest).map (fun l => (r, a) :: l) := by
  simp [readPairs, hr]

theorem readPairs_zero (rest : List Nat) : readPairs (0 :: rest) = some [] := by
  cases rest with
  | nil => simp [readPairs]
  | cons a l => simp [readPairs]

/-- Reading the words of the entries that follow inside a run: the reader returns the pairs of
the entries up to the first entry with another left codepoint. -/
theorem readPairs_flatWords (c : Nat) (post : List (KernSortEntry F))
    (hR : ∀ x ∈ post, x.codeR ≠ 0) :
    readPairs (flatWords M c post ++ [0]) =
      some ((post.takeWhile (fun x => decide (x.codeL = c))).map
        (fun e => (e.codeR, M.bits e.advance))) := by
  induction post with
  | nil => simp [flatWords, readPairs]
  | cons a l ih =>
    by_cases ha : a.codeL = c
    · have ih1 := ih (fun x hx => hR x (List.mem_cons_of_mem _ hx))
      subst ha
      rw [flatWords_cons_same]
      show readPairs (a.codeR :: M.bits a.advance :: (flatWords M a.codeL l ++ [0])) = _
      rw [readPairs_pair _ _ _ (hR a (List.mem_cons_self _ _)), ih1]
      simp
    · rw [flatWords_cons_new M c a l (fun h => ha h.symm)]
      show readPairs (0 :: _) = _
      rw [readPairs_zero]
      simp [List.takeWhile_cons, ha]

/-- In a list ordered by left codepoint whose entries are all at or above `c`, the entries with
left codepoint `c` are the leading ones. -/
theorem filter_eq_takeWhile (c : Nat) (l : List (KernSortEntry F))
    (hs : l.Pairwise (fun a b => a.codeL ≤ b.codeL)) (hc : ∀ x ∈ l, c ≤ x.codeL) :
    l.filter (fun x => decide (x.codeL = c)) = l.takeWhile (fun x => decide (x.codeL = c)) := by
  induction l with
  | nil => rfl
  | cons a l ih =>
    rw [List.pairwise_cons] at hs
    by_cases ha : a.codeL = c
    · rw [List.filter_cons_of_pos (by simpa using ha),
        List.takeWhile_cons_of_pos (by simpa using ha),
        ih hs.2 (fun x hx => hc x (List.mem_cons_of_mem _ hx))]
    · rw [List.filter_cons_of_neg (by simpa using ha),
        List.takeWhile_cons_of_neg (by simpa using ha), List.filter_eq_nil_iff]
      intro x hx
      have h1 := hs.1 x hx
      have h2 := hc a (List.mem_cons_self _ _)
      simp only [decide_eq_true_eq]
      omega

/-- Reading the table from the start of the run of a surviving left codepoint `c` stops inside
the table and returns the sorted surviving pairs of `c`. -/
theorem readRun_runStart (font : FontGeometry D) (fontSize pixelRange : D)
    (atlasWidth atlasHeight : Int) (out : TxfFile F)
    (h : exportFont M S font fontSize pixelRange atlasWidth atlasHeight true = some out)
    (c : Nat) (hc : c ∈ (survivors M font).map (fun x => x.codeL)) :
    readRun out.kernTable (runStart M (S.run (survivors M font)) c) =
      some (((S.run (survivors M font)).filter (fun x => decide (x.codeL = c))).map
        (fun e => (e.codeR, M.bits e.advance))) := by
  obtain ⟨e, post, hsplit, he, htab, _⟩ :=
    exportFont_run_index M S font fontSize pixelRange atlasWidth atlasHeight out h c hc
  have hpre : ∀ x ∈ entriesBefore (S.run (survivors M font)) c, x.codeL ≠ c := by
    intro x hx
    have := List.mem_takeWhile_imp hx
    simpa using this
  have hsorted := sorted_left S (survivors M font)
  have hmemR : ∀ x ∈ S.run (survivors M font), x.codeR ≠ 0 := fun x hx =>
    (survivors_mem M font x ((sorted_mem S _ x).1 hx)).2.1
  have hfilter : (S.run (survivors M font)).filter (fun x => decide (x.codeL = c)) =
      e :: post.takeWhile (fun x => decide (x.codeL = c)) := by
    have hs2 : (entriesBefore (S.run (survivors M font)) c ++ e :: post).Pairwise
        (fun a b => a.codeL ≤ b.codeL) := by rw [← hsplit]; exact hsorted
    rw [List.pairwise_append] at hs2
    have hs3 := hs2.2.1
    rw [List.pairwise_cons] at hs3
    have hfil : (S.run (survivors M font)).filter (fun x => decide (x.codeL = c)) =
        (entriesBefore (S.run (survivors M font)) c ++ e :: post).filter
          (fun x => decide (x.codeL = c)) := congrArg _ hsplit
    rw [hfil, List.filter_append, List.filter_cons_of_pos (by simpa using he)]
    have hnil : (entriesBefore (S.run (survivors M font)) c).filter
        (fun x => decide (x.codeL = c)) = [] := by
      rw [List.filter_eq_nil_iff]
      intro x hx
      simpa using hpre x hx
    rw [hnil, List.nil_append,
      filter_eq_takeWhile c post hs3.2 (fun x hx => by rw [← he]; exact hs3.1 x hx)]
  have hpostR : ∀ x ∈ post, x.codeR ≠ 0 := fun x hx =>
    hmemR x (by rw [hsplit]; simp [hx])
  have heR : e.codeR ≠ 0 := hmemR e (by rw [hsplit]; simp)
  rw [hfilter, readRun, htab, runStart, List.drop_append, List.drop_succ_cons, List.drop_zero]
  show readPairs (e.codeR :: M.bits e.advance :: (flatWords M c post ++ [0])) = _
  rw [readPairs_pair _ _ _ heR, readPairs_flatWords M c post hpostR]
  simp

/-- The kerning table of `manyPairsFont n` starts with the placeholder of the run of the left
codepoint 1 and the pair (1, bits(-2.0)). -/
theorem manyPairs_table_head (n : Nat) (h2 : 2 ≤ n) (hn : n ≤ 0xffff) (out : TxfFile ℚ)
    (hout : exportFont exactOps insertionSort (manyPairsFont n) 32 2 64 64 true = some out) :
    ∃ rest, out.kernTable = 0 :: 1 :: 0xC0000000 :: rest := by
  have hs := manyPairs_survivors n h2 hn
  obtain ⟨_, _, _, _, _, _, hker⟩ :=
    exportFont_some exactOps insertionSort (manyPairsFont n) 32 2 64 64 true out hout
  obtain ⟨_, htab, _⟩ := hker rfl (by rw [hs]; simp)
  rw [hs, manyPairs_sorted n] at htab
  obtain ⟨m, rfl⟩ : ∃ m, n = m + 1 := ⟨n - 1, by omega⟩
  rw [List.range_succ_eq_map, List.map_cons, List.cons_append,
    flatWords_cons_new exactOps _ _ _ (by decide)] at htab
  simp only [pairWords, exactOps, binary32_neg_two, List.cons_append, List.nil_append] at htab
  exact ⟨_, htab⟩

theorem readPairs_head_ne (r : Nat) (l : List Nat) (p : Nat × Nat) (hr0 : r ≠ 0)
    (hr : r ≠ p.1) : readPairs (r :: l) ≠ some [p] := by
  cases l with
  | nil => simp [readPairs, hr0]
  | cons a rest =>
    rw [readPairs_pair _ _ _ hr0]
    cases readPairs rest with
    | none => simp
    | some q =>
      simp only [Option.map_some', ne_eq, Option.some.injEq, List.cons.injEq, not_and]
      intro h
      exact absurd (congrArg Prod.fst h) hr

/-- C16: on the font with glyphs for the codepoints 1..32768, the kerning pairs (1, r) for
r = 1..32768 and the pair (2, 1), the record of codepoint 2 has the non-zero `kernIndex` 2 (its
run starts at word 65538), the only surviving pair with left codepoint 2 is (2, 1, -2.0), but
the reader started at word 2 takes the advance word `0xC0000000` of the first pair of
codepoint 1 for a right codepoint and does not return the pair of codepoint 2. -/
theorem C16_reader_misled_by_wrapped_index :
    ∃ out, exportFont exactOps insertionSort (manyPairsFont 32768) 32 2 64 64 true = some out ∧
      runStart exactOps (insertionSort.run (survivors exactOps (manyPairsFont 32768))) 2 = 65538 ∧
      (survivors exactOps (manyPairsFont 32768)).filter (fun x => decide (x.codeL = 2)) =
        [{ codeL := 2, codeR := 1, advance := -2 }] ∧
      ∃ r, out.gbuf[1]? = some r ∧ r.code = 2 ∧ r.kernIndex = 2 ∧
        out.kernTable[r.kernIndex]? = some 0xC0000000 ∧
        readRun out.kernTable r.kernIndex ≠ some [(1, 0xC0000000)] := by
  obtain ⟨out, hout, hstart, _, _, _, r, hr1, hr2, hr3⟩ :=
    manyPairs_export 32768 (by norm_num) (by norm_num)
  obtain ⟨rest, htab⟩ := manyPairs_table_head 32768 (by norm_num) (by norm_num) out hout
  have hk : r.kernIndex = 2 := by rw [hr3]; rfl
  refine ⟨out, hout, by rw [hstart], ?_, r, hr1, hr2, hk, ?_, ?_⟩
  · rw [manyPairs_survivors 32768 (by norm_num) (by norm_num), List.filter_append]
    have hnil : List.filter (fun x => decide (x.codeL = 2))
        ((List.range 32768).map (fun k =>
          ({ codeL := 1, codeR := k + 1, advance := -2 } : KernSortEntry ℚ))) = [] := by
      rw [List.filter_eq_nil_iff]
      intro x hx
      obtain ⟨k, _, rfl⟩ := List.mem_map.1 hx
      simp
    rw [hnil]
    rfl
  · rw [hk, htab]; simp
  · rw [hk, htab]
    show readPairs (0xC0000000 :: rest) ≠ _
    exact readPairs_head_ne _ _ _ (by decide) (by decide)

end Reader

/-! ## The path of the output file -/

section Paths

theorem startsWith_iff (s n : List Char) : startsWith s n = true ↔ ∃ b, s = n ++ b := by
  induction n generalizing s with
  | nil => cases s <;> simp [startsWith]
  | cons c cs ih =>
    cases s with
    | nil => simp [startsWith]
    | cons h hs =>
      simp only [startsWith, Bool.and_eq_true, beq_iff_eq, ih, List.cons_append, List.cons.injEq]
      constructor
      · rintro ⟨rfl, b, rfl⟩
        exact ⟨b, rfl, rfl⟩
      · rintro ⟨b, rfl, rfl⟩
        exact ⟨rfl, b, rfl⟩

/-- A null pointer from `strstr` means that the needle does not occur. -/
theorem strstr_none (s n : List Char) (h : strstr s n = none) : ∀ a b, s ≠ a ++ n ++ b := by
  induction s with
  | nil =>
    intro a b hab
    simp only [strstr] at h
    split at h
    · cases h
    · rename_i hs
      apply hs
      rw [startsWith_iff]
      have h1 : a = [] ∧ n = [] ∧ b = [] := by
        have := congrArg List.length hab
        simp only [List.length_nil, List.length_append] at this
        refine ⟨List.length_eq_zero.1 (by omega), List.length_eq_zero.1 (by omega),
          List.length_eq_zero.1 (by omega)⟩
      exact ⟨[], by rw [h1.2.1]; rfl⟩
  | cons c cs ih =>
    intro a b hab
    simp only [strstr] at h
    split at h
    · cases h
    · rename_i hs
      have hrec : strstr cs n = none := by
        cases hr : strstr cs n with
        | none => rfl
        | some k => rw [hr] at h; cases h
      cases a with
      | nil =>
        apply hs
        rw [startsWith_iff]
        exact ⟨b, by simpa using hab⟩
      | cons x xs =>
        simp only [List.cons_append, List.cons.injEq] at hab
        exact ih hrec xs b hab.2

/-- The offset `strstr` returns is that of the first occurrence of the needle. -/
theorem strstr_some (s n : List Char) (k : Nat) (h : strstr s n = some k) :
    k ≤ s.length ∧ (∃ b, s = s.take k ++ n ++ b) ∧
      ∀ a b, s = a ++ n ++ b → k ≤ a.length := by
  induction s generalizing k with
  | nil =>
    simp only [strstr] at h
    split at h
    · cases h
      rename_i hs
      obtain ⟨b, hb⟩ := (startsWith_iff [] n).1 hs
      exact ⟨Nat.le_refl _, ⟨b, by simpa using hb⟩, fun _ _ _ => Nat.zero_le _⟩
    · cases h
  | cons c cs ih =>
    simp only [strstr] at h
    split at h
    · cases h
      rename_i hs
      obtain ⟨b, hb⟩ := (startsWith_iff (c :: cs) n).1 hs
      exact ⟨Nat.zero_le _, ⟨b, by simpa using hb⟩, fun _ _ _ => Nat.zero_le _⟩
    · rename_i hs
      cases hr : strstr cs n with
      | none => rw [hr] at h; cases h
      | some j =>
        rw [hr] at h
        cases h
        obtain ⟨hle, ⟨b, hb⟩, hmin⟩ := ih j hr
        refine ⟨by simpa using hle, ⟨b, ?_⟩, ?_⟩
        · simp only [List.take_succ_cons, List.cons_append, List.cons.injEq, true_and]
          exact hb
        · intro a b2 hab
          cases a with
          | nil =>
            exfalso
            apply hs
            rw [startsWith_iff]
            exact ⟨b2, by simpa using hab⟩
          | cons x xs =>
            simp only [List.cons_append, List.cons.injEq] at hab
            have := hmin xs b2 hab.2
            simpa using this

/-- The text kept by `outfilePath` when the needle first occurs after `a`. -/
theorem strstr_first (s n a b : List Char) (hab : s = a ++ n ++ b)
    (hmin : ∀ x y, s = x ++ n ++ y → a.length ≤ x.length) :
    strstr s n = some a.length := by
  cases hr : strstr s n with
  | none => exact absurd hab (strstr_none s n hr a b)
  | some k =>
    obtain ⟨hle, ⟨b2, hb2⟩, hfirst⟩ := strstr_some s n k hr
    have h1 : k ≤ a.length := hfirst a b hab
    have h2 := hmin _ _ hb2
    rw [List.length_take] at h2
    have : k = a.length := by omega
    rw [this]

/-- An occurrence of the needle after `a` is seen by `startsWith` at offset `a.length`. -/
theorem occurrence_offset (s n a b : List Char) (hab : s = a ++ n ++ b) :
    a.length ≤ s.length ∧ startsWith (s.drop a.length) n = true := by
  subst hab
  refine ⟨by simp only [List.length_append]; omega, ?_⟩
  rw [startsWith_iff]
  exact ⟨b, by simp [List.append_assoc]⟩

/-- The text appended for a font is at least `"-.txf"`. -/
theorem nameSuffix_length (i : Nat) (name : Option String) : 5 ≤ (nameSuffix i name).length := by
  cases name <;> simp [nameSuffix, txfExtension]

/-- The path when the text before the first `".txf"` has length `k`, or when there is none and
`k` is the length of the filename. -/
theorem outfilePath_cut (filename : List Char) (fontCount i : Nat) (name : Option String)
    (hfc : 1 < fontCount) (k : Nat) (hk : k ≤ filename.length)
    (hbase : (match strstr filename txfExtension with
      | some j => j
      | none => filename.length) = k)
    (hlen : filename.length ≤ k + 4) :
    outfilePath filename fontCount i name =
      if (filename.take k ++ nameSuffix i name).length < 512
        then some (filename.take k ++ nameSuffix i name) else none := by
  have h5 := nameSuffix_length i name
  have hl : (filename.take k ++ nameSuffix i name).length = k + (nameSuffix i name).length := by
    rw [List.length_append, List.length_take, Nat.min_eq_left hk]
  rw [hl]
  by_cases hbig : 512 ≤ filename.length
  · rw [if_neg (by omega)]
    simp only [outfilePath, if_pos hbig]
  · simp only [outfilePath, if_neg hbig, if_pos hfc, hbase]
    by_cases hfit : k + (nameSuffix i name).length < 512
    · rw [if_pos hfit, if_neg (by omega)]
    · rw [if_neg hfit, if_pos (by omega)]

/-- Claim C12, amended: with at most one font the output path is the given filename.  With more
than one font and a filename that ends in ".txf" and has no other occurrence of ".txf", it is
the filename with "-name" inserted immediately before that extension; with more than one font
and a filename in which ".txf" does not occur, it is the filename followed by "-name.txf".  The
name is the decimal index of the font for a font without a name.  In each case the path is
produced exactly when it has fewer than 512 characters. -/
theorem C12_output_path (filename : List Char) (fontCount i : Nat) (name : Option String) :
    (fontCount ≤ 1 →
      outfilePath filename fontCount i name =
        if filename.length < 512 then some filename else none) ∧
    (1 < fontCount → ∀ stem tag : List Char, filename = stem ++ ['.', 't', 'x', 'f'] →
      (∀ a b, filename = a ++ ['.', 't', 'x', 'f'] ++ b → a = stem) →
      tag = (match name with
        | some n => n.data
        | none => (Nat.repr i).data) →
      outfilePath filename fontCount i name =
        if (stem ++ '-' :: tag ++ ['.', 't', 'x', 'f']).length < 512
          then some (stem ++ '-' :: tag ++ ['.', 't', 'x', 'f']) else none) ∧
    (1 < fontCount → ∀ tag : List Char, (∀ a b, filename ≠ a ++ ['.', 't', 'x', 'f'] ++ b) →
      tag = (match name with
        | some n => n.data
        | none => (Nat.repr i).data) →
      outfilePath filename fontCount i name =
        if (filename ++ '-' :: tag ++ ['.', 't', 'x', 'f']).length < 512
          then some (filename ++ '-' :: tag ++ ['.', 't', 'x', 'f']) else none) := by
  have hsuffix : ∀ tag : List Char, tag = (match name with
        | some n => n.data
        | none => (Nat.repr i).data) →
      '-' :: tag ++ ['.', 't', 'x', 'f'] = nameSuffix i name := by
    intro tag ht
    subst ht
    cases name <;> rfl
  refine ⟨?_, ?_, ?_⟩
  · intro hfc
    by_cases hlen : filename.length < 512
    · rw [if_pos hlen]
      simp only [outfilePath, if_neg (show ¬ 512 ≤ filename.length by omega),
        if_neg (show ¬ 1 < fontCount by omega)]
    · rw [if_neg hlen]
      simp only [outfilePath, if_pos (show 512 ≤ filename.length by omega)]
  · intro hfc stem tag hstem huniq htag
    have hfirst : strstr filename txfExtension = some stem.length :=
      strstr_first filename txfExtension stem [] (by rw [hstem]; simp [txfExtension])
        (fun x y hxy => by rw [huniq x y hxy])
    have hcut := outfilePath_cut filename fontCount i name hfc stem.length
      (by rw [hstem]; simp) (by rw [hfirst]) (by rw [hstem]; simp)
    have htake : filename.take stem.length = stem := by rw [hstem, List.take_left]
    rw [hcut, ← hsuffix tag htag, htake]
    simp only [List.append_assoc]
  · intro hfc tag hno htag
    have hnone : strstr filename txfExtension = none := by
      cases hr : strstr filename txfExtension with
      | none => rfl
      | some k =>
        obtain ⟨_, ⟨b, hb⟩, _⟩ := strstr_some _ _ k hr
        exact absurd hb (hno _ _)
    have hcut := outfilePath_cut filename fontCount i name hfc filename.length
      (Nat.le_refl _) (by rw [hnone]) (by omega)
    rw [hcut, ← hsuffix tag htag, List.take_length]
    simp only [List.append_assoc]

/-- The amended claim C12 at concrete paths: one font keeps "atlas.txf"; the second of two
fonts, without a name, gets "atlas-1.txf"; "out.bin" with two fonts gives "out.bin-A.txf" for
the font named "A". -/
theorem C12_atlas_second_font :
    outfilePath "atlas.txf".data 1 0 none = some "atlas.txf".data ∧
    outfilePath "atlas.txf".data 2 1 none = some "atlas-1.txf".data ∧
    outfilePath "out.bin".data 2 0 (some "A") = some "out.bin-A.txf".data := by
  refine ⟨?_, ?_, ?_⟩
  · rw [(C12_output_path "atlas.txf".data 1 0 none).1 (by decide)]
    decide
  · rw [(C12_output_path "atlas.txf".data 2 1 none).2.1 (by decide) "atlas".data "1".data
      (by decide) ?_ (by decide)]
    · decide
    · intro x y hxy
      obtain ⟨hle, hst⟩ := occurrence_offset _ _ x y hxy
      have hall : ∀ k, k ≤ 9 →
          startsWith ("atlas.txf".data.drop k) ['.', 't', 'x', 'f'] = true → k = 5 := by
        decide
      have hk := hall _ hle hst
      have hx : x = "atlas.txf".data.take x.length := by
        rw [hxy, List.append_assoc, List.take_left]
      rw [hx, hk]
      decide
  · rw [(C12_output_path "out.bin".data 2 0 (some "A")).2.2 (by decide) "A".data ?_ (by decide)]
    · decide
    · intro x y hxy
      obtain ⟨hle, hst⟩ := occurrence_offset _ _ x y hxy
      have hall : ∀ k, k ≤ 7 →
          startsWith ("out.bin".data.drop k) ['.', 't', 'x', 'f'] = true → False := by
        decide
      exact hall _ hle hst

/-- Claim C12 as stated fails: with two fonts and the filename "out.bin" the first font, named
"A", is written to "out.bin-A.txf", not to "out-A.bin". -/
theorem C12_suffix_not_before_extension :
    outfilePath "out.bin".data 2 0 (some "A") = some "out.bin-A.txf".data ∧
    "out.bin-A.txf".data ≠ "out".data ++ "-A".data ++ ".bin".data := by
  decide

/-- A filename with ".txf" inside loses everything after its first occurrence. -/
theorem outfilePath_cuts_at_first_occurrence :
    outfilePath "a.txf.d/out.txf".data 2 0 (some "A") = some "a-A.txf".data := by
  decide

end Paths

/-! ## Several fonts -/

section MultiFont

variable {D F : Type} (M : FloatOps D F) (S : SortAlgorithm F)

/-- A filename that leaves room for the suffix gives a path. -/
theorem outfilePath_fits (filename : List Char) (fontCount i : Nat) (name : Option String)
    (hfit : filename.length + (nameSuffix i name).length < 512) :
    ∃ path, outfilePath filename fontCount i name = some path := by
  have hlen : ¬ 512 ≤ filename.length := by omega
  by_cases hfc : 1 < fontCount
  · cases hr : strstr filename txfExtension with
    | none =>
      refine ⟨filename ++ nameSuffix i name, ?_⟩
      simp only [outfilePath, if_neg hlen, if_pos hfc, hr]
      rw [if_neg (by omega), List.take_length]
    | some k =>
      have hle := (strstr_some _ _ k hr).1
      refine ⟨filename.take k ++ nameSuffix i name, ?_⟩
      simp only [outfilePath, if_neg hlen, if_pos hfc, hr]
      rw [if_neg (by omega)]
  · exact ⟨filename, by simp only [outfilePath, if_neg hlen, if_neg hfc]⟩

/-- An iteration that finds `kernTable` empty computes what `exportFont` computes, whatever the
previous iteration left in `hdr` and `highCode`, and leaves `kernTable` empty. -/
theorem fontBody_of_empty (c : Carried F) (hc : c.kernTable = []) (font : FontGeometry D)
    (fontSize pixelRange : D) (atlasWidth atlasHeight : Int) (kerning : Bool) :
    fontBody M S c font fontSize pixelRange atlasWidth atlasHeight kerning =
      (exportFont M S font fontSize pixelRange atlasWidth atlasHeight kerning).map
        (fun out => (out, { hdr := out.hdr, kernTable := [],
                            highCode := (scanRange font.glyphs).2 })) := by
  simp only [fontBody, exportFont, hc, kernBuildFrom, kernBuild]
  split
  · rfl
  · cases kerning
    · rfl
    · simp only [if_true]
      split <;> rfl

/-- With a sink that accepts everything, every font whose glyph range is not the full span and
whose path fits the buffer is written as `exportFont` computes it. -/
theorem exportLoop_all_accepted (sink : Sink F) (hopen : ∀ i p, sink.fopen i p = true)
    (hwrite : ∀ i ch, sink.fwrite i ch = ch.items) (fontCount : Nat) (fontSize pixelRange : D)
    (atlasWidth atlasHeight : Int) (filename : List Char) (kerning : Bool)
    (fonts : List (FontGeometry D)) (i : Nat) (c : Carried F) (hc : c.kernTable = [])
    (hdef : ∀ font ∈ fonts, scanRange font.glyphs ≠ (0, 0xffff))
    (hfit : ∀ j font, fonts[j]? = some font →
      ∃ path, outfilePath filename fontCount (i + j) font.name = some path) :
    ∃ logs, exportLoop M S sink fontCount fontSize pixelRange atlasWidth atlasHeight filename
        kerning fonts i c = some (true, logs) ∧
      logs.length = fonts.length ∧
      ∀ j font, fonts[j]? = some font → ∃ out path,
        exportFont M S font fontSize pixelRange atlasWidth atlasHeight kerning = some out ∧
        outfilePath filename fontCount (i + j) font.name = some path ∧
        logs[j]? = some { path := path, opened := true,
                          writes := (fontWrites out).map (fun ch => (ch, ch.items)) } := by
  induction fonts generalizing i c with
  | nil => exact ⟨[], rfl, rfl, fun j font h => by simp at h⟩
  | cons font rest ih =>
    obtain ⟨path, hp⟩ := hfit 0 font (List.getElem?_cons_zero)
    rw [Nat.add_zero] at hp
    obtain ⟨out, hout⟩ := exportFont_defined M S font fontSize pixelRange atlasWidth atlasHeight
      kerning (hdef font (List.mem_cons_self _ _))
    have hlen := (exportFont_records M S font fontSize pixelRange atlasWidth atlasHeight kerning
      out hout).1
    have hbody := fontBody_of_empty M S c hc font fontSize pixelRange atlasWidth atlasHeight
      kerning
    rw [hout] at hbody
    obtain ⟨logs, hl, hlen2, hall⟩ := ih (i + 1)
      { hdr := out.hdr, kernTable := [], highCode := (scanRange font.glyphs).2 } rfl
      (fun f hf => hdef f (List.mem_cons_of_mem _ hf))
      (fun j f hj => by
        have := hfit (j + 1) f (by simpa using hj)
        rwa [Nat.add_assoc, Nat.add_comm 1 j])
    have htake : (List.take out.hdr.glyphCount out.gbuf).length = out.hdr.glyphCount := by
      rw [List.length_take, hlen]; exact Nat.min_self _
    refine ⟨{ path := path, opened := true,
              writes := (fontWrites out).map (fun ch => (ch, ch.items)) } :: logs, ?_, ?_, ?_⟩
    · simp only [exportLoop, hp, hopen, if_true, hbody, Option.map_some', hwrite, Chunk.items,
        htake, hl]
      cases hk : out.kernTable.isEmpty <;> simp [fontWrites, hk, Chunk.items, htake]
    · simp [hlen2]
    · intro j f hj
      cases j with
      | zero =>
        simp only [List.getElem?_cons_zero, Option.some.injEq] at hj
        subst hj
        exact ⟨out, path, hout, hp, List.getElem?_cons_zero⟩
      | succ j =>
        simp only [List.getElem?_cons_succ] at hj
        obtain ⟨o, q, h1, h2, h3⟩ := hall j f hj
        refine ⟨o, q, h1, ?_, by simpa using h3⟩
        rw [← h2, Nat.add_assoc, Nat.add_comm 1 j]

/-- What the loop does check: a result `true` means that every file was opened and that the
header and the glyph records of every font were accepted in full; a result `false` means that
the last file touched could not be opened or took a short header or a short glyph array, and
no font after it was processed. -/
theorem exportLoop_checked (sink : Sink F) (fontCount : Nat) (fontSize pixelRange : D)
    (atlasWidth atlasHeight : Int) (filename : List Char) (kerning : Bool)
    (fonts : List (FontGeometry D)) (i : Nat) (c : Carried F) (hc : c.kernTable = [])
    (ok : Bool) (logs : List (FileLog F))
    (h : exportLoop M S sink fontCount fontSize pixelRange atlasWidth atlasHeight filename
      kerning fonts i c = some (ok, logs)) :
    logs.length ≤ fonts.length ∧
    (ok = true → logs.length = fonts.length ∧
      ∀ log ∈ logs, log.opened = true ∧ ∀ w ∈ log.writes.take 2, w.2 = w.1.items) ∧
    (ok = false → ∃ pre last, logs = pre ++ [last] ∧
      (last.opened = false ∨ ∃ w ∈ last.writes.take 2, w.2 ≠ w.1.items)) := by
  induction fonts generalizing i c ok logs with
  | nil =>
    simp only [exportLoop, Option.some.injEq, Prod.mk.injEq] at h
    obtain ⟨rfl, rfl⟩ := h
    simp
  | cons font rest ih =>
    simp only [exportLoop] at h
    cases hp : outfilePath filename fontCount i font.name with
    | none => simp [hp] at h
    | some path =>
      simp only [hp] at h
      by_cases ho : sink.fopen i path = true
      · rw [if_pos ho, fontBody_of_empty M S c hc] at h
        cases hout : exportFont M S font fontSize pixelRange atlasWidth atlasHeight kerning with
        | none => simp [hout] at h
        | some out =>
          simp only [hout, Option.map_some'] at h
          have hlen := (exportFont_records M S font fontSize pixelRange atlasWidth atlasHeight
            kerning out hout).1
          have htake : (List.take out.hdr.glyphCount out.gbuf).length = out.hdr.glyphCount := by
            rw [List.length_take, hlen]; exact Nat.min_self _
          by_cases hh : sink.fwrite i (Chunk.header out.hdr) = sizeofTxfHeader
          · rw [if_pos hh] at h
            by_cases hg : sink.fwrite i (Chunk.glyphs (out.gbuf.take out.hdr.glyphCount)) =
                out.hdr.glyphCount
            · rw [if_pos hg] at h
              cases hrest : exportLoop M S sink fontCount fontSize pixelRange atlasWidth
                  atlasHeight filename kerning rest (i + 1)
                  { hdr := out.hdr, kernTable := [], highCode := (scanRange font.glyphs).2 } with
              | none => simp [hrest] at h
              | some r =>
                obtain ⟨ok1, logs1⟩ := r
                simp only [hrest, Option.some.injEq, Prod.mk.injEq] at h
                obtain ⟨rfl, rfl⟩ := h
                obtain ⟨h1, h2, h3⟩ := ih (i + 1) _ rfl ok1 logs1 hrest
                refine ⟨by simpa using h1, ?_, ?_⟩
                · intro hok
                  obtain ⟨h4, h5⟩ := h2 hok
                  refine ⟨by simp [h4], ?_⟩
                  intro log hlog
                  rcases List.mem_cons.1 hlog with rfl | hlog
                  · refine ⟨rfl, ?_⟩
                    intro w hw
                    simp only [List.cons_append, List.take_succ_cons, List.take_zero,
                      List.mem_cons, List.not_mem_nil, or_false, List.nil_append] at hw
                    rcases hw with rfl | rfl
                    · exact hh
                    · simp only [Chunk.items, htake]
                      exact hg
                  · exact h5 log hlog
                · intro hok
                  obtain ⟨pre, last, hl, hlast⟩ := h3 hok
                  exact ⟨_ :: pre, last, by rw [hl]; rfl, hlast⟩
            · rw [if_neg hg] at h
              simp only [Option.some.injEq, Prod.mk.injEq] at h
              obtain ⟨rfl, rfl⟩ := h
              refine ⟨by simp, fun hok => (by cases hok), fun _ => ⟨[], _, rfl, Or.inr ?_⟩⟩
              refine ⟨(Chunk.glyphs (out.gbuf.take out.hdr.glyphCount),
                sink.fwrite i (Chunk.glyphs (out.gbuf.take out.hdr.glyphCount))), by simp, ?_⟩
              simp only [Chunk.items, htake]
              exact hg
          · rw [if_neg hh] at h
            simp only [Option.some.injEq, Prod.mk.injEq] at h
            obtain ⟨rfl, rfl⟩ := h
            refine ⟨by simp, fun hok => (by cases hok), fun _ => ⟨[], _, rfl, Or.inr ?_⟩⟩
            exact ⟨(Chunk.header out.hdr, sink.fwrite i (Chunk.header out.hdr)), by simp, hh⟩
      · rw [if_neg ho] at h
        simp only [Option.some.injEq, Prod.mk.injEq] at h
        obtain ⟨rfl, rfl⟩ := h
        exact ⟨by simp, fun hok => (by cases hok), fun _ => ⟨[], _, rfl, Or.inl rfl⟩⟩

/-- Claim C17: when the files open and every write is accepted, the header, glyph records and
kerning words written for font `i` of a list are those `exportFont` computes from that font
alone, and they are the writes of an export of the list `[font]`, whatever the uninitialised
variables hold at the start of either call. -/
theorem C17_fonts_do_not_leak (sink : Sink F) (hopen : ∀ i p, sink.fopen i p = true)
    (hwrite : ∀ i ch, sink.fwrite i ch = ch.items) (junkHdr junkHdr1 : TxfHeader F)
    (junkHighCode junkHighCode1 : Nat) (fonts : List (FontGeometry D)) (fontSize pixelRange : D)
    (atlasWidth atlasHeight : Int) (filename : List Char) (kerning : Bool)
    (hdef : ∀ font ∈ fonts, scanRange font.glyphs ≠ (0, 0xffff))
    (hfit : ∀ j font, fonts[j]? = some font →
      filename.length + (nameSuffix j font.name).length < 512) :
    ∃ logs, exportTXF M S sink junkHdr junkHighCode fonts fontSize pixelRange atlasWidth
        atlasHeight filename kerning = some (true, logs) ∧
      logs.length = fonts.length ∧
      ∀ (i : Nat) (font : FontGeometry D), fonts[i]? = some font →
        ∃ (out : TxfFile F) (log : FileLog F),
        exportFont M S font fontSize pixelRange atlasWidth atlasHeight kerning = some out ∧
        logs[i]? = some log ∧
        log.writes = (fontWrites out).map (fun ch => (ch, ch.items)) ∧
        exportTXF M S sink junkHdr1 junkHighCode1 [font] fontSize pixelRange atlasWidth
          atlasHeight filename kerning =
          some (true, [{ path := filename, opened := true, writes := log.writes }]) := by
  obtain ⟨logs, hl, hlen, hall⟩ := exportLoop_all_accepted M S sink hopen hwrite fonts.length
    fontSize pixelRange atlasWidth atlasHeight filename kerning fonts 0
    { hdr := junkHdr, kernTable := [], highCode := junkHighCode } rfl hdef
    (fun j font hj => by
      rw [Nat.zero_add]
      exact outfilePath_fits filename fonts.length j font.name (hfit j font hj))
  refine ⟨logs, hl, hlen, ?_⟩
  intro i font hi
  obtain ⟨out, path, hout, _, hlog⟩ := hall i font hi
  refine ⟨out, _, hout, hlog, rfl, ?_⟩
  have hshort : ¬ 512 ≤ filename.length := by
    have := hfit i font hi
    omega
  have hp : outfilePath filename 1 0 font.name = some filename := by
    simp only [outfilePath, if_neg hshort]
    rfl
  obtain ⟨logs1, hl1, hlen1, hall1⟩ := exportLoop_all_accepted M S sink hopen hwrite 1
    fontSize pixelRange atlasWidth atlasHeight filename kerning [font] 0
    { hdr := junkHdr1, kernTable := [], highCode := junkHighCode1 } rfl
    (fun f hf => by
      rw [List.mem_singleton] at hf
      subst hf
      exact hdef _ (List.getElem?_mem hi))
    (fun j f hj => by
      cases j with
      | zero =>
        simp only [List.getElem?_cons_zero, Option.some.injEq] at hj
        subst hj
        exact ⟨filename, hp⟩
      | succ j => simp at hj)
  obtain ⟨out1, path1, hout1, hp1, hlog1⟩ := hall1 0 font List.getElem?_cons_zero
  rw [hout] at hout1
  cases hout1
  rw [Nat.add_zero, hp] at hp1
  cases hp1
  have hone : logs1 =
      [{ path := filename, opened := true,
         writes := (fontWrites out).map (fun ch => (ch, ch.items)) }] := by
    cases logs1 with
    | nil => simp at hlen1
    | cons a t =>
      cases t with
      | nil =>
        simp only [List.getElem?_cons_zero, Option.some.injEq] at hlog1
        rw [hlog1]
      | cons b t => simp at hlen1
  simp only [exportTXF, List.length_singleton]
  rw [hl1, hone]

/-- Claim C17 on the list of scenario B and scenario A: the kerning words of the first font do
not reach the file of the second. -/
theorem C17_scenarioB_then_scenarioA :
    ∃ logs, exportTXF exactOps insertionSort (acceptAll ℚ) ⟨1, 2, 3, 4, 5, 6, 7, 8, 9⟩ 77
        [scenarioB, scenarioA] 32 2 64 64 "atlas.txf".data true = some (true, logs) ∧
      logs.length = [scenarioB, scenarioA].length ∧
      ∀ (i : Nat) (font : FontGeometry ℚ), [scenarioB, scenarioA][i]? = some font →
        ∃ (out : TxfFile ℚ) (log : FileLog ℚ),
        exportFont exactOps insertionSort font 32 2 64 64 true = some out ∧
        logs[i]? = some log ∧
        log.writes = (fontWrites out).map (fun ch => (ch, ch.items)) ∧
        exportTXF exactOps insertionSort (acceptAll ℚ) ⟨0, 0, 0, 0, 0, 0, 0, 0, 0⟩ 0 [font] 32 2
          64 64 "atlas.txf".data true =
          some (true, [{ path := "atlas.txf".data, opened := true, writes := log.writes }]) :=
  C17_fonts_do_not_leak exactOps insertionSort (acceptAll ℚ) (fun _ _ => rfl) (fun _ _ => rfl)
    ⟨1, 2, 3, 4, 5, 6, 7, 8, 9⟩ ⟨0, 0, 0, 0, 0, 0, 0, 0, 0⟩ 77 0 [scenarioB, scenarioA] 32 2 64 64
    "atlas.txf".data true
    (by
      intro font hf
      simp only [List.mem_cons, List.mem_singleton, List.not_mem_nil, or_false] at hf
      rcases hf with rfl | rfl <;> decide)
    (by
      intro j font hj
      rcases j with _ | _ | j
      · simp only [List.getElem?_cons_zero, Option.some.injEq] at hj
        subst hj
        decide
      · simp only [List.getElem?_cons_succ, List.getElem?_cons_zero, Option.some.injEq] at hj
        subst hj
        decide
      · simp at hj)

/-- Claim C11 fails at the list of scenario B and scenario A with a sink that accepts none of
the kerning words: the header (28 of 28 bytes) and the glyph records (3 of 3) of the first
font are written, 0 of its 4 kerning words are, and yet the second font is processed and the
result is success. -/
theorem C11_short_kerning_write_is_success (junkHdr : TxfHeader ℚ) (junkHighCode : Nat) :
    (exportTXF exactOps insertionSort (noKernSink ℚ) junkHdr junkHighCode [scenarioB, scenarioA]
        32 2 64 64 "atlas.txf".data true).map
      (fun r => (r.1, r.2.map (fun log =>
        (log.path, log.opened, log.writes.map (fun w => (w.1.items, w.2)))))) =
      some (true, [("atlas-0.txf".data, true, [(28, 28), (3, 3), (4, 0)]),
                   ("atlas-1.txf".data, true, [(28, 28), (3, 3)])]) := by
  with_unfolding_all rfl

end MultiFont

end msdf_atlas
